import Mathlib

/-! # MentOS kernel heap (`mentos/src/mem/kheap.c`)

A shallow embedding of the block manager, the region manager and the
`__do_malloc` / `__do_free` pair of the MentOS kernel heap, together with the
properties of the specification that concern them.

Modelling conventions.

* The target is a 32-bit machine: `uint32_t`, `size_t`, `unsigned int` and
  pointers are naturals reduced modulo `2 ^ 32` wherever the C arithmetic can
  wrap; `int` is an `Int` obtained through `to_int32`.
* The null pointer is `0`.
* The three prologue words `head`, `tail`, `freelist` stored at `vm_start`,
  `vm_start + 4`, `vm_start + 8` are fields of `Heap`; block headers are
  records of type `block_t` stored in `Heap.mem`, keyed by header address.
* `assert` failures, dereferences of a null block pointer and loops that do
  not terminate are results of type `Fault`; every loop runs on a fuel of
  `2 ^ 32` iterations, the number of distinct values of the 32-bit loop
  variable (the loops do not write memory, so a loop that runs longer has
  repeated a state and never ends).
-/

set_option autoImplicit false

namespace Kheap

/-! ## Data model -/

/-- Overhead given by the block header itself: `sizeof(block_t)`, three 32-bit words. -/
def OVERHEAD : Nat := 12

/-- Number of values of a 32-bit word. -/
def U32 : Nat := 2 ^ 32

/-- Size of a page of the paging layer. -/
def PAGE_SIZE : Nat := 4096

/-- Ways in which a call does not return normally. -/
inductive Fault where
  | assertion
  | null_deref
  | diverge
deriving DecidableEq, Repr

/-- Header of a block of memory (`struct block_t`). -/
structure block_t where
  size : Nat
  nextfree : Nat
  next : Nat
deriving DecidableEq, Repr

/-- A heap: the region descriptor (`vm_area_struct_t`), the top of the heap
(`kernel_heap_top` or `mm->brk`), the three prologue words and the block
headers found in memory. -/
structure Heap where
  vm_start : Nat
  vm_end : Nat
  top : Nat
  head : Nat
  tail : Nat
  freelist : Nat
  mem : Nat → block_t

/-- Store to `block->size`. -/
def Heap.set_size (h : Heap) (block v : Nat) : Heap :=
  { h with mem := fun a => if a = block then { h.mem a with size := v } else h.mem a }

/-- Store to `block->nextfree`. -/
def Heap.set_nextfree (h : Heap) (block v : Nat) : Heap :=
  { h with mem := fun a => if a = block then { h.mem a with nextfree := v } else h.mem a }

/-- Store to `block->next`. -/
def Heap.set_next (h : Heap) (block v : Nat) : Heap :=
  { h with mem := fun a => if a = block then { h.mem a with next := v } else h.mem a }

/-- Store to the prologue word `head`. -/
def Heap.set_head (h : Heap) (v : Nat) : Heap := { h with head := v }

/-- Store to the prologue word `tail`. -/
def Heap.set_tail (h : Heap) (v : Nat) : Heap := { h with tail := v }

/-- Store to the prologue word `freelist`. -/
def Heap.set_freelist (h : Heap) (v : Nat) : Heap := { h with freelist := v }

/-- Store to the top of the heap. -/
def Heap.set_top (h : Heap) (v : Nat) : Heap := { h with top := v }

/-- The C `assert`. -/
def c_assert (c : Prop) [Decidable c] : Except Fault Unit :=
  if c then .ok () else .error Fault.assertion

/-- Conversion of a `uint32_t` to `int` (two's complement). -/
def to_int32 (x : Nat) : Int :=
  if x % U32 < 2 ^ 31 then ((x % U32 : Nat) : Int) else ((x % U32 : Nat) : Int) - (U32 : Int)

/-- Address of the prologue word `head`. -/
def Heap.head_ptr (h : Heap) : Nat := h.vm_start % U32

/-- Address of the prologue word `tail`. -/
def Heap.tail_ptr (h : Heap) : Nat := (h.vm_start + 4) % U32

/-- Address of the prologue word `freelist`. -/
def Heap.freelist_ptr (h : Heap) : Nat := (h.vm_start + 2 * 4) % U32

/-! ## Block manager -/

/-- The macro `CEIL(NUMBER, 16)` on a `uint32_t`: `(NUMBER + 16 - 1) & ~(16 - 1)`. -/
def CEIL16 (number : Nat) : Nat := ((number + 16 - 1) % U32) &&& 0xFFFFFFF0

/-- Given the field size of a block, extract the size: `(size >> 1U) << 1U`. -/
def blkmngr_get_real_size (size : Nat) : Nat := ((size >>> 1) <<< 1) % U32

/-- The value stored by `blkmngr_set_free`: `x ? (size | 1U) : (size & 0xFFFFFFFE)`. -/
def set_free_word (size : Nat) (x : Nat) : Nat :=
  if x ≠ 0 then (size ||| 1) % U32 else size &&& 0xFFFFFFFE

/-- Sets the free/alloc bit of the size field of `block` (the C function takes
`&(block->size)`). -/
def blkmngr_set_free (h : Heap) (block : Nat) (x : Nat) : Heap :=
  h.set_size block (set_free_word (h.mem block).size x)

/-- Checks if a block is freed or allocated. -/
def blkmngr_is_free (mem : Nat → block_t) (block : Nat) : Bool :=
  if block = 0 then false else ((mem block).size &&& 1) != 0

/-- Checks if the given size fits inside the block. -/
def blkmngr_does_it_fit (mem : Nat → block_t) (block size : Nat) : Except Fault Bool := do
  c_assert (block ≠ 0)
  pure (decide ((mem block).size ≥ blkmngr_get_real_size size) && blkmngr_is_free mem block)

/-- The `while` loop of `blkmngr_remove_from_freelist`; returns the final `prev`. -/
def remove_loop (mem : Nat → block_t) (block : Nat) : Nat → Nat → Except Fault Nat
  | 0, _ => .error Fault.diverge
  | fuel + 1, prev =>
    if prev ≠ 0 ∧ (mem prev).nextfree ≠ block then
      remove_loop mem block fuel (mem prev).nextfree
    else .ok prev

/-- Removes the block from freelist. -/
def blkmngr_remove_from_freelist (h : Heap) (block : Nat) : Except Fault Heap := do
  c_assert (block ≠ 0)
  c_assert (h.freelist_ptr ≠ 0)
  let first_free_block := h.freelist
  c_assert (first_free_block ≠ 0)
  let h1 ←
    if block = first_free_block then
      pure (h.set_freelist (h.mem block).nextfree)
    else do
      let prev ← remove_loop h.mem block U32 first_free_block
      if prev ≠ 0 then pure (h.set_nextfree prev (h.mem block).nextfree) else pure h
  pure (h1.set_nextfree block 0)

/-- Add the block to the free list. -/
def blkmngr_add_to_freelist (h : Heap) (block : Nat) : Except Fault Heap := do
  c_assert (block ≠ 0)
  c_assert (h.freelist_ptr ≠ 0)
  let first_free_block := h.freelist
  let h1 := h.set_nextfree block first_free_block
  pure (h1.set_freelist block)

/-- The `for` loop of `blkmngr_find_best_fitting`; returns the final `best_fitting`. -/
def find_loop (mem : Nat → block_t) (size : Nat) : Nat → Nat → Nat → Except Fault Nat
  | 0, _, _ => .error Fault.diverge
  | fuel + 1, current, best_fitting =>
    if current = 0 then .ok best_fitting
    else do
      let fits ← blkmngr_does_it_fit mem current size
      if !fits then
        find_loop mem size fuel (mem current).nextfree best_fitting
      else if best_fitting = 0 ∨ (mem current).size < (mem best_fitting).size then
        find_loop mem size fuel (mem current).nextfree current
      else
        find_loop mem size fuel (mem current).nextfree best_fitting

/-- Find the best fitting block in the memory pool. -/
def blkmngr_find_best_fitting (h : Heap) (size : Nat) : Except Fault Nat := do
  c_assert (h.freelist_ptr ≠ 0)
  let first_free_block := h.freelist
  if first_free_block = 0 then pure 0
  else find_loop h.mem size U32 first_free_block 0

/-- The `while` loop of `blkmngr_get_previous_block`; returns the final `prev`. -/
def prev_loop (mem : Nat → block_t) (block : Nat) : Nat → Nat → Except Fault Nat
  | 0, _ => .error Fault.diverge
  | fuel + 1, prev =>
    if prev = 0 then .error Fault.null_deref
    else if (mem prev).next ≠ block then prev_loop mem block fuel (mem prev).next
    else .ok prev

/-- Given a block, finds its previous block. -/
def blkmngr_get_previous_block (h : Heap) (block : Nat) : Except Fault Nat := do
  c_assert (block ≠ 0)
  c_assert (h.head_ptr ≠ 0)
  let head_block := h.head
  c_assert (head_block ≠ 0)
  if block = head_block then pure 0
  else prev_loop h.mem block U32 head_block

/-- Given a block, finds its next block. -/
def blkmngr_get_next_block (h : Heap) (block : Nat) : Except Fault Nat := do
  c_assert (block ≠ 0)
  c_assert (h.tail_ptr ≠ 0)
  let tail_block := h.tail
  c_assert (tail_block ≠ 0)
  if block = tail_block then pure 0
  else pure (h.mem block).next

/-! ## Region manager -/

/-- Extends the heap of the given increment; returns the old top of the heap,
or null, and the heap with its new top. -/
def __do_brk (h : Heap) (increment : Int) : Nat × Heap :=
  if increment > 0 then
    let new_boundary := (h.top + increment.toNat) % U32
    if new_boundary ≤ h.vm_end then
      let old_heap_top := h.top
      (old_heap_top, h.set_top new_boundary)
    else (0, h)
  else (0, h)

/-- The wrappers `ksbrk` and `usbrk`: `__do_brk` on the top and the region of the heap. -/
def ksbrk (h : Heap) (increment : Int) : Nat × Heap := __do_brk h increment

/-- The wrapper `usbrk`: `__do_brk` on the top (`mm->brk`) and the heap region of
the current process, which are the heap given. -/
def usbrk (h : Heap) (increment : Int) : Nat × Heap := __do_brk h increment

/-! ## Allocation and release -/

/-- Allocates `size` bytes of uninitialized storage; returns the pointer and the new heap. -/
def __do_malloc (h : Heap) (size : Nat) : Except Fault (Nat × Heap) :=
  if size = 0 then pure (0, h)
  else do
    let head_block := h.head
    let tail_block := h.tail
    let rounded_size := CEIL16 size
    let block_size := (rounded_size + OVERHEAD) % U32
    let best_fitting ← blkmngr_find_best_fitting h rounded_size
    if best_fitting ≠ 0 then
      let block_ptr := best_fitting
      let stored_next_block ← blkmngr_get_next_block h best_fitting
      let chunk_size := (blkmngr_get_real_size (h.mem best_fitting).size + OVERHEAD) % U32
      let remaining_size := (chunk_size + U32 - block_size) % U32
      let real_size := if remaining_size < 8 + OVERHEAD then chunk_size else block_size
      let h := h.set_size best_fitting ((real_size + U32 - OVERHEAD) % U32)
      let h := blkmngr_set_free h best_fitting 0
      let base_ptr := block_ptr
      let block_ptr := (block_ptr + real_size) % U32
      let h ←
        if remaining_size < 8 + OVERHEAD then pure h
        else do
          let h ←
            if blkmngr_is_free h.mem stored_next_block then do
              let nextblock := stored_next_block
              let h ← blkmngr_remove_from_freelist h nextblock
              let t := block_ptr
              let h := h.set_size t
                ((remaining_size + blkmngr_get_real_size (h.mem nextblock).size) % U32)
              let h := blkmngr_set_free h t 1
              let nn ← blkmngr_get_next_block h stored_next_block
              let h := h.set_next t nn
              let h := if nextblock = tail_block then h.set_tail t else h
              blkmngr_add_to_freelist h t
            else do
              let putThisBack := block_ptr
              let h := h.set_size putThisBack ((remaining_size + U32 - OVERHEAD) % U32)
              let h := blkmngr_set_free h putThisBack 1
              let h := h.set_next putThisBack stored_next_block
              let h := if base_ptr = tail_block then h.set_tail putThisBack else h
              blkmngr_add_to_freelist h putThisBack
          pure (h.set_next base_ptr block_ptr)
      let h ← blkmngr_remove_from_freelist h base_ptr
      pure ((base_ptr + OVERHEAD) % U32, h)
    else
      let realsize := block_size
      let (ret, h) := ksbrk h (to_int32 realsize)
      c_assert (ret ≠ 0)
      let h ←
        if head_block = 0 then pure (h.set_head ret)
        else if tail_block = 0 then throw Fault.null_deref
        else pure (h.set_next tail_block ret)
      let h := h.set_next ret 0
      let h := h.set_nextfree ret 0
      let h := h.set_tail ret
      let h := h.set_size ret ((block_size + U32 - OVERHEAD) % U32)
      let h := blkmngr_set_free h ret 0
      pure ((ret + OVERHEAD) % U32, h)

/-- Deallocates previously allocated space. -/
def __do_free (h : Heap) (ptr : Nat) : Except Fault Heap := do
  c_assert (ptr ≠ 0)
  c_assert (h.head_ptr ≠ 0 ∧ h.tail_ptr ≠ 0 ∧ h.freelist_ptr ≠ 0)
  let tail_block := h.tail
  let curr := (ptr + U32 - OVERHEAD) % U32
  let prev ← blkmngr_get_previous_block h curr
  let next ← blkmngr_get_next_block h curr
  if blkmngr_is_free h.mem prev && blkmngr_is_free h.mem next then
    let h := h.set_size prev
      ((blkmngr_get_real_size (h.mem prev).size + 2 * OVERHEAD +
        blkmngr_get_real_size (h.mem curr).size +
        blkmngr_get_real_size (h.mem next).size) % U32)
    let h := blkmngr_set_free h prev 1
    let nn ← blkmngr_get_next_block h next
    let h := h.set_next prev nn
    let h := if tail_block = next then h.set_tail prev else h
    blkmngr_remove_from_freelist h next
  else if blkmngr_is_free h.mem prev then
    let h := h.set_size prev
      ((blkmngr_get_real_size (h.mem prev).size + OVERHEAD +
        blkmngr_get_real_size (h.mem curr).size) % U32)
    let h := blkmngr_set_free h prev 1
    let h := h.set_next prev next
    let h := if tail_block = curr then h.set_tail prev else h
    pure h
  else if blkmngr_is_free h.mem next then
    let h := h.set_size curr
      ((blkmngr_get_real_size (h.mem curr).size + OVERHEAD +
        blkmngr_get_real_size (h.mem next).size) % U32)
    let h := blkmngr_set_free h curr 1
    let nn ← blkmngr_get_next_block h next
    let h := h.set_next curr nn
    let h := if tail_block = next then h.set_tail curr else h
    let h ← blkmngr_remove_from_freelist h next
    blkmngr_add_to_freelist h curr
  else
    let h := blkmngr_set_free h curr 1
    blkmngr_add_to_freelist h curr

/-- The kernel heap after `kheap_init`: `base` is the address returned by
`__alloc_pages_lowmem` for the order `order` computed by
`find_nearest_order_greater`, and `mem` the block memory found there, which
`kheap_init` does not touch (it zeroes the three prologue words only). -/
def kheap_init (mem : Nat → block_t) (base order : Nat) : Heap :=
  { vm_start := base
    vm_end := (base + ((1 <<< order) % U32 * PAGE_SIZE) % U32) % U32
    top := (base + 3 * 4) % U32
    head := 0
    tail := 0
    freelist := 0
    mem := mem }

/-- The system call `sys_brk`. `heap_segment` is what `__find_user_heap` returns
for the current process (`none` for null); `area` is the segment that
`__find_user_heap` returns after `create_vm_area`, whose start is `mm->start_brk`
and whose `top` stands for the cursor `mm->brk`, which `sys_brk` sets. -/
def sys_brk (heap_segment : Option Heap) (area : Heap) (addr : Nat) :
    Except Fault (Nat × Heap) :=
  let heap_segment :=
    match heap_segment with
    | some s => s
    | none => area.set_top ((area.vm_start + 3 * 4) % U32)
  if addr > heap_segment.vm_start ∧ addr < heap_segment.vm_end then do
    let h ← __do_free heap_segment addr
    pure (0, h)
  else __do_malloc heap_segment addr

/-! ## Circular doubly-linked lists (`klib/list_head.h`) -/

/-- Structure used to implement the list_head data structure. -/
structure list_head where
  prev : Nat
  next : Nat
deriving DecidableEq, Repr

/-- Store to `l->prev`. -/
def store_prev (m : Nat → list_head) (l v : Nat) : Nat → list_head :=
  fun x => if x = l then { m x with prev := v } else m x

/-- Store to `l->next`. -/
def store_next (m : Nat → list_head) (l v : Nat) : Nat → list_head :=
  fun x => if x = l then { m x with next := v } else m x

/-- Initializes the list_head: `(head)->next = (head)->prev = (head)`. -/
def list_head_init (m : Nat → list_head) (head : Nat) : Nat → list_head :=
  store_next (store_prev m head head) head head

/-- Tests whether the given list is empty: 1 if empty, 0 otherwise. -/
def list_head_empty (m : Nat → list_head) (head : Nat) : Nat :=
  if (m head).next = head then 1 else 0

/-- Merges the elements of `l2` into the elements of `l1`. -/
def list_head_merge (m : Nat → list_head) (l1 l2 : Nat) : Nat → list_head :=
  let m := store_next m (m l1).prev (m l2).next
  let m := store_prev m (m l2).next (m l1).prev
  let m := store_next m (m l2).prev l1
  let m := store_prev m l1 (m l2).prev
  list_head_init m l2

/-- The cells `a` and then those of `l` are linked in this order: `next` of each
leads to the one that follows and `prev` of that one leads back. -/
def dpath (m : Nat → list_head) : Nat → List Nat → Prop
  | _, [] => True
  | a, b :: l => (m a).next = b ∧ (m b).prev = a ∧ dpath m b l

instance dpath.dec (m : Nat → list_head) : (a : Nat) → (l : List Nat) → Decidable (dpath m a l)
  | _, [] => isTrue trivial
  | _, b :: l =>
    @instDecidableAnd _ _ _ (@instDecidableAnd _ _ _ (dpath.dec m b l))

/-- A well-formed circular doubly-linked list with head `head` and elements `xs`:
the cells are distinct, linked in this order, and the last one is linked back
to the head. -/
def dlist (m : Nat → list_head) (head : Nat) (xs : List Nat) : Prop :=
  dpath m head xs ∧ (m (xs.getLastD head)).next = head ∧
    (m head).prev = xs.getLastD head ∧ (head :: xs).Nodup

instance dlist.dec (m : Nat → list_head) (head : Nat) (xs : List Nat) :
    Decidable (dlist m head xs) :=
  inferInstanceAs (Decidable (_ ∧ _ ∧ _ ∧ _))

/-! ## Observations on a heap -/

/-- Follow the link `g` from `a`, collecting the non-null addresses visited. -/
def walk (g : Nat → Nat) : Nat → Nat → List Nat
  | 0, _ => []
  | fuel + 1, a => if a = 0 then [] else a :: walk g fuel (g a)

/-- The address-ordered block list: the blocks reached from `head` through `next`. -/
def blocks (h : Heap) : List Nat := walk (fun a => (h.mem a).next) U32 h.head

/-- The free list: the blocks reached from `freelist` through `nextfree`. -/
def freeblocks (h : Heap) : List Nat := walk (fun a => (h.mem a).nextfree) U32 h.freelist

/-- Payload size of the block at `a`: the size field with the flag bit cleared. -/
def payload (h : Heap) (a : Nat) : Nat := blkmngr_get_real_size (h.mem a).size

/-- Address of the first byte after the block at `a`: header, then payload. -/
def block_end (h : Heap) (a : Nat) : Nat := a + OVERHEAD + payload h a

/-- The blocks of the address-ordered list whose flag says allocated. -/
def allocated (h : Heap) : List Nat :=
  (blocks h).filter (fun a => !blkmngr_is_free h.mem a)

/-- The list `l` is exactly what following `g` from `a` visits before reaching `e`. -/
def Lnk (g : Nat → Nat) : Nat → List Nat → Nat → Prop
  | a, [], e => a = e
  | a, b :: l, e => a = b ∧ Lnk g (g b) l e

instance Lnk.dec (g : Nat → Nat) : (a : Nat) → (l : List Nat) → (e : Nat) → Decidable (Lnk g a l e)
  | a, [], e => inferInstanceAs (Decidable (a = e))
  | _, b :: l, e => @instDecidableAnd _ _ _ (Lnk.dec g (g b) l e)

/-- No two consecutive elements of the list are both free blocks. -/
def no_adjacent_free (mem : Nat → block_t) : List Nat → Prop
  | a :: b :: l =>
    ¬ (blkmngr_is_free mem a = true ∧ blkmngr_is_free mem b = true) ∧
      no_adjacent_free mem (b :: l)
  | _ => True

instance no_adjacent_free.dec (mem : Nat → block_t) :
    (l : List Nat) → Decidable (no_adjacent_free mem l)
  | [] => isTrue trivial
  | [_] => isTrue trivial
  | _ :: b :: l => @instDecidableAnd _ _ _ (no_adjacent_free.dec mem (b :: l))

/-- Invariant B3: no two adjacent blocks of the address-ordered list are both free. -/
def B3 (h : Heap) : Prop := no_adjacent_free h.mem (blocks h)

instance B3.dec (h : Heap) : Decidable (B3 h) :=
  inferInstanceAs (Decidable (no_adjacent_free _ _))

/-- Well-formed heap: the region is a non-null 32-bit range holding `top`; the
`next` chain from `head` ends with null at `tail` (B5); the blocks lie one
after the other from `vm_start + 12` up to `top` (which gives B2); size fields
are 32-bit words; the free list ends with null, has no duplicates and holds
exactly the blocks of the chain whose flag is set (B4). -/
def WF (h : Heap) : Prop :=
  0 < h.vm_start ∧ h.top ≤ h.vm_end ∧ h.vm_end < U32 ∧
  Lnk (fun a => (h.mem a).next) h.head (blocks h) 0 ∧
  h.tail = (blocks h).getLastD 0 ∧
  Lnk (block_end h) (h.vm_start + 3 * 4) (blocks h) h.top ∧
  (∀ a ∈ blocks h, (h.mem a).size < U32) ∧
  Lnk (fun a => (h.mem a).nextfree) h.freelist (freeblocks h) 0 ∧
  (freeblocks h).Nodup ∧
  (∀ a ∈ freeblocks h, a ∈ blocks h ∧ blkmngr_is_free h.mem a = true) ∧
  (∀ a ∈ blocks h, blkmngr_is_free h.mem a = true → a ∈ freeblocks h)

instance WF.dec (h : Heap) : Decidable (WF h) :=
  inferInstanceAs (Decidable (_ ∧ _ ∧ _ ∧ _ ∧ _ ∧ _ ∧ _ ∧ _ ∧ _ ∧ _ ∧ _))

/-- The heap `h` is well formed, with block list `bs` and free list `fl`. -/
structure Rep (h : Heap) (bs fl : List Nat) : Prop where
  start_pos : 0 < h.vm_start
  top_le : h.top ≤ h.vm_end
  end_lt : h.vm_end < U32
  chain : Lnk (fun a => (h.mem a).next) h.head bs 0
  tail_eq : h.tail = bs.getLastD 0
  layout : Lnk (block_end h) (h.vm_start + 3 * 4) bs h.top
  size_lt : ∀ a ∈ bs, (h.mem a).size < U32
  fchain : Lnk (fun a => (h.mem a).nextfree) h.freelist fl 0
  fnodup : fl.Nodup
  fsound : ∀ a ∈ fl, a ∈ bs ∧ blkmngr_is_free h.mem a = true
  fcomplete : ∀ a ∈ bs, blkmngr_is_free h.mem a = true → a ∈ fl

/-- Space taken by the blocks of the chain: the sum of header plus payload. -/
def chunk_sum (h : Heap) : Nat := ((blocks h).map (fun a => OVERHEAD + payload h a)).sum

/-- The heaps reached from `kheap_init mem base order` by calls of `__do_malloc`
that return and by `__do_free` of allocated blocks, when no request makes the
32-bit arithmetic wrap around: neither `CEIL(size, 16)` nor the new boundary
`top + CEIL(size, 16) + 12` exceeds `2 ^ 32 - 1`. -/
inductive ReachSafe (mem : Nat → block_t) (base order : Nat) : Heap → Prop
  | init : ReachSafe mem base order (kheap_init mem base order)
  | malloc {h h' : Heap} {size p : Nat} :
      ReachSafe mem base order h → size + 15 < U32 → h.top + CEIL16 size + 12 < U32 →
      __do_malloc h size = .ok (p, h') → ReachSafe mem base order h'
  | free {h h' : Heap} {b : Nat} :
      ReachSafe mem base order h → b ∈ allocated h →
      __do_free h (b + OVERHEAD) = .ok h' → ReachSafe mem base order h'

/-- The heaps reached from `kheap_init mem base order` by calls of `__do_malloc`
that return and by `__do_free` of allocated blocks, the requested sizes being
any 32-bit values. -/
inductive Reach (mem : Nat → block_t) (base order : Nat) : Heap → Prop
  | init : Reach mem base order (kheap_init mem base order)
  | malloc {h h' : Heap} {size p : Nat} :
      Reach mem base order h → size < U32 →
      __do_malloc h size = .ok (p, h') → Reach mem base order h'
  | free {h h' : Heap} {b : Nat} :
      Reach mem base order h → b ∈ allocated h →
      __do_free h (b + OVERHEAD) = .ok h' → Reach mem base order h'

/-- Release, one after the other, of the blocks whose header addresses are listed. -/
def free_all : Heap → List Nat → Except Fault Heap
  | h, [] => .ok h
  | h, b :: bs => do
    let h' ← __do_free h (b + OVERHEAD)
    free_all h' bs

/-- Invariant B2: following `next` from `head` visits blocks in strictly
increasing header address and ends, with `next` null, at the block stored in `tail`. -/
def B2 (h : Heap) : Prop :=
  (blocks h).Pairwise (fun a b => a < b) ∧
  Lnk (fun a => (h.mem a).next) h.head (blocks h) 0 ∧
  h.tail = (blocks h).getLastD 0

instance B2.dec (h : Heap) : Decidable (B2 h) :=
  inferInstanceAs (Decidable (_ ∧ _ ∧ _))

/-- Invariant B4: the blocks of the chain whose flag is set are the blocks of the
free list, which ends with null and has no duplicates. -/
def B4 (h : Heap) : Prop :=
  (∀ a ∈ freeblocks h, a ∈ blocks h ∧ blkmngr_is_free h.mem a = true) ∧
  (∀ a ∈ blocks h, blkmngr_is_free h.mem a = true → a ∈ freeblocks h) ∧
  (freeblocks h).Nodup ∧
  Lnk (fun a => (h.mem a).nextfree) h.freelist (freeblocks h) 0

instance B4.dec (h : Heap) : Decidable (B4 h) :=
  inferInstanceAs (Decidable (_ ∧ _ ∧ _ ∧ _))

/-- Invariant B5: `head` is the lowest-address block, `tail` the highest-address
block, and neither is null when the heap has a block. -/
def B5 (h : Heap) : Prop :=
  (∀ a ∈ blocks h, h.head ≤ a ∧ a ≤ h.tail) ∧
  (blocks h ≠ [] → h.head ∈ blocks h ∧ h.tail ∈ blocks h ∧ h.head ≠ 0 ∧ h.tail ≠ 0)

instance B5.dec (h : Heap) : Decidable (B5 h) :=
  inferInstanceAs (Decidable (_ ∧ _))

/-- The heap holds exactly one block, which is free, is `head`, `tail` and the
head of the free list, and spans the populated region `[vm_start + 12, top)`. -/
def one_free_block (h : Heap) : Prop :=
  blocks h = [h.vm_start + 3 * 4] ∧
  blkmngr_is_free h.mem (h.vm_start + 3 * 4) = true ∧
  h.head = h.vm_start + 3 * 4 ∧ h.tail = h.vm_start + 3 * 4 ∧
  h.freelist = h.vm_start + 3 * 4 ∧
  block_end h (h.vm_start + 3 * 4) = h.top

instance one_free_block.dec (h : Heap) : Decidable (one_free_block h) :=
  inferInstanceAs (Decidable (_ ∧ _ ∧ _ ∧ _ ∧ _ ∧ _))

/-! ## Worked examples -/

/-- Block memory holding zeroes. -/
def zero_mem : Nat → block_t := fun _ => ⟨0, 0, 0⟩

/-- The heap returned by a call of `__do_malloc`, or `d` when the call does not return. -/
def heap_of_malloc (r : Except Fault (Nat × Heap)) (d : Heap) : Heap :=
  match r with
  | .ok (_, h) => h
  | .error _ => d

/-- The heap returned by a call of `__do_free`, or `d` when the call does not return. -/
def heap_of_free (r : Except Fault Heap) (d : Heap) : Heap :=
  match r with
  | .ok h => h
  | .error _ => d

/-- A fresh kernel heap of one page at `0x1000`. -/
def low0 : Heap := kheap_init zero_mem 4096 0

/-- After `a = malloc(48)` on `low0`: one allocated block at `0x100c`. -/
def low1 : Heap := heap_of_malloc (__do_malloc low0 48) low0

/-- After `free(a)` on `low1`: one free block of payload 48. -/
def low2 : Heap := heap_of_free (__do_free low1 (4108 + OVERHEAD)) low1

/-- After `malloc(16)` on `low2`: the block is split. -/
def low3 : Heap := heap_of_malloc (__do_malloc low2 16) low2

/-- A fresh kernel heap of one page at `0xC0000000`. -/
def high0 : Heap := kheap_init zero_mem 3221225472 0

/-- After `malloc(0x7FFF0000)` on `high0`. -/
def high1 : Heap := heap_of_malloc (__do_malloc high0 2147418112) high0

/-- After `free` of the only block of `high1`. -/
def high1_freed : Heap := heap_of_free (free_all high1 [3221225484]) high1

/-- After `malloc(16)` on `high1`. -/
def high2 : Heap := heap_of_malloc (__do_malloc high1 16) high1

/-- After `a = malloc(16)` on `high0`. -/
def wrap1 : Heap := heap_of_malloc (__do_malloc high0 16) high0

/-- After `free(a)` on `wrap1`. -/
def wrap2 : Heap := heap_of_free (__do_free wrap1 (3221225484 + OVERHEAD)) wrap1

/-- After `malloc(0x55555540)` on `wrap2`. -/
def wrap3 : Heap := heap_of_malloc (__do_malloc wrap2 1431655744) wrap2

/-- After `malloc(0x55555540)` on `wrap3`. -/
def wrap4 : Heap := heap_of_malloc (__do_malloc wrap3 1431655744) wrap3

/-- After `malloc(0x55555540)` on `wrap4`. -/
def wrap5 : Heap := heap_of_malloc (__do_malloc wrap4 1431655744) wrap4

/-- After `malloc(32)` on `wrap5`. -/
def wrap6 : Heap := heap_of_malloc (__do_malloc wrap5 32) wrap5

/-- After `malloc(0xFFFFFFFF)` on `low0`. -/
def short1 : Heap := heap_of_malloc (__do_malloc low0 4294967295) low0

/-- After `p = malloc(10)` on `low0`. -/
def trip1 : Heap := heap_of_malloc (__do_malloc low0 10) low0

/-- After `free(p)` on `trip1`. -/
def trip2 : Heap := heap_of_free (__do_free trip1 (4108 + OVERHEAD)) trip1

/-- After `a = malloc(16)` on `low0`. -/
def tri1 : Heap := heap_of_malloc (__do_malloc low0 16) low0

/-- After `b = malloc(16)` on `tri1`. -/
def tri2 : Heap := heap_of_malloc (__do_malloc tri1 16) tri1

/-- After `c = malloc(16)` on `tri2`. -/
def tri3 : Heap := heap_of_malloc (__do_malloc tri2 16) tri2

/-- After `free(a)` on `tri3`. -/
def tri4 : Heap := heap_of_free (__do_free tri3 (4108 + OVERHEAD)) tri3

/-- After `free(c)` on `tri4`. -/
def tri5 : Heap := heap_of_free (__do_free tri4 (4164 + OVERHEAD)) tri4

/-- After `free(b)` on `tri5`. -/
def tri6 : Heap := heap_of_free (__do_free tri5 (4136 + OVERHEAD)) tri5

/-- After `q = malloc(32)` on `trip1`, the heap after `p = malloc(10)`. -/
def duo2 : Heap := heap_of_malloc (__do_malloc trip1 32) trip1

/-- After `free(p)` on `duo2`. -/
def duo3 : Heap := heap_of_free (__do_free duo2 (4108 + OVERHEAD)) duo2

/-- After `free(q)` on `duo3`. -/
def duo4 : Heap := heap_of_free (__do_free duo3 (4136 + OVERHEAD)) duo3

/-- After `p = malloc(100)` on `low0`. -/
def five1 : Heap := heap_of_malloc (__do_malloc low0 100) low0

/-- After `q = malloc(100)` on `five1`. -/
def five2 : Heap := heap_of_malloc (__do_malloc five1 100) five1

/-- After `free(p)` on `five2`. -/
def five3 : Heap := heap_of_free (__do_free five2 (4108 + OVERHEAD)) five2

/-- After `r = malloc(50)` on `five3`. -/
def five4 : Heap := heap_of_malloc (__do_malloc five3 50) five3

/-- A user heap segment of 1 MiB at `0x40000000` as `create_vm_area` leaves it,
on zeroed pages. -/
def uarea : Heap :=
  { vm_start := 1073741824
    vm_end := 1074790400
    top := 1073741824
    head := 0
    tail := 0
    freelist := 0
    mem := zero_mem }

/-- The fresh user heap: `uarea` with `brk` after the three prologue words. -/
def uheap0 : Heap := uarea.set_top 1073741836

/-- After `a = malloc(64)` on `low0`. -/
def min1 : Heap := heap_of_malloc (__do_malloc low0 64) low0

/-- After `free(a)` on `min1`. -/
def min2 : Heap := heap_of_free (__do_free min1 (4108 + OVERHEAD)) min1

/-- After `malloc(16)` on `min2`: the free block that is left has payload 36. -/
def min3 : Heap := heap_of_malloc (__do_malloc min2 16) min2

/-- After `malloc(16)` on `min3`. -/
def min4 : Heap := heap_of_malloc (__do_malloc min3 16) min3

/-- After `a = malloc(64)` on `high0`: block `a` at `0xC000000C`. -/
def absorb1 : Heap := heap_of_malloc (__do_malloc high0 64) high0

/-- After `malloc(16)` on `absorb1`: a block at `0xC0000058`. -/
def absorb2 : Heap := heap_of_malloc (__do_malloc absorb1 16) absorb1

/-- After `malloc(0x55555540)` on `absorb2`: a block at `0xC0000074`; the top
goes past `2^32` to `0x155555C0`. -/
def absorb3 : Heap := heap_of_malloc (__do_malloc absorb2 1431655744) absorb2

/-- After `malloc(0x55555540)` on `absorb3`: a block at `0x155555C0`. -/
def absorb4 : Heap := heap_of_malloc (__do_malloc absorb3 1431655744) absorb3

/-- After `e = malloc(0x55555510)` on `absorb4`: block `e` at `0x6AAAAB0C`; the
top is `0xC0000028`, inside the payload of `a`. -/
def absorb5 : Heap := heap_of_malloc (__do_malloc absorb4 1431655696) absorb4

/-- After `free(e)` on `absorb5`. -/
def absorb6 : Heap := heap_of_free (__do_free absorb5 (1789569804 + OVERHEAD)) absorb5

/-- After `f = malloc(0x60000000)` on `absorb6`: block `f` at `0xC0000028`,
linked after `e`. -/
def absorb7 : Heap := heap_of_malloc (__do_malloc absorb6 1610612736) absorb6

/-- After `free(a)` on `absorb7`. -/
def absorb8 : Heap := heap_of_free (__do_free absorb7 (3221225484 + OVERHEAD)) absorb7

/-- After `malloc(16)` on `absorb8`: `a` is split and the remainder is written
at `0xC0000028`, over the header of `f`, which becomes a free block. -/
def absorb9 : Heap := heap_of_malloc (__do_malloc absorb8 16) absorb8

/-- After `malloc(48)` on `absorb9`. -/
def absorb10 : Heap := heap_of_malloc (__do_malloc absorb9 48) absorb9

/-- Two lists: head `1` with the elements `2`, `3`, and head `4` with `5`, `6`. -/
def ring_mem : Nat → list_head := fun a =>
  if a = 1 then ⟨3, 2⟩ else if a = 2 then ⟨1, 3⟩ else if a = 3 then ⟨2, 1⟩
  else if a = 4 then ⟨6, 5⟩ else if a = 5 then ⟨4, 6⟩ else if a = 6 then ⟨5, 4⟩
  else ⟨0, 0⟩

/-! ## Bit-level facts -/

theorem U32_eq : U32 = 4294967296 := rfl


theorem real_size_eq (s : Nat) (hs : s < U32) : blkmngr_get_real_size s = s - s % 2 := by
  unfold blkmngr_get_real_size U32 at *
  rw [Nat.shiftRight_eq_div_pow, Nat.shiftLeft_eq]
  omega

theorem or_one_eq (s : Nat) : s ||| 1 = s - s % 2 + 1 := by
  apply Nat.eq_of_testBit_eq
  intro i
  rw [Nat.testBit_or]
  rcases i with _ | i
  · simp [Nat.testBit_zero]; omega
  · simp [Nat.testBit_succ]
    congr 1
    omega

theorem and_fe_eq (s : Nat) (hs : s < U32) : s &&& 0xFFFFFFFE = s - s % 2 := by
  have h1 : (0xFFFFFFFE : Nat) = 2 * (2 ^ 31 - 1) := by norm_num
  apply Nat.eq_of_testBit_eq
  intro i
  rw [Nat.testBit_and, h1]
  rcases i with _ | i
  · simp [Nat.testBit_zero]; omega
  · rw [Nat.testBit_succ, Nat.testBit_succ, Nat.testBit_succ]
    have h2 : 2 * (2 ^ 31 - 1) / 2 = 2 ^ 31 - 1 := by norm_num
    rw [h2, Nat.testBit_two_pow_sub_one]
    have e : (s - s % 2) / 2 = s / 2 := by omega
    rw [e]
    by_cases hi : i < 31
    · simp [hi]
    · simp [hi]
      apply Nat.testBit_lt_two_pow
      have h3 : 2 ^ 31 ≤ 2 ^ i := Nat.pow_le_pow_right (by norm_num) (by omega)
      unfold U32 at hs
      omega

theorem and_f0_eq (s : Nat) (hs : s < U32) : s &&& 0xFFFFFFF0 = s - s % 16 := by
  have h1 : (0xFFFFFFF0 : Nat) = (2 ^ 28 - 1) <<< 4 := by decide
  have e : s - s % 16 = 2 ^ 4 * (s / 16) := by omega
  apply Nat.eq_of_testBit_eq
  intro i
  rw [Nat.testBit_and, h1, Nat.testBit_shiftLeft, Nat.testBit_two_pow_sub_one, e,
    Nat.testBit_mul_pow_two]
  by_cases hi : i < 4
  · have hi' : ¬ 4 ≤ i := by omega
    simp [hi']
  · have e2 : s.testBit i = (s / 16).testBit (i - 4) := by
      have h2 : s / 16 = s >>> 4 := by rw [Nat.shiftRight_eq_div_pow]
      rw [h2, Nat.testBit_shiftRight]
      congr 1; omega
    simp only [not_lt] at hi
    simp only [ge_iff_le, hi, decide_True, Bool.true_and, e2]
    by_cases h28 : i - 4 < 28
    · simp [h28]
    · simp [h28]
      apply Nat.testBit_lt_two_pow
      have h3 : 2 ^ 28 ≤ 2 ^ (i - 4) := Nat.pow_le_pow_right (by norm_num) (by omega)
      unfold U32 at hs
      omega

theorem ceil16_eq (n : Nat) : CEIL16 n = (n + 15) % U32 - (n + 15) % U32 % 16 := by
  unfold CEIL16
  have hlt : (n + 15) % U32 < U32 := Nat.mod_lt _ (by unfold U32; norm_num)
  have e : n + 16 - 1 = n + 15 := by omega
  rw [e, and_f0_eq _ hlt]

theorem ceil16_of_le (n : Nat) (hn : n + 15 < U32) : CEIL16 n = (n + 15) / 16 * 16 := by
  rw [ceil16_eq, Nat.mod_eq_of_lt hn]
  omega

theorem ceil16_mod (n : Nat) : CEIL16 n % 16 = 0 := by
  rw [ceil16_eq]; omega

theorem ceil16_lt (n : Nat) : CEIL16 n + 16 ≤ U32 := by
  rw [ceil16_eq]
  have hlt : (n + 15) % U32 < U32 := Nat.mod_lt _ (by unfold U32; norm_num)
  unfold U32 at *
  omega

theorem is_free_iff (mem : Nat → block_t) (a : Nat) :
    blkmngr_is_free mem a = true ↔ a ≠ 0 ∧ (mem a).size % 2 = 1 := by
  unfold blkmngr_is_free
  by_cases ha : a = 0
  · simp [ha]
  · simp [ha, Nat.and_one_is_mod]

theorem is_free_zero (mem : Nat → block_t) : blkmngr_is_free mem 0 = false := by
  simp [blkmngr_is_free]

theorem set_free_one (s : Nat) (hs : s < U32) : set_free_word s 1 = s - s % 2 + 1 := by
  unfold set_free_word
  simp only [ne_eq, one_ne_zero, not_false_eq_true, ↓reduceIte, or_one_eq]
  apply Nat.mod_eq_of_lt
  unfold U32 at *
  omega

theorem set_free_zero (s : Nat) (hs : s < U32) : set_free_word s 0 = s - s % 2 := by
  unfold set_free_word
  simp only [ne_eq, not_true_eq_false, ↓reduceIte]
  exact and_fe_eq s hs

/-! ## Sequencing -/

theorem ok_bind {ε α β : Type} (a : α) (f : α → Except ε β) : (Except.ok a >>= f) = f a := rfl

theorem error_bind {ε α β : Type} (e : ε) (f : α → Except ε β) :
    (Except.error e >>= f) = Except.error e := rfl

/-! ## Stores -/

section stores
variable (h : Heap) (b v a : Nat)

@[simp] theorem set_size_mem_size : ((h.set_size b v).mem a).size = if a = b then v else (h.mem a).size := by
  unfold Heap.set_size; by_cases hab : a = b <;> simp [hab]
@[simp] theorem set_size_mem_next : ((h.set_size b v).mem a).next = (h.mem a).next := by
  unfold Heap.set_size; by_cases hab : a = b <;> simp [hab]
@[simp] theorem set_size_mem_nextfree : ((h.set_size b v).mem a).nextfree = (h.mem a).nextfree := by
  unfold Heap.set_size; by_cases hab : a = b <;> simp [hab]
@[simp] theorem set_next_mem_size : ((h.set_next b v).mem a).size = (h.mem a).size := by
  unfold Heap.set_next; by_cases hab : a = b <;> simp [hab]
@[simp] theorem set_next_mem_next : ((h.set_next b v).mem a).next = if a = b then v else (h.mem a).next := by
  unfold Heap.set_next; by_cases hab : a = b <;> simp [hab]
@[simp] theorem set_next_mem_nextfree : ((h.set_next b v).mem a).nextfree = (h.mem a).nextfree := by
  unfold Heap.set_next; by_cases hab : a = b <;> simp [hab]
@[simp] theorem set_nextfree_mem_size : ((h.set_nextfree b v).mem a).size = (h.mem a).size := by
  unfold Heap.set_nextfree; by_cases hab : a = b <;> simp [hab]
@[simp] theorem set_nextfree_mem_next : ((h.set_nextfree b v).mem a).next = (h.mem a).next := by
  unfold Heap.set_nextfree; by_cases hab : a = b <;> simp [hab]
@[simp] theorem set_nextfree_mem_nextfree :
    ((h.set_nextfree b v).mem a).nextfree = if a = b then v else (h.mem a).nextfree := by
  unfold Heap.set_nextfree; by_cases hab : a = b <;> simp [hab]

@[simp] theorem set_free_mem_size :
    ((blkmngr_set_free h b v).mem a).size =
      if a = b then set_free_word (h.mem b).size v else (h.mem a).size := by
  unfold blkmngr_set_free; by_cases hab : a = b <;> simp [hab]
@[simp] theorem set_free_mem_next : ((blkmngr_set_free h b v).mem a).next = (h.mem a).next := by
  unfold blkmngr_set_free; simp
@[simp] theorem set_free_mem_nextfree :
    ((blkmngr_set_free h b v).mem a).nextfree = (h.mem a).nextfree := by
  unfold blkmngr_set_free; simp

@[simp] theorem set_free_vm_start : (blkmngr_set_free h b v).vm_start = h.vm_start := rfl
@[simp] theorem set_free_vm_end : (blkmngr_set_free h b v).vm_end = h.vm_end := rfl
@[simp] theorem set_free_top : (blkmngr_set_free h b v).top = h.top := rfl
@[simp] theorem set_free_head : (blkmngr_set_free h b v).head = h.head := rfl
@[simp] theorem set_free_tail : (blkmngr_set_free h b v).tail = h.tail := rfl
@[simp] theorem set_free_freelist : (blkmngr_set_free h b v).freelist = h.freelist := rfl

@[simp] theorem set_head_mem : (h.set_head v).mem = h.mem := rfl
@[simp] theorem set_head_vm_start : (h.set_head v).vm_start = h.vm_start := rfl
@[simp] theorem set_head_vm_end : (h.set_head v).vm_end = h.vm_end := rfl
@[simp] theorem set_head_top : (h.set_head v).top = h.top := rfl
@[simp] theorem set_head_head : (h.set_head v).head = v := rfl
@[simp] theorem set_head_tail : (h.set_head v).tail = h.tail := rfl
@[simp] theorem set_head_freelist : (h.set_head v).freelist = h.freelist := rfl

@[simp] theorem set_tail_mem : (h.set_tail v).mem = h.mem := rfl
@[simp] theorem set_tail_vm_start : (h.set_tail v).vm_start = h.vm_start := rfl
@[simp] theorem set_tail_vm_end : (h.set_tail v).vm_end = h.vm_end := rfl
@[simp] theorem set_tail_top : (h.set_tail v).top = h.top := rfl
@[simp] theorem set_tail_head : (h.set_tail v).head = h.head := rfl
@[simp] theorem set_tail_tail : (h.set_tail v).tail = v := rfl
@[simp] theorem set_tail_freelist : (h.set_tail v).freelist = h.freelist := rfl

@[simp] theorem set_freelist_mem : (h.set_freelist v).mem = h.mem := rfl
@[simp] theorem set_freelist_vm_start : (h.set_freelist v).vm_start = h.vm_start := rfl
@[simp] theorem set_freelist_vm_end : (h.set_freelist v).vm_end = h.vm_end := rfl
@[simp] theorem set_freelist_top : (h.set_freelist v).top = h.top := rfl
@[simp] theorem set_freelist_head : (h.set_freelist v).head = h.head := rfl
@[simp] theorem set_freelist_tail : (h.set_freelist v).tail = h.tail := rfl
@[simp] theorem set_freelist_freelist : (h.set_freelist v).freelist = v := rfl

@[simp] theorem set_top_mem : (h.set_top v).mem = h.mem := rfl
@[simp] theorem set_top_vm_start : (h.set_top v).vm_start = h.vm_start := rfl
@[simp] theorem set_top_vm_end : (h.set_top v).vm_end = h.vm_end := rfl
@[simp] theorem set_top_top : (h.set_top v).top = v := rfl
@[simp] theorem set_top_head : (h.set_top v).head = h.head := rfl
@[simp] theorem set_top_tail : (h.set_top v).tail = h.tail := rfl
@[simp] theorem set_top_freelist : (h.set_top v).freelist = h.freelist := rfl

@[simp] theorem set_size_vm_start : (h.set_size b v).vm_start = h.vm_start := rfl
@[simp] theorem set_size_vm_end : (h.set_size b v).vm_end = h.vm_end := rfl
@[simp] theorem set_size_top : (h.set_size b v).top = h.top := rfl
@[simp] theorem set_size_head : (h.set_size b v).head = h.head := rfl
@[simp] theorem set_size_tail : (h.set_size b v).tail = h.tail := rfl
@[simp] theorem set_size_freelist : (h.set_size b v).freelist = h.freelist := rfl
@[simp] theorem set_next_vm_start : (h.set_next b v).vm_start = h.vm_start := rfl
@[simp] theorem set_next_vm_end : (h.set_next b v).vm_end = h.vm_end := rfl
@[simp] theorem set_next_top : (h.set_next b v).top = h.top := rfl
@[simp] theorem set_next_head : (h.set_next b v).head = h.head := rfl
@[simp] theorem set_next_tail : (h.set_next b v).tail = h.tail := rfl
@[simp] theorem set_next_freelist : (h.set_next b v).freelist = h.freelist := rfl
@[simp] theorem set_nextfree_vm_start : (h.set_nextfree b v).vm_start = h.vm_start := rfl
@[simp] theorem set_nextfree_vm_end : (h.set_nextfree b v).vm_end = h.vm_end := rfl
@[simp] theorem set_nextfree_top : (h.set_nextfree b v).top = h.top := rfl
@[simp] theorem set_nextfree_head : (h.set_nextfree b v).head = h.head := rfl
@[simp] theorem set_nextfree_tail : (h.set_nextfree b v).tail = h.tail := rfl
@[simp] theorem set_nextfree_freelist : (h.set_nextfree b v).freelist = h.freelist := rfl

theorem ite_set_tail (p : Prop) [Decidable p] :
    (if p then h.set_tail v else h) = h.set_tail (if p then v else h.tail) := by
  by_cases hp : p <;> simp [hp, Heap.set_tail]

end stores

/-! ## Linked lists in memory -/

@[simp] theorem lnk_nil (g : Nat → Nat) (a e : Nat) : Lnk g a [] e ↔ a = e := Iff.rfl

@[simp] theorem lnk_cons (g : Nat → Nat) (a b e : Nat) (l : List Nat) :
    Lnk g a (b :: l) e ↔ a = b ∧ Lnk g (g b) l e := Iff.rfl

theorem lnk_append (g : Nat → Nat) (l1 l2 : List Nat) (a e : Nat) :
    Lnk g a (l1 ++ l2) e ↔ ∃ m, Lnk g a l1 m ∧ Lnk g m l2 e := by
  induction l1 generalizing a with
  | nil => simp
  | cons b l ih => simp [ih, and_assoc]

theorem lnk_congr (g g' : Nat → Nat) (l : List Nat) (a e : Nat)
    (hg : ∀ x ∈ l, g x = g' x) : Lnk g a l e ↔ Lnk g' a l e := by
  induction l generalizing a with
  | nil => simp
  | cons b l ih =>
    simp only [lnk_cons]
    rw [hg b (List.mem_cons_self _ _)]
    rw [ih _ (fun x hx => hg x (List.mem_cons_of_mem _ hx))]

theorem lnk_unique (g : Nat → Nat) (l : List Nat) (a e e' : Nat)
    (h1 : Lnk g a l e) (h2 : Lnk g a l e') : e = e' := by
  induction l generalizing a with
  | nil => simp at h1 h2; omega
  | cons b l ih => exact ih _ h1.2 h2.2

/-- The walk recovers a null-terminated list of non-null addresses. -/
theorem walk_eq_of_lnk (g : Nat → Nat) (l : List Nat) (a fuel : Nat)
    (hl : Lnk g a l 0) (hnz : ∀ x ∈ l, x ≠ 0) (hlen : l.length ≤ fuel) :
    walk g fuel a = l := by
  induction l generalizing a fuel with
  | nil =>
    simp at hl
    subst hl
    cases fuel <;> simp [walk]
  | cons b l ih =>
    obtain ⟨rfl, hl⟩ := hl
    cases fuel with
    | zero => simp at hlen
    | succ n =>
      have hb : a ≠ 0 := hnz a (List.mem_cons_self _ _)
      simp only [walk, hb, ↓reduceIte, List.cons.injEq, true_and]
      exact ih _ _ hl (fun x hx => hnz x (List.mem_cons_of_mem _ hx)) (by simpa using hlen)

theorem walk_nonzero (g : Nat → Nat) (fuel a : Nat) : ∀ x ∈ walk g fuel a, x ≠ 0 := by
  induction fuel generalizing a with
  | zero => simp [walk]
  | succ n ih =>
    unfold walk
    by_cases ha : a = 0
    · simp [ha]
    · simp only [ha, ↓reduceIte, List.mem_cons]
      rintro x (rfl | hx)
      · exact ha
      · exact ih _ x hx

/-- Bounds given by a physical layout: every step advances by at least a header. -/
theorem lnk_bounds (g : Nat → Nat) (hg : ∀ x, x + 12 ≤ g x) (l : List Nat) (a t : Nat)
    (hl : Lnk g a l t) : a + 12 * l.length ≤ t ∧ ∀ x ∈ l, a ≤ x ∧ g x ≤ t := by
  induction l generalizing a with
  | nil => simp at hl; simp [hl]
  | cons b l ih =>
    obtain ⟨rfl, hl⟩ := hl
    obtain ⟨h1, h2⟩ := ih _ hl
    have := hg a
    refine ⟨by simp only [List.length_cons]; omega, ?_⟩
    intro x hx
    rcases List.mem_cons.1 hx with rfl | hx
    · exact ⟨le_refl _, by omega⟩
    · have := h2 x hx
      omega

theorem lnk_sorted (g : Nat → Nat) (hg : ∀ x, x + 12 ≤ g x) (l : List Nat) (a t : Nat)
    (hl : Lnk g a l t) : l.Pairwise (fun x y => g x ≤ y) := by
  induction l generalizing a with
  | nil => simp
  | cons b l ih =>
    obtain ⟨rfl, hl⟩ := hl
    rw [List.pairwise_cons]
    refine ⟨fun x hx => ((lnk_bounds g hg l _ t hl).2 x hx).1, ih _ hl⟩

theorem lnk_nodup (g : Nat → Nat) (hg : ∀ x, x + 12 ≤ g x) (l : List Nat) (a t : Nat)
    (hl : Lnk g a l t) : l.Nodup := by
  have hs := lnk_sorted g hg l a t hl
  refine hs.imp ?_
  intro x y hxy
  have := hg x
  omega

theorem block_end_ge (h : Heap) (x : Nat) : x + 12 ≤ block_end h x := by
  unfold block_end OVERHEAD; omega

/-! ## Well-formed heaps -/

theorem Rep.mem_bounds {h : Heap} {bs fl : List Nat} (r : Rep h bs fl) :
    ∀ a ∈ bs, h.vm_start + 12 ≤ a ∧ block_end h a ≤ h.top :=
  (lnk_bounds _ (block_end_ge h) bs _ _ r.layout).2

theorem Rep.nonzero {h : Heap} {bs fl : List Nat} (r : Rep h bs fl) : ∀ a ∈ bs, a ≠ 0 := by
  intro a ha
  have := (r.mem_bounds a ha).1
  omega

theorem Rep.fnonzero {h : Heap} {bs fl : List Nat} (r : Rep h bs fl) : ∀ a ∈ fl, a ≠ 0 :=
  fun a ha => r.nonzero a (r.fsound a ha).1

theorem Rep.nodup {h : Heap} {bs fl : List Nat} (r : Rep h bs fl) : bs.Nodup :=
  lnk_nodup _ (block_end_ge h) bs _ _ r.layout

theorem Rep.start_le {h : Heap} {bs fl : List Nat} (r : Rep h bs fl) :
    h.vm_start + 12 ≤ h.top := by
  have := (lnk_bounds _ (block_end_ge h) bs _ _ r.layout).1
  omega

theorem Rep.length_le {h : Heap} {bs fl : List Nat} (r : Rep h bs fl) :
    12 * bs.length + 12 < U32 := by
  have h1 := (lnk_bounds _ (block_end_ge h) bs _ _ r.layout).1
  have h2 := r.top_le
  have h3 := r.end_lt
  omega

theorem Rep.flength_le {h : Heap} {bs fl : List Nat} (r : Rep h bs fl) :
    fl.length ≤ bs.length :=
  (List.subperm_of_subset r.fnodup (fun a ha => (r.fsound a ha).1)).length_le

theorem Rep.blocks_eq {h : Heap} {bs fl : List Nat} (r : Rep h bs fl) : blocks h = bs := by
  unfold blocks
  apply walk_eq_of_lnk _ _ _ _ r.chain r.nonzero
  have := r.length_le
  omega

theorem Rep.freeblocks_eq {h : Heap} {bs fl : List Nat} (r : Rep h bs fl) :
    freeblocks h = fl := by
  unfold freeblocks
  apply walk_eq_of_lnk _ _ _ _ r.fchain r.fnonzero
  have := r.length_le
  have := r.flength_le
  omega

theorem WF.rep {h : Heap} (w : WF h) : Rep h (blocks h) (freeblocks h) := by
  obtain ⟨h1, h2, h3, h4, h5, h6, h7, h8, h9, h10, h11⟩ := w
  exact ⟨h1, h2, h3, h4, h5, h6, h7, h8, h9, h10, h11⟩

theorem Rep.wf {h : Heap} {bs fl : List Nat} (r : Rep h bs fl) : WF h := by
  have e1 := r.blocks_eq
  have e2 := r.freeblocks_eq
  unfold WF
  rw [e1, e2]
  exact ⟨r.start_pos, r.top_le, r.end_lt, r.chain, r.tail_eq, r.layout, r.size_lt, r.fchain,
    r.fnodup, r.fsound, r.fcomplete⟩

theorem Rep.payload_eq {h : Heap} {bs fl : List Nat} (r : Rep h bs fl) (a : Nat) (ha : a ∈ bs) :
    payload h a = (h.mem a).size - (h.mem a).size % 2 :=
  real_size_eq _ (r.size_lt a ha)

theorem Rep.head_ptr {h : Heap} {bs fl : List Nat} (r : Rep h bs fl) : h.head_ptr ≠ 0 := by
  have h1 := r.start_pos
  have h2 := r.start_le
  have h3 := r.top_le
  have h4 := r.end_lt
  unfold Heap.head_ptr
  rw [Nat.mod_eq_of_lt (by omega)]
  omega

theorem Rep.tail_ptr {h : Heap} {bs fl : List Nat} (r : Rep h bs fl) : h.tail_ptr ≠ 0 := by
  have h2 := r.start_le
  have h3 := r.top_le
  have h4 := r.end_lt
  unfold Heap.tail_ptr
  rw [Nat.mod_eq_of_lt (by omega)]
  omega

theorem Rep.freelist_ptr {h : Heap} {bs fl : List Nat} (r : Rep h bs fl) :
    h.freelist_ptr ≠ 0 := by
  have h2 := r.start_le
  have h3 := r.top_le
  have h4 := r.end_lt
  unfold Heap.freelist_ptr
  rw [Nat.mod_eq_of_lt (by omega)]
  omega

/-! ## The loops of the block manager -/

theorem lnk_next_ne (g : Nat → Nat) (pre post : List Nat) (x p c a e : Nat)
    (hl : Lnk g a (x :: (pre ++ p :: c :: post)) e) (hc : c ∉ pre) (hcp : c ≠ p) : g x ≠ c := by
  rw [lnk_cons] at hl
  obtain ⟨-, hl⟩ := hl
  cases pre with
  | nil =>
    rw [List.nil_append, lnk_cons] at hl
    omega
  | cons y pre =>
    rw [List.cons_append, lnk_cons] at hl
    intro hx
    apply hc
    rw [← hx, hl.1]
    exact List.mem_cons_self _ _

theorem prev_loop_spec (mem : Nat → block_t) (c p : Nat) (pre post : List Nat) (a e fuel : Nat)
    (hl : Lnk (fun x => (mem x).next) a (pre ++ p :: c :: post) e)
    (hc : c ∉ pre) (hcp : c ≠ p) (hnz : ∀ x ∈ pre, x ≠ 0) (hp : p ≠ 0)
    (hfuel : pre.length < fuel) : prev_loop mem c fuel a = .ok p := by
  induction pre generalizing a fuel with
  | nil =>
    obtain ⟨rfl, hn, -⟩ := hl
    cases fuel with
    | zero => simp at hfuel
    | succ n => simp [prev_loop, hp, hn]
  | cons x pre ih =>
    have hne := lnk_next_ne _ pre post x p c a e hl (fun hm => hc (List.mem_cons_of_mem _ hm)) hcp
    obtain ⟨rfl, hl⟩ := hl
    cases fuel with
    | zero => simp at hfuel
    | succ n =>
      have hx : a ≠ 0 := hnz a (List.mem_cons_self _ _)
      simp only [prev_loop, hx, ↓reduceIte]
      simp only [ne_eq] at hne
      simp only [ne_eq, hne, not_false_eq_true, ↓reduceIte]
      exact ih _ _ hl (fun hm => hc (List.mem_cons_of_mem _ hm))
        (fun y hy => hnz y (List.mem_cons_of_mem _ hy)) (by simpa using hfuel)

theorem remove_loop_spec (mem : Nat → block_t) (c p : Nat) (pre post : List Nat)
    (a e fuel : Nat)
    (hl : Lnk (fun x => (mem x).nextfree) a (pre ++ p :: c :: post) e)
    (hc : c ∉ pre) (hcp : c ≠ p) (hnz : ∀ x ∈ pre, x ≠ 0)
    (hfuel : pre.length < fuel) : remove_loop mem c fuel a = .ok p := by
  induction pre generalizing a fuel with
  | nil =>
    obtain ⟨rfl, hn, -⟩ := hl
    cases fuel with
    | zero => simp at hfuel
    | succ n => simp [remove_loop, hn]
  | cons x pre ih =>
    have hne := lnk_next_ne _ pre post x p c a e hl (fun hm => hc (List.mem_cons_of_mem _ hm)) hcp
    obtain ⟨rfl, hl⟩ := hl
    cases fuel with
    | zero => simp at hfuel
    | succ n =>
      have hx : a ≠ 0 := hnz a (List.mem_cons_self _ _)
      simp only [ne_eq] at hne
      simp only [remove_loop, ne_eq, hx, not_false_eq_true, hne, and_self, ↓reduceIte]
      exact ih _ _ hl (fun hm => hc (List.mem_cons_of_mem _ hm))
        (fun y hy => hnz y (List.mem_cons_of_mem _ hy)) (by simpa using hfuel)

/-- A block fits a request: the test of `blkmngr_does_it_fit`. -/
theorem does_it_fit_eq (mem : Nat → block_t) (c size : Nat) (hc : c ≠ 0) :
    blkmngr_does_it_fit mem c size =
      .ok (decide ((mem c).size ≥ blkmngr_get_real_size size) && blkmngr_is_free mem c) := by
  simp [blkmngr_does_it_fit, c_assert, hc, bind, Except.bind, pure, Except.pure]

theorem find_loop_spec (mem : Nat → block_t) (size : Nat) (l : List Nat) (a fuel best : Nat)
    (hl : Lnk (fun x => (mem x).nextfree) a l 0) (hnz : ∀ x ∈ l, x ≠ 0)
    (hfuel : l.length < fuel) :
    ∃ r, find_loop mem size fuel a best = .ok r ∧
      (r = best ∨ (r ∈ l ∧ (mem r).size ≥ blkmngr_get_real_size size ∧
        blkmngr_is_free mem r = true)) ∧
      (r = 0 → best = 0 ∧ ∀ x ∈ l, ¬ ((mem x).size ≥ blkmngr_get_real_size size ∧
        blkmngr_is_free mem x = true)) := by
  induction l generalizing a fuel best with
  | nil =>
    simp only [lnk_nil] at hl
    subst hl
    cases fuel with
    | zero => simp at hfuel
    | succ n => exact ⟨best, by simp [find_loop], Or.inl rfl, fun hb => ⟨hb, by simp⟩⟩
  | cons x l ih =>
    obtain ⟨rfl, hl⟩ := hl
    cases fuel with
    | zero => simp at hfuel
    | succ n =>
      have hx : a ≠ 0 := hnz a (List.mem_cons_self _ _)
      have hnz' : ∀ y ∈ l, y ≠ 0 := fun y hy => hnz y (List.mem_cons_of_mem _ hy)
      have hf' : l.length < n := by simpa using hfuel
      simp only [find_loop, hx, ↓reduceIte, does_it_fit_eq mem a size hx, bind, Except.bind]
      by_cases hfit : (mem a).size ≥ blkmngr_get_real_size size ∧ blkmngr_is_free mem a = true
      · have hfit' : (decide ((mem a).size ≥ blkmngr_get_real_size size) &&
            blkmngr_is_free mem a) = true := by simpa using hfit
        simp only [hfit', Bool.not_true, Bool.false_eq_true, ↓reduceIte]
        by_cases hb : best = 0 ∨ (mem a).size < (mem best).size
        · simp only [hb, ↓reduceIte]
          obtain ⟨r, hr, h1, h2⟩ := ih _ n a hl hnz' hf'
          refine ⟨r, hr, ?_, ?_⟩
          · rcases h1 with rfl | ⟨h1, h1'⟩
            · exact Or.inr ⟨List.mem_cons_self _ _, hfit⟩
            · exact Or.inr ⟨List.mem_cons_of_mem _ h1, h1'⟩
          · intro hr0
            exact absurd (h2 hr0).1 hx
        · simp only [hb, ↓reduceIte]
          obtain ⟨r, hr, h1, h2⟩ := ih _ n best hl hnz' hf'
          refine ⟨r, hr, ?_, ?_⟩
          · rcases h1 with rfl | ⟨h1, h1'⟩
            · exact Or.inl rfl
            · exact Or.inr ⟨List.mem_cons_of_mem _ h1, h1'⟩
          · intro hr0
            exact absurd (Or.inl (h2 hr0).1) hb
      · have hfit' : (decide ((mem a).size ≥ blkmngr_get_real_size size) &&
            blkmngr_is_free mem a) = false := by
          rw [Bool.eq_false_iff]; simpa using hfit
        simp only [hfit', Bool.not_false, ↓reduceIte]
        obtain ⟨r, hr, h1, h2⟩ := ih _ n best hl hnz' hf'
        refine ⟨r, hr, ?_, ?_⟩
        · rcases h1 with rfl | ⟨h1, h1'⟩
          · exact Or.inl rfl
          · exact Or.inr ⟨List.mem_cons_of_mem _ h1, h1'⟩
        · intro hr0
          refine ⟨(h2 hr0).1, ?_⟩
          intro y hy
          rcases List.mem_cons.1 hy with rfl | hy
          · exact hfit
          · exact (h2 hr0).2 y hy

/-! ## Surgery on linked lists -/

theorem lnk_getLast (g : Nat → Nat) (l : List Nat) (x a e : Nat)
    (hl : Lnk g a (l ++ [x]) e) : g x = e := by
  rw [lnk_append] at hl
  obtain ⟨m, -, h2⟩ := hl
  simp only [lnk_cons, lnk_nil] at h2
  exact h2.2

theorem lnk_getLastD (g : Nat → Nat) (l : List Nat) (a e : Nat) (hne : l ≠ [])
    (hl : Lnk g a l e) : g (l.getLastD 0) = e := by
  obtain ⟨l', x, rfl⟩ : ∃ l' x, l = l' ++ [x] :=
    ⟨l.dropLast, l.getLast hne, (List.dropLast_append_getLast hne).symm⟩
  rw [List.getLastD_concat]
  exact lnk_getLast g l' x a e hl

/-- Merging the run `a :: mid` into the single node `a`. -/
theorem lnk_merge (g g' : Nat → Nat) (pre mid post : List Nat) (a x e : Nat)
    (hl : Lnk g x (pre ++ a :: (mid ++ post)) e)
    (hpre : ∀ y ∈ pre, g' y = g y) (hpost : ∀ y ∈ post, g' y = g y)
    (ha : g' a = g ((a :: mid).getLastD 0)) :
    Lnk g' x (pre ++ a :: post) e := by
  rw [lnk_append] at hl ⊢
  obtain ⟨m, h1, h2⟩ := hl
  refine ⟨m, (lnk_congr g g' pre x m (fun y hy => (hpre y hy).symm)).1 h1, ?_⟩
  have h3 : Lnk g m ((a :: mid) ++ post) e := by simpa using h2
  rw [lnk_append] at h3
  obtain ⟨m2, h4, h5⟩ := h3
  have h6 := lnk_getLastD g (a :: mid) m m2 (by simp) h4
  rw [lnk_cons]
  refine ⟨h4.1, ?_⟩
  rw [ha, h6]
  exact (lnk_congr g g' post m2 e (fun y hy => (hpost y hy).symm)).1 h5

/-- Splitting the node `a` into `a :: s`. -/
theorem lnk_split (g g' : Nat → Nat) (pre post : List Nat) (a s x e : Nat)
    (hl : Lnk g x (pre ++ a :: post) e)
    (hpre : ∀ y ∈ pre, g' y = g y) (hpost : ∀ y ∈ post, g' y = g y)
    (ha : g' a = s) (hs : g' s = g a) :
    Lnk g' x (pre ++ a :: s :: post) e := by
  rw [lnk_append] at hl ⊢
  obtain ⟨m, h1, h2⟩ := hl
  refine ⟨m, (lnk_congr g g' pre x m (fun y hy => (hpre y hy).symm)).1 h1, ?_⟩
  rw [lnk_cons] at h2
  simp only [lnk_cons]
  refine ⟨h2.1, ha, ?_⟩
  rw [hs]
  exact (lnk_congr g g' post _ e (fun y hy => (hpost y hy).symm)).1 h2.2

/-- Appending the node `t` at the end of a null-terminated list. -/
theorem lnk_snoc (g g' : Nat → Nat) (l : List Nat) (t x : Nat)
    (hl : Lnk g x l 0) (hne : l ≠ [])
    (hpre : ∀ y ∈ l, y ≠ l.getLastD 0 → g' y = g y)
    (hlast : g' (l.getLastD 0) = t) (ht : g' t = 0) (hnd : l.Nodup) :
    Lnk g' x (l ++ [t]) 0 := by
  obtain ⟨l', z, rfl⟩ : ∃ l' z, l = l' ++ [z] :=
    ⟨l.dropLast, l.getLast hne, (List.dropLast_append_getLast hne).symm⟩
  rw [List.getLastD_concat] at hpre hlast
  rw [lnk_append] at hl
  obtain ⟨m, h1, h2⟩ := hl
  rw [List.append_assoc, lnk_append]
  have hz : ∀ y ∈ l', y ≠ z := by
    intro y hy hyz
    subst hyz
    have := List.nodup_append.1 hnd
    exact this.2.2 hy (List.mem_singleton_self _)
  refine ⟨m, (lnk_congr g g' l' x m
    (fun y hy => (hpre y (List.mem_append_left _ hy) (hz y hy)).symm)).1 h1, ?_⟩
  simp only [lnk_cons, lnk_nil] at h2
  simp only [List.singleton_append, lnk_cons, lnk_nil]
  exact ⟨h2.1, hlast, ht⟩

theorem getLastD_append_cons (pre post : List Nat) (a d : Nat) :
    (pre ++ a :: post).getLastD d = (a :: post).getLastD d := by
  rw [List.getLastD_eq_getLast?, List.getLastD_eq_getLast?, List.getLast?_append_cons]

theorem getLastD_cons_ne (l : List Nat) (a d : Nat) (hl : l ≠ []) :
    (a :: l).getLastD d = l.getLastD d := by
  cases l with
  | nil => exact absurd rfl hl
  | cons b l => simp [List.getLastD]

theorem getLastD_mem (l : List Nat) (d : Nat) (hl : l ≠ []) : l.getLastD d ∈ l := by
  rw [List.getLastD_eq_getLast?, List.getLast?_eq_getLast l hl]
  exact List.getLast_mem hl

/-! ## Rebuilding the representation after an update -/

theorem block_end_congr (h h' : Heap) (x : Nat) (hs : (h'.mem x).size = (h.mem x).size) :
    block_end h' x = block_end h x := by
  unfold block_end payload
  rw [hs]

theorem is_free_congr (h h' : Heap) (x : Nat) (hs : (h'.mem x).size = (h.mem x).size) :
    blkmngr_is_free h'.mem x = blkmngr_is_free h.mem x := by
  unfold blkmngr_is_free
  rw [hs]

theorem getLastD_append_ne (l1 l2 : List Nat) (d : Nat) (hl : l2 ≠ []) :
    (l1 ++ l2).getLastD d = l2.getLastD d := by
  cases l2 with
  | nil => exact absurd rfl hl
  | cons b l => exact getLastD_append_cons l1 l b d

/-- The blocks `a :: mid` are merged into the free block `a`. -/
theorem rep_merge {h h' : Heap} {pre mid post fl fl' : List Nat} {a v : Nat}
    (r : Rep h (pre ++ a :: (mid ++ post)) fl) (hmid : mid ≠ [])
    (hvs : h'.vm_start = h.vm_start) (hve : h'.vm_end = h.vm_end) (htop : h'.top = h.top)
    (hhead : h'.head = h.head)
    (htail : h'.tail = if h.tail = mid.getLastD 0 then a else h.tail)
    (hsize : ∀ x, x ≠ a → (h'.mem x).size = (h.mem x).size)
    (hsa : (h'.mem a).size = v) (hv1 : v % 2 = 1)
    (hv2 : a + 12 + (v - 1) = block_end h (mid.getLastD 0))
    (hnext : ∀ x, x ≠ a → (h'.mem x).next = (h.mem x).next)
    (hna : (h'.mem a).next = (h.mem (mid.getLastD 0)).next)
    (hfc : Lnk (fun x => (h'.mem x).nextfree) h'.freelist fl' 0)
    (hfn : fl'.Nodup)
    (hfm : ∀ x, x ∈ fl' ↔ x = a ∨ (x ∈ fl ∧ x ∉ mid)) :
    Rep h' (pre ++ a :: post) fl' := by
  have hnd := r.nodup
  have hnd1 := List.nodup_append.1 hnd
  have hnd2 := List.nodup_cons.1 hnd1.2.1
  have hnd3 := List.nodup_append.1 hnd2.2
  have ha_pre : ∀ y ∈ pre, y ≠ a := fun y hy hya =>
    hnd1.2.2 hy (hya ▸ List.mem_cons_self _ _)
  have ha_post : ∀ y ∈ post, y ≠ a := fun y hy hya =>
    hnd2.1 (hya ▸ List.mem_append_right _ hy)
  have ha_mid : ∀ y ∈ mid, y ≠ a := fun y hy hya =>
    hnd2.1 (hya ▸ List.mem_append_left _ hy)
  have hmid_pre : ∀ y ∈ pre, y ∉ mid := fun y hy hym =>
    hnd1.2.2 hy (List.mem_cons_of_mem _ (List.mem_append_left _ hym))
  have hmid_post : ∀ y ∈ post, y ∉ mid := fun y hy hym => hnd3.2.2 hym hy
  have hlast_mem : mid.getLastD 0 ∈ mid := getLastD_mem mid 0 hmid
  have hlast_bs : mid.getLastD 0 ∈ pre ++ a :: (mid ++ post) :=
    List.mem_append_right _ (List.mem_cons_of_mem _ (List.mem_append_left _ hlast_mem))
  have hlast_cons : (a :: mid).getLastD 0 = mid.getLastD 0 := getLastD_cons_ne mid a 0 hmid
  have hbe := (r.mem_bounds _ hlast_bs).2
  have htl := r.top_le
  have hel := r.end_lt
  have hvlt : v < U32 := by omega
  have ha_bs : a ∈ pre ++ a :: (mid ++ post) := List.mem_append_right _ (List.mem_cons_self _ _)
  have ha0 : a ≠ 0 := r.nonzero a ha_bs
  have hfree_a : blkmngr_is_free h'.mem a = true := by
    rw [is_free_iff, hsa]; exact ⟨ha0, hv1⟩
  have hsub : ∀ x ∈ pre ++ a :: post, x ∈ pre ++ a :: (mid ++ post) := by
    intro x hx
    rcases List.mem_append.1 hx with hx | hx
    · exact List.mem_append_left _ hx
    · rcases List.mem_cons.1 hx with rfl | hx
      · exact ha_bs
      · exact List.mem_append_right _ (List.mem_cons_of_mem _ (List.mem_append_right _ hx))
  refine ⟨by rw [hvs]; exact r.start_pos, by rw [htop, hve]; exact r.top_le,
    by rw [hve]; exact r.end_lt, ?_, ?_, ?_, ?_, hfc, hfn, ?_, ?_⟩
  · rw [hhead]
    refine lnk_merge _ _ pre mid post a _ 0 r.chain (fun y hy => hnext y (ha_pre y hy))
      (fun y hy => hnext y (ha_post y hy)) ?_
    rw [hlast_cons]; exact hna
  · have hold := r.tail_eq
    rw [getLastD_append_cons] at hold ⊢
    rw [getLastD_cons_ne _ _ _ (by simp [hmid])] at hold
    by_cases hp : post = []
    · subst hp
      simp only [List.append_nil] at hold
      rw [htail, if_pos hold]
      rfl
    · rw [getLastD_append_ne _ _ _ hp] at hold
      rw [getLastD_cons_ne _ _ _ hp, htail, if_neg, hold]
      rw [hold]
      intro heq
      exact hmid_post _ (getLastD_mem post 0 hp) (heq ▸ hlast_mem)
  · rw [hvs, htop]
    refine lnk_merge _ _ pre mid post a _ _ r.layout
      (fun y hy => block_end_congr h h' y (hsize y (ha_pre y hy)))
      (fun y hy => block_end_congr h h' y (hsize y (ha_post y hy))) ?_
    rw [hlast_cons, ← hv2]
    unfold block_end payload OVERHEAD
    rw [hsa, real_size_eq v hvlt]
    omega
  · intro x hx
    by_cases hxa : x = a
    · rw [hxa, hsa]; exact hvlt
    · rw [hsize x hxa]; exact r.size_lt x (hsub x hx)
  · intro x hx
    by_cases hxa : x = a
    · subst hxa
      exact ⟨List.mem_append_right _ (List.mem_cons_self _ _), hfree_a⟩
    · rcases (hfm x).1 hx with hx | ⟨hx1, hx2⟩
      · exact absurd hx hxa
      · obtain ⟨hb, hf⟩ := r.fsound x hx1
        refine ⟨?_, by rw [is_free_congr h h' x (hsize x hxa)]; exact hf⟩
        rcases List.mem_append.1 hb with hb | hb
        · exact List.mem_append_left _ hb
        · rcases List.mem_cons.1 hb with hb | hb
          · exact absurd hb hxa
          · rcases List.mem_append.1 hb with hb | hb
            · exact absurd hb hx2
            · exact List.mem_append_right _ (List.mem_cons_of_mem _ hb)
  · intro x hx hf
    rw [hfm]
    by_cases hxa : x = a
    · exact Or.inl hxa
    · right
      rw [is_free_congr h h' x (hsize x hxa)] at hf
      refine ⟨r.fcomplete x (hsub x hx) hf, ?_⟩
      rcases List.mem_append.1 hx with hx | hx
      · exact hmid_pre x hx
      · rcases List.mem_cons.1 hx with hx | hx
        · exact absurd hx hxa
        · exact hmid_post x hx

/-- The flag of the block `a` changes; the block list does not. -/
theorem rep_flip {h h' : Heap} {bs fl fl' : List Nat} {a v : Nat}
    (r : Rep h bs fl)
    (hvs : h'.vm_start = h.vm_start) (hve : h'.vm_end = h.vm_end) (htop : h'.top = h.top)
    (hhead : h'.head = h.head) (htail : h'.tail = h.tail)
    (hsize : ∀ x, x ≠ a → (h'.mem x).size = (h.mem x).size)
    (hsa : (h'.mem a).size = v) (hv : v - v % 2 = payload h a) (hvlt : v < U32)
    (hnext : ∀ x, (h'.mem x).next = (h.mem x).next)
    (hfc : Lnk (fun x => (h'.mem x).nextfree) h'.freelist fl' 0)
    (hfn : fl'.Nodup)
    (hfm : ∀ x, x ∈ fl' ↔ (x = a ∧ a ∈ bs ∧ v % 2 = 1) ∨ (x ≠ a ∧ x ∈ fl)) :
    Rep h' bs fl' := by
  have hbe : ∀ x, block_end h' x = block_end h x := by
    intro x
    by_cases hxa : x = a
    · subst hxa
      unfold block_end
      rw [← hv]
      unfold payload
      rw [hsa, real_size_eq v hvlt]
    · exact block_end_congr h h' x (hsize x hxa)
  refine ⟨by rw [hvs]; exact r.start_pos, by rw [htop, hve]; exact r.top_le,
    by rw [hve]; exact r.end_lt, ?_, by rw [htail]; exact r.tail_eq, ?_, ?_, hfc, hfn, ?_, ?_⟩
  · rw [hhead]
    exact (lnk_congr _ _ bs _ 0 (fun x _ => (hnext x).symm)).1 r.chain
  · rw [hvs, htop]
    exact (lnk_congr _ _ bs _ _ (fun x _ => (hbe x).symm)).1 r.layout
  · intro x hx
    by_cases hxa : x = a
    · rw [hxa, hsa]; exact hvlt
    · rw [hsize x hxa]; exact r.size_lt x hx
  · intro x hx
    rcases (hfm x).1 hx with ⟨hxa, hab, hv1⟩ | ⟨hxa, hxf⟩
    · subst hxa
      refine ⟨hab, ?_⟩
      rw [is_free_iff, hsa]
      exact ⟨r.nonzero x hab, hv1⟩
    · obtain ⟨hb, hf⟩ := r.fsound x hxf
      exact ⟨hb, by rw [is_free_congr h h' x (hsize x hxa)]; exact hf⟩
  · intro x hx hf
    rw [hfm]
    by_cases hxa : x = a
    · subst hxa
      rw [is_free_iff, hsa] at hf
      exact Or.inl ⟨rfl, hx, hf.2⟩
    · rw [is_free_congr h h' x (hsize x hxa)] at hf
      exact Or.inr ⟨hxa, r.fcomplete x hx hf⟩

/-- The block `a` is split into the allocated block `a` and the free block `s`. -/
theorem rep_split {h h' : Heap} {pre post fl fl' : List Nat} {a s va vs : Nat}
    (r : Rep h (pre ++ a :: post) fl)
    (hvs : h'.vm_start = h.vm_start) (hve : h'.vm_end = h.vm_end) (htop : h'.top = h.top)
    (hhead : h'.head = h.head)
    (htail : h'.tail = if h.tail = a then s else h.tail)
    (hsize : ∀ x, x ≠ a → x ≠ s → (h'.mem x).size = (h.mem x).size)
    (hsa : (h'.mem a).size = va) (hva : va % 2 = 0) (hs : s = a + 12 + va)
    (hss : (h'.mem s).size = vs) (hvs1 : vs % 2 = 1)
    (hvs2 : s + 12 + (vs - 1) = block_end h a)
    (hnext : ∀ x, x ≠ a → x ≠ s → (h'.mem x).next = (h.mem x).next)
    (hna : (h'.mem a).next = s) (hns : (h'.mem s).next = (h.mem a).next)
    (hfc : Lnk (fun x => (h'.mem x).nextfree) h'.freelist fl' 0)
    (hfn : fl'.Nodup)
    (hfm : ∀ x, x ∈ fl' ↔ x = s ∨ (x ∈ fl ∧ x ≠ a)) :
    Rep h' (pre ++ a :: s :: post) fl' := by
  have hnd := r.nodup
  have hnd1 := List.nodup_append.1 hnd
  have hnd2 := List.nodup_cons.1 hnd1.2.1
  have ha_pre : ∀ y ∈ pre, y ≠ a := fun y hy hya =>
    hnd1.2.2 hy (hya ▸ List.mem_cons_self _ _)
  have ha_post : ∀ y ∈ post, y ≠ a := fun y hy hya => hnd2.1 (hya ▸ hy)
  have hsorted := lnk_sorted _ (block_end_ge h) _ _ _ r.layout
  rw [List.pairwise_append] at hsorted
  have hs_pre : ∀ y ∈ pre, y ≠ s := by
    intro y hy hys
    have h1 := hsorted.2.2 y hy a (List.mem_cons_self _ _)
    have h2 := block_end_ge h y
    omega
  have hs_post : ∀ y ∈ post, y ≠ s := by
    intro y hy hys
    have h1 := (List.pairwise_cons.1 hsorted.2.1).1 y hy
    omega
  have ha_bs : a ∈ pre ++ a :: post := List.mem_append_right _ (List.mem_cons_self _ _)
  have has : a ≠ s := by omega
  have hbe := (r.mem_bounds a ha_bs).2
  have htl := r.top_le
  have hel := r.end_lt
  have hvalt : va < U32 := by omega
  have hvslt : vs < U32 := by omega
  have hs0 : s ≠ 0 := by omega
  have hfree_s : blkmngr_is_free h'.mem s = true := by
    rw [is_free_iff, hss]; exact ⟨hs0, hvs1⟩
  have hfree_a : ¬ blkmngr_is_free h'.mem a = true := by
    rw [is_free_iff, hsa]; omega
  have hsub : ∀ x ∈ pre ++ a :: s :: post, x ≠ s → x ∈ pre ++ a :: post := by
    intro x hx hxs
    rcases List.mem_append.1 hx with hx | hx
    · exact List.mem_append_left _ hx
    · rcases List.mem_cons.1 hx with rfl | hx
      · exact ha_bs
      · rcases List.mem_cons.1 hx with rfl | hx
        · exact absurd rfl hxs
        · exact List.mem_append_right _ (List.mem_cons_of_mem _ hx)
  have hbe_a : block_end h' a = s := by
    unfold block_end payload OVERHEAD
    rw [hsa, real_size_eq va hvalt]
    omega
  have hbe_s : block_end h' s = block_end h a := by
    rw [← hvs2]
    unfold block_end payload OVERHEAD
    rw [hss, real_size_eq vs hvslt]
    omega
  refine ⟨by rw [hvs]; exact r.start_pos, by rw [htop, hve]; exact r.top_le,
    by rw [hve]; exact r.end_lt, ?_, ?_, ?_, ?_, hfc, hfn, ?_, ?_⟩
  · rw [hhead]
    exact lnk_split _ _ pre post a s _ 0 r.chain
      (fun y hy => hnext y (ha_pre y hy) (hs_pre y hy))
      (fun y hy => hnext y (ha_post y hy) (hs_post y hy)) hna hns
  · have hold := r.tail_eq
    rw [getLastD_append_cons] at hold ⊢
    rw [getLastD_cons_ne _ _ _ (by simp)]
    by_cases hp : post = []
    · subst hp
      have hold' : h.tail = a := hold
      rw [htail, if_pos hold']
      rfl
    · rw [getLastD_cons_ne _ _ _ hp] at hold ⊢
      rw [htail, if_neg, hold]
      rw [hold]
      intro heq
      exact ha_post _ (getLastD_mem post 0 hp) heq
  · rw [hvs, htop]
    exact lnk_split _ _ pre post a s _ _ r.layout
      (fun y hy => block_end_congr h h' y (hsize y (ha_pre y hy) (hs_pre y hy)))
      (fun y hy => block_end_congr h h' y (hsize y (ha_post y hy) (hs_post y hy))) hbe_a hbe_s
  · intro x hx
    by_cases hxs : x = s
    · rw [hxs, hss]; exact hvslt
    · by_cases hxa : x = a
      · rw [hxa, hsa]; exact hvalt
      · rw [hsize x hxa hxs]; exact r.size_lt x (hsub x hx hxs)
  · intro x hx
    by_cases hxs : x = s
    · subst hxs
      exact ⟨List.mem_append_right _ (List.mem_cons_of_mem _ (List.mem_cons_self _ _)), hfree_s⟩
    · rcases (hfm x).1 hx with hx | ⟨hx1, hx2⟩
      · exact absurd hx hxs
      · obtain ⟨hb, hf⟩ := r.fsound x hx1
        refine ⟨?_, by rw [is_free_congr h h' x (hsize x hx2 hxs)]; exact hf⟩
        rcases List.mem_append.1 hb with hb | hb
        · exact List.mem_append_left _ hb
        · rcases List.mem_cons.1 hb with hb | hb
          · exact absurd hb hx2
          · exact List.mem_append_right _ (List.mem_cons_of_mem _ (List.mem_cons_of_mem _ hb))
  · intro x hx hf
    rw [hfm]
    by_cases hxs : x = s
    · exact Or.inl hxs
    · right
      have hxa : x ≠ a := fun hxa => hfree_a (hxa ▸ hf)
      rw [is_free_congr h h' x (hsize x hxa hxs)] at hf
      exact ⟨r.fcomplete x (hsub x hx hxs) hf, hxa⟩

/-- A new allocated block `t` is appended at the old top of the heap. -/
theorem rep_append {h h' : Heap} {bs fl : List Nat} {t R : Nat}
    (r : Rep h bs fl)
    (hvs : h'.vm_start = h.vm_start) (hve : h'.vm_end = h.vm_end)
    (ht : t = h.top) (htop : h'.top = t + 12 + R) (htople : t + 12 + R ≤ h.vm_end)
    (hhead : h'.head = if h.head = 0 then t else h.head)
    (htail : h'.tail = t)
    (hsize : ∀ x, x ≠ t → (h'.mem x).size = (h.mem x).size)
    (hst : (h'.mem t).size = R) (hR : R % 2 = 0)
    (hnext : ∀ x, x ≠ t → x ≠ h.tail → (h'.mem x).next = (h.mem x).next)
    (hnt : (h'.mem t).next = 0) (hntail : h.head ≠ 0 → (h'.mem h.tail).next = t)
    (hnf : ∀ x, x ≠ t → (h'.mem x).nextfree = (h.mem x).nextfree)
    (hfl : h'.freelist = h.freelist) :
    Rep h' (bs ++ [t]) fl := by
  have hel := r.end_lt
  have hRlt : R < U32 := by omega
  have hbs_t : ∀ x ∈ bs, x ≠ t := by
    intro x hx hxt
    have h1 := (r.mem_bounds x hx).2
    have h2 := block_end_ge h x
    omega
  have ht0 : t ≠ 0 := by
    have := r.start_le
    omega
  have hfree_t : ¬ blkmngr_is_free h'.mem t = true := by
    rw [is_free_iff, hst]; omega
  have hbe_t : block_end h' t = h'.top := by
    rw [htop]
    unfold block_end payload OVERHEAD
    rw [hst, real_size_eq R hRlt]
    omega
  refine ⟨by rw [hvs]; exact r.start_pos, by rw [htop, hve]; exact htople,
    by rw [hve]; exact r.end_lt, ?_, ?_, ?_, ?_, ?_, r.fnodup, ?_, ?_⟩
  · by_cases hb : bs = []
    · subst hb
      have h0 : h.head = 0 := by simpa using r.chain
      rw [hhead, if_pos h0]
      simp [hnt]
    · have h0 : h.head ≠ 0 := by
        cases bs with
        | nil => exact absurd rfl hb
        | cons b l =>
          have := r.chain.1
          rw [this]
          exact r.nonzero b (List.mem_cons_self _ _)
      rw [hhead, if_neg h0]
      refine lnk_snoc _ _ bs t _ r.chain hb ?_ ?_ hnt r.nodup
      · intro y hy hyl
        rw [← r.tail_eq] at hyl
        exact hnext y (hbs_t y hy) hyl
      · rw [← r.tail_eq]
        exact hntail h0
  · rw [htail, List.getLastD_concat]
  · rw [hvs, lnk_append]
    refine ⟨t, ?_, ?_⟩
    · rw [ht]
      exact (lnk_congr _ _ bs _ _
        (fun x hx => (block_end_congr h h' x (hsize x (hbs_t x hx))).symm)).1 r.layout
    · simp [hbe_t]
  · intro x hx
    rcases List.mem_append.1 hx with hx | hx
    · rw [hsize x (hbs_t x hx)]; exact r.size_lt x hx
    · rw [List.mem_singleton.1 hx, hst]; exact hRlt
  · rw [hfl]
    refine (lnk_congr _ _ fl _ 0 (fun x hx => ?_)).1 r.fchain
    exact (hnf x (hbs_t x (r.fsound x hx).1)).symm
  · intro x hx
    obtain ⟨hb, hf⟩ := r.fsound x hx
    exact ⟨List.mem_append_left _ hb, by rw [is_free_congr h h' x (hsize x (hbs_t x hb))]; exact hf⟩
  · intro x hx hf
    rcases List.mem_append.1 hx with hx | hx
    · rw [is_free_congr h h' x (hsize x (hbs_t x hx))] at hf
      exact r.fcomplete x hx hf
    · rw [List.mem_singleton.1 hx] at hf
      exact absurd hf hfree_t

/-! ## The helpers of the block manager on a well-formed heap -/

theorem get_next_block_eq (g : Heap) (c : Nat) (hc : c ≠ 0) (hptr : g.tail_ptr ≠ 0)
    (ht : g.tail ≠ 0) (hlast : c = g.tail → (g.mem c).next = 0) :
    blkmngr_get_next_block g c = .ok (g.mem c).next := by
  unfold blkmngr_get_next_block c_assert
  by_cases hct : c = g.tail
  · simp [hc, hptr, ht, hct, bind, Except.bind, pure, Except.pure]
    rw [← hct, hlast hct]
  · simp [hc, hptr, ht, hct, bind, Except.bind, pure, Except.pure]

theorem Rep.tail_mem {h : Heap} {bs fl : List Nat} (r : Rep h bs fl) (hne : bs ≠ []) :
    h.tail ∈ bs := by
  rw [r.tail_eq]; exact getLastD_mem bs 0 hne

theorem Rep.tail_next {h : Heap} {bs fl : List Nat} (r : Rep h bs fl) (hne : bs ≠ []) :
    (h.mem h.tail).next = 0 := by
  rw [r.tail_eq]; exact lnk_getLastD _ bs _ 0 hne r.chain

theorem Rep.get_next {h : Heap} {bs fl : List Nat} (r : Rep h bs fl) (c : Nat) (hc : c ∈ bs) :
    blkmngr_get_next_block h c = .ok (h.mem c).next := by
  have hne : bs ≠ [] := List.ne_nil_of_mem hc
  refine get_next_block_eq h c (r.nonzero c hc) r.tail_ptr (r.nonzero _ (r.tail_mem hne)) ?_
  intro hct
  rw [hct]; exact r.tail_next hne

theorem Rep.head_eq {h : Heap} {bs fl : List Nat} (r : Rep h bs fl) : h.head = bs.headD 0 := by
  cases bs with
  | nil => simpa using r.chain
  | cons b l => exact r.chain.1

theorem Rep.get_prev {h : Heap} {pre post fl : List Nat} {c : Nat}
    (r : Rep h (pre ++ c :: post) fl) :
    blkmngr_get_previous_block h c = .ok (pre.getLastD 0) := by
  have hc : c ∈ pre ++ c :: post := List.mem_append_right _ (List.mem_cons_self _ _)
  have hc0 := r.nonzero c hc
  have hnd := List.nodup_append.1 r.nodup
  unfold blkmngr_get_previous_block c_assert
  by_cases hp : pre = []
  · subst hp
    have hh : h.head = c := r.chain.1
    simp [hc0, r.head_ptr, hh, bind, Except.bind, pure, Except.pure]
  · obtain ⟨pre', p, rfl⟩ : ∃ l' x, pre = l' ++ [x] :=
      ⟨pre.dropLast, pre.getLast hp, (List.dropLast_append_getLast hp).symm⟩
    have hh0 : h.head ≠ 0 := by
      rw [r.head_eq]
      cases pre' with
      | nil => exact r.nonzero _ (by simp)
      | cons b l => exact r.nonzero _ (by simp)
    have hch : c ≠ h.head := by
      rw [r.head_eq]
      intro hch
      have hm : c ∈ pre' ++ [p] := by
        cases pre' with
        | nil => simp at hch; simp [hch]
        | cons b l => simp at hch; simp [hch]
      exact hnd.2.2 hm (List.mem_cons_self _ _)
    have hcp : c ≠ p := by
      intro hcp
      have h1 : c ∈ pre' ++ [p] := List.mem_append_right _ (List.mem_singleton.2 hcp)
      exact hnd.2.2 h1 (List.mem_cons_self _ _)
    have hcpre : c ∉ pre' := fun hm =>
      hnd.2.2 (List.mem_append_left _ hm) (List.mem_cons_self _ _)
    have hchain : Lnk (fun x => (h.mem x).next) h.head (pre' ++ p :: c :: post) 0 := by
      have := r.chain
      simpa using this
    have hloop := prev_loop_spec h.mem c p pre' post h.head 0 U32 hchain hcpre hcp
      (fun x hx => r.nonzero x (by simp [hx])) (r.nonzero p (by simp)) (by
        have := r.length_le
        simp only [List.length_append, List.length_cons, List.length_nil] at this
        omega)
    simp [hc0, r.head_ptr, hh0, hch, bind, Except.bind, hloop, List.getLastD_concat]

/-- Unlinking a member of the free list. -/
theorem remove_spec (g : Heap) (b : Nat) (fl : List Nat)
    (hptr : g.freelist_ptr ≠ 0)
    (hl : Lnk (fun x => (g.mem x).nextfree) g.freelist fl 0)
    (hnd : fl.Nodup) (hnz : ∀ x ∈ fl, x ≠ 0) (hlen : fl.length < U32) (hb : b ∈ fl) :
    ∃ g' fl', blkmngr_remove_from_freelist g b = .ok g' ∧
      Lnk (fun x => (g'.mem x).nextfree) g'.freelist fl' 0 ∧ fl'.Nodup ∧
      (∀ x, x ∈ fl' ↔ (x ∈ fl ∧ x ≠ b)) ∧
      (∀ x, (g'.mem x).size = (g.mem x).size) ∧ (∀ x, (g'.mem x).next = (g.mem x).next) ∧
      g'.vm_start = g.vm_start ∧ g'.vm_end = g.vm_end ∧ g'.top = g.top ∧
      g'.head = g.head ∧ g'.tail = g.tail := by
  obtain ⟨f1, f2, rfl⟩ := List.append_of_mem hb
  have hb0 : b ≠ 0 := hnz b hb
  have hnd' := List.nodup_append.1 hnd
  have hnd2 := List.nodup_cons.1 hnd'.2.1
  have hb1 : b ∉ f1 := fun hm => hnd'.2.2 hm (List.mem_cons_self _ _)
  have hb2 : b ∉ f2 := hnd2.1
  have hmem : ∀ x, x ∈ f1 ++ f2 ↔ (x ∈ f1 ++ b :: f2 ∧ x ≠ b) := by
    intro x
    simp only [List.mem_append, List.mem_cons]
    constructor
    · rintro (hx | hx)
      · exact ⟨Or.inl hx, fun hxb => hb1 (hxb ▸ hx)⟩
      · exact ⟨Or.inr (Or.inr hx), fun hxb => hb2 (hxb ▸ hx)⟩
    · rintro ⟨hx | hx | hx, hxb⟩
      · exact Or.inl hx
      · exact absurd hx hxb
      · exact Or.inr hx
  have hnd3 : (f1 ++ f2).Nodup := by
    rw [List.nodup_append]
    exact ⟨hnd'.1, hnd2.2, fun x h1 h2 => hnd'.2.2 h1 (List.mem_cons_of_mem _ h2)⟩
  have hfirst0 : g.freelist ≠ 0 := by
    cases f1 with
    | nil => rw [hl.1]; exact hb0
    | cons y l => rw [hl.1]; exact hnz y (by simp)
  unfold blkmngr_remove_from_freelist c_assert
  by_cases hf1 : f1 = []
  · subst hf1
    have hfirst : g.freelist = b := hl.1
    have hl2 : Lnk (fun x => (g.mem x).nextfree) (g.mem b).nextfree f2 0 := hl.2
    refine ⟨(g.set_freelist (g.mem b).nextfree).set_nextfree b 0, [] ++ f2, by
      simp only [hb0, hptr, hfirst0, hfirst, bind, Except.bind, pure, Except.pure, ne_eq,
        not_false_eq_true, ↓reduceIte], ?_, hnd3, hmem, ?_, ?_, rfl, rfl, rfl, rfl, rfl⟩
    · simp only [List.nil_append, set_nextfree_freelist, set_freelist_freelist]
      refine (lnk_congr _ _ f2 _ 0 (fun x hx => ?_)).1 hl2
      have hxb : x ≠ b := fun hxb => hb2 (hxb ▸ hx)
      simp [hxb]
    · intro x; simp
    · intro x; simp
  · obtain ⟨pre, p, rfl⟩ : ∃ l' x, f1 = l' ++ [x] :=
      ⟨f1.dropLast, f1.getLast hf1, (List.dropLast_append_getLast hf1).symm⟩
    have hbf : b ≠ g.freelist := by
      intro hbf
      apply hb1
      cases pre with
      | nil => simp at hl; simp [← hl.1, ← hbf]
      | cons y l => simp at hl; simp [← hl.1, ← hbf]
    have hbp : b ≠ p := fun hbp => hb1 (by simp [hbp])
    have hbpre : b ∉ pre := fun hm => hb1 (by simp [hm])
    have hp0 : p ≠ 0 := hnz p (by simp)
    have hchain : Lnk (fun x => (g.mem x).nextfree) g.freelist (pre ++ p :: b :: f2) 0 := by
      simpa using hl
    have hloop := remove_loop_spec g.mem b p pre f2 g.freelist 0 U32 hchain hbpre hbp
      (fun x hx => hnz x (by simp [hx])) (by
        simp only [List.length_append, List.length_cons, List.length_nil] at hlen
        omega)
    have hnd4 := List.nodup_append.1 hnd'.1
    have hp_pre : p ∉ pre := fun hm => hnd4.2.2 hm (List.mem_singleton_self _)
    have hp_f2 : p ∉ f2 := fun hm =>
      hnd'.2.2 (List.mem_append_right _ (List.mem_singleton_self _)) (List.mem_cons_of_mem _ hm)
    refine ⟨(g.set_nextfree p (g.mem b).nextfree).set_nextfree b 0, (pre ++ [p]) ++ f2, by
      simp only [hb0, hptr, hfirst0, hbf, hloop, hp0, bind, Except.bind, pure, Except.pure,
        ne_eq, not_false_eq_true, ↓reduceIte], ?_, hnd3, hmem, ?_, ?_, rfl, rfl, rfl, rfl, rfl⟩
    · simp only [set_nextfree_freelist, List.append_assoc, List.singleton_append]
      have hm := lnk_merge (fun x => (g.mem x).nextfree)
        (fun x => (((g.set_nextfree p (g.mem b).nextfree).set_nextfree b 0).mem x).nextfree)
        pre [b] f2 p g.freelist 0 (by simpa using hchain) ?_ ?_ ?_
      · exact hm
      · intro y hy
        have h1 : y ≠ b := fun e => hbpre (e ▸ hy)
        have h2 : y ≠ p := fun e => hp_pre (e ▸ hy)
        simp [h1, h2]
      · intro y hy
        have h1 : y ≠ b := fun e => hb2 (e ▸ hy)
        have h2 : y ≠ p := fun e => hp_f2 (e ▸ hy)
        simp [h1, h2]
      · have h1 : p ≠ b := fun e => hbp e.symm
        simp [h1, List.getLastD]
    · intro x; simp
    · intro x; simp

/-- Linking a block in front of the free list. -/
theorem add_spec (g : Heap) (b : Nat) (fl : List Nat) (hb0 : b ≠ 0)
    (hptr : g.freelist_ptr ≠ 0)
    (hl : Lnk (fun x => (g.mem x).nextfree) g.freelist fl 0) (hb : b ∉ fl) :
    ∃ g', blkmngr_add_to_freelist g b = .ok g' ∧
      Lnk (fun x => (g'.mem x).nextfree) g'.freelist (b :: fl) 0 ∧
      (∀ x, (g'.mem x).size = (g.mem x).size) ∧ (∀ x, (g'.mem x).next = (g.mem x).next) ∧
      g'.vm_start = g.vm_start ∧ g'.vm_end = g.vm_end ∧ g'.top = g.top ∧
      g'.head = g.head ∧ g'.tail = g.tail := by
  refine ⟨(g.set_nextfree b g.freelist).set_freelist b, by
    simp only [blkmngr_add_to_freelist, c_assert, hb0, hptr, bind, Except.bind, pure,
      Except.pure, ne_eq, not_false_eq_true, ↓reduceIte], ?_, ?_, ?_, rfl, rfl, rfl, rfl, rfl⟩
  · simp only [lnk_cons, set_freelist_freelist, set_freelist_mem, set_nextfree_mem_nextfree,
      ↓reduceIte, true_and]
    refine (lnk_congr _ _ fl _ 0 (fun x hx => ?_)).1 hl
    have hxb : x ≠ b := fun e => hb (e ▸ hx)
    simp [hxb]
  · intro x; simp
  · intro x; simp

/-! ## `__do_free` on a well-formed heap -/

theorem lnk_next_of_mem (g : Nat → Nat) (pre post : List Nat) (c x e : Nat)
    (hl : Lnk g x (pre ++ c :: post) e) : g c = post.headD e := by
  rw [lnk_append] at hl
  obtain ⟨m, -, h2⟩ := hl
  rw [lnk_cons] at h2
  cases post with
  | nil => simpa using h2.2
  | cons b l => simpa using h2.2.1

theorem Rep.next_eq {h : Heap} {pre post fl : List Nat} {c : Nat}
    (r : Rep h (pre ++ c :: post) fl) : (h.mem c).next = post.headD 0 :=
  lnk_next_of_mem _ pre post c _ 0 r.chain

theorem Rep.block_end_eq {h : Heap} {pre post fl : List Nat} {c : Nat}
    (r : Rep h (pre ++ c :: post) fl) : block_end h c = post.headD h.top :=
  lnk_next_of_mem _ pre post c _ _ r.layout

theorem Rep.lt_u32 {h : Heap} {bs fl : List Nat} (r : Rep h bs fl) (c : Nat) (hc : c ∈ bs) :
    c + 12 + payload h c < U32 := by
  have h1 := (r.mem_bounds c hc).2
  have h2 := r.top_le
  have h3 := r.end_lt
  unfold block_end OVERHEAD at h1
  omega

theorem curr_eq (c : Nat) (hc : c + 12 < U32) : (c + 12 + U32 - OVERHEAD) % U32 = c := by
  unfold OVERHEAD
  have : c + 12 + U32 - 12 = c + U32 := by omega
  rw [this, Nat.add_mod_right, Nat.mod_eq_of_lt (by omega)]

theorem Rep.not_free_size {h : Heap} {bs fl : List Nat} (r : Rep h bs fl) (c : Nat)
    (hc : c ∈ bs) (hf : ¬ blkmngr_is_free h.mem c = true) : (h.mem c).size % 2 = 0 := by
  rw [is_free_iff] at hf
  have := r.nonzero c hc
  simp only [ne_eq, this, not_false_eq_true, true_and] at hf
  omega

theorem Rep.free_size {h : Heap} {bs fl : List Nat} (_ : Rep h bs fl) (c : Nat)
    (hf : blkmngr_is_free h.mem c = true) : (h.mem c).size % 2 = 1 := by
  rw [is_free_iff] at hf
  exact hf.2

theorem Rep.payload_alloc {h : Heap} {bs fl : List Nat} (r : Rep h bs fl) (c : Nat)
    (hc : c ∈ bs) (hf : ¬ blkmngr_is_free h.mem c = true) : payload h c = (h.mem c).size := by
  rw [r.payload_eq c hc, r.not_free_size c hc hf]; omega

theorem Rep.payload_free {h : Heap} {bs fl : List Nat} (r : Rep h bs fl) (c : Nat)
    (hc : c ∈ bs) (hf : blkmngr_is_free h.mem c = true) :
    payload h c + 1 = (h.mem c).size := by
  have := r.free_size c hf
  rw [r.payload_eq c hc]; omega

theorem Rep.payload_even {h : Heap} {bs fl : List Nat} (r : Rep h bs fl) (c : Nat)
    (hc : c ∈ bs) : payload h c % 2 = 0 := by
  rw [r.payload_eq c hc]; omega

theorem set_free_word_payload {h : Heap} {bs fl : List Nat} (r : Rep h bs fl) (c : Nat)
    (hc : c ∈ bs) : set_free_word (h.mem c).size 1 = payload h c + 1 := by
  rw [set_free_one _ (r.size_lt c hc), r.payload_eq c hc]

theorem free_entry {h : Heap} {pre post fl : List Nat} {c : Nat}
    (r : Rep h (pre ++ c :: post) fl) :
    c + 12 ≠ 0 ∧ (c + 12 + U32 - OVERHEAD) % U32 = c ∧
      blkmngr_get_previous_block h c = .ok (pre.getLastD 0) ∧
      blkmngr_get_next_block h c = .ok (post.headD 0) := by
  have hcm : c ∈ pre ++ c :: post := List.mem_append_right _ (List.mem_cons_self _ _)
  have hlt := r.lt_u32 c hcm
  have hnext := r.get_next c hcm
  rw [r.next_eq] at hnext
  exact ⟨by omega, curr_eq c (by omega), r.get_prev, hnext⟩

theorem Rep.freelist_ptr_of {h g : Heap} {bs fl : List Nat} (r : Rep h bs fl)
    (hg : g.vm_start = h.vm_start) : g.freelist_ptr ≠ 0 := by
  have := r.freelist_ptr
  unfold Heap.freelist_ptr at this ⊢
  rw [hg]; exact this

theorem Rep.tail_ptr_of {h g : Heap} {bs fl : List Nat} (r : Rep h bs fl)
    (hg : g.vm_start = h.vm_start) : g.tail_ptr ≠ 0 := by
  have := r.tail_ptr
  unfold Heap.tail_ptr at this ⊢
  rw [hg]; exact this

/-- The successor of a block, read from a heap that differs from `h` in size fields only. -/
theorem Rep.get_next_of {h g : Heap} {bs fl : List Nat} (r : Rep h bs fl) (n : Nat)
    (hn : n ∈ bs) (hvs : g.vm_start = h.vm_start) (ht : g.tail = h.tail)
    (hnx : (g.mem n).next = (h.mem n).next) :
    blkmngr_get_next_block g n = .ok (h.mem n).next := by
  have hne : bs ≠ [] := List.ne_nil_of_mem hn
  have := get_next_block_eq g n (r.nonzero n hn) (r.tail_ptr_of hvs)
    (by rw [ht]; exact r.nonzero _ (r.tail_mem hne))
    (by
      intro hnt
      rw [hnx, hnt, ht]
      exact r.tail_next hne)
  rw [this, hnx]

/-- Release of a block whose neighbours are both absent or allocated. -/
theorem free_neither {h : Heap} {pre post fl : List Nat} {c : Nat}
    (r : Rep h (pre ++ c :: post) fl)
    (hc : ¬ blkmngr_is_free h.mem c = true)
    (hp : ¬ blkmngr_is_free h.mem (pre.getLastD 0) = true)
    (hn : ¬ blkmngr_is_free h.mem (post.headD 0) = true) :
    ∃ h', __do_free h (c + 12) = .ok h' ∧ Rep h' (pre ++ c :: post) (c :: fl) ∧
      h'.top = h.top ∧ h'.vm_start = h.vm_start ∧ h'.vm_end = h.vm_end ∧
      (∀ x, x ≠ c → (h'.mem x).size = (h.mem x).size) ∧
      (h'.mem c).size = payload h c + 1 := by
  have hU := U32_eq
  have hcm : c ∈ pre ++ c :: post := List.mem_append_right _ (List.mem_cons_self _ _)
  have hc0 := r.nonzero c hcm
  have hlt := r.lt_u32 c hcm
  have hev := r.payload_even c hcm
  obtain ⟨hptr, hcur, hprev, hnext⟩ := free_entry r
  have hcfl : c ∉ fl := fun hm => hc (r.fsound c hm).2
  have hsf := set_free_word_payload r c hcm
  obtain ⟨g', hg', hfc, hs', hn', e1, e2, e3, e4, e5⟩ :=
    add_spec (blkmngr_set_free h c 1) c fl hc0 r.freelist_ptr
      (by simpa using r.fchain) hcfl
  have hsc : (g'.mem c).size = payload h c + 1 := by rw [hs']; simp [hsf]
  have hso : ∀ x, x ≠ c → (g'.mem x).size = (h.mem x).size := by
    intro x hx; rw [hs']; simp [hx]
  refine ⟨g', ?_, ?_, e3, e1, e2, hso, hsc⟩
  · unfold __do_free c_assert
    simp only [hptr, r.head_ptr, r.tail_ptr, r.freelist_ptr, ne_eq, not_false_eq_true, and_self,
      ↓reduceIte, ok_bind, hcur, hprev, hnext, hp, hn, Bool.and_false, Bool.false_and,
      Bool.false_eq_true]
    exact hg'
  · refine rep_flip r e1 e2 e3 e4 e5 hso hsc (by omega) (by omega) ?_ hfc ?_ ?_
    · intro x; rw [hn']; simp
    · exact List.nodup_cons.2 ⟨hcfl, r.fnodup⟩
    · intro x
      simp only [List.mem_cons]
      constructor
      · rintro (hx | hx)
        · exact Or.inl ⟨hx, hcm, by omega⟩
        · exact Or.inr ⟨fun e => hcfl (e ▸ hx), hx⟩
      · rintro (⟨hx, -⟩ | ⟨-, hx⟩)
        · exact Or.inl hx
        · exact Or.inr hx

/-- Release of a block whose successor only is free. -/
theorem free_next {h : Heap} {pre post fl : List Nat} {c n : Nat}
    (r : Rep h (pre ++ c :: n :: post) fl)
    (hc : ¬ blkmngr_is_free h.mem c = true)
    (hp : ¬ blkmngr_is_free h.mem (pre.getLastD 0) = true)
    (hn : blkmngr_is_free h.mem n = true) :
    ∃ h' fl', __do_free h (c + 12) = .ok h' ∧ Rep h' (pre ++ c :: post) fl' ∧
      h'.top = h.top ∧ h'.vm_start = h.vm_start ∧ h'.vm_end = h.vm_end ∧
      (∀ x, x ≠ c → (h'.mem x).size = (h.mem x).size) ∧
      (h'.mem c).size = payload h c + 12 + payload h n + 1 ∧
      (∀ x, x ∈ fl' ↔ x = c ∨ (x ∈ fl ∧ x ≠ n)) := by
  have hU := U32_eq
  have hcm : c ∈ pre ++ c :: n :: post := List.mem_append_right _ (List.mem_cons_self _ _)
  have hnm : n ∈ pre ++ c :: n :: post :=
    List.mem_append_right _ (List.mem_cons_of_mem _ (List.mem_cons_self _ _))
  have hc0 := r.nonzero c hcm
  obtain ⟨hptr, hcur, hprev, hnext⟩ := free_entry r
  simp only [List.headD_cons] at hnext
  have hcfl : c ∉ fl := fun hm => hc (r.fsound c hm).2
  have hnfl : n ∈ fl := r.fcomplete n hnm hn
  have hbc : block_end h c = n := by simpa using r.block_end_eq
  have hbn := r.lt_u32 n hnm
  unfold block_end OVERHEAD at hbc
  have hec := r.payload_even c hcm
  have hen := r.payload_even n hnm
  have hv0 : (blkmngr_get_real_size (h.mem c).size + OVERHEAD +
      blkmngr_get_real_size (h.mem n).size) % U32 = payload h c + 12 + payload h n := by
    show (payload h c + 12 + payload h n) % U32 = _
    exact Nat.mod_eq_of_lt (by omega)
  have hsf : set_free_word (payload h c + 12 + payload h n) 1 =
      payload h c + 12 + payload h n + 1 := by
    rw [set_free_one _ (by omega)]; omega
  have hnn : blkmngr_get_next_block (blkmngr_set_free (h.set_size c
      (payload h c + 12 + payload h n)) c 1) n = .ok (h.mem n).next :=
    r.get_next_of n hnm rfl rfl (by simp)
  obtain ⟨g5, fl5, hg5, hfc5, hnd5, hm5, hs5, hn5, a1, a2, a3, a4, a5⟩ :=
    remove_spec (((blkmngr_set_free (h.set_size c
      (payload h c + 12 + payload h n)) c 1).set_next c (h.mem n).next).set_tail
      (if h.tail = n then c else h.tail)) n fl r.freelist_ptr (by simpa using r.fchain)
      r.fnodup r.fnonzero (by
        have := r.length_le
        have := r.flength_le
        omega) hnfl
  have hcfl5 : c ∉ fl5 := fun hm => hcfl ((hm5 c).1 hm).1
  obtain ⟨g6, hg6, hfc6, hs6, hn6, e1, e2, e3, e4, e5⟩ :=
    add_spec g5 c fl5 hc0 (r.freelist_ptr_of (by rw [a1]; rfl)) hfc5 hcfl5
  have hsc : (g6.mem c).size = payload h c + 12 + payload h n + 1 := by
    rw [hs6, hs5]; simp [hsf]
  have hso : ∀ x, x ≠ c → (g6.mem x).size = (h.mem x).size := by
    intro x hx; rw [hs6, hs5]; simp [hx]
  have hmem : ∀ x, x ∈ c :: fl5 ↔ x = c ∨ (x ∈ fl ∧ x ≠ n) := by
    intro x; rw [List.mem_cons, hm5]
  refine ⟨g6, c :: fl5, ?_, ?_, ?_, ?_, ?_, hso, hsc, hmem⟩
  · unfold __do_free c_assert
    simp only [hptr, r.head_ptr, r.tail_ptr, r.freelist_ptr, ne_eq, not_false_eq_true, and_self,
      ↓reduceIte, ok_bind, hcur, hprev, hnext, hp, hn, Bool.and_false, Bool.false_and,
      Bool.false_eq_true, hv0, hnn, ite_set_tail, set_next_tail, set_free_tail, set_size_tail,
      hg5, hg6]
  · have r' : Rep h (pre ++ c :: ([n] ++ post)) fl := by simpa using r
    refine rep_merge r' (by simp) ?_ ?_ ?_ ?_ ?_ hso hsc (by omega) ?_ ?_ ?_ hfc6 ?_ ?_
    · rw [e1, a1]; rfl
    · rw [e2, a2]; rfl
    · rw [e3, a3]; rfl
    · rw [e4, a4]; rfl
    · rw [e5, a5]; simp [List.getLastD]
    · simp only [List.getLastD_cons, List.getLastD_nil]
      unfold block_end OVERHEAD
      omega
    · intro x hx; rw [hn6, hn5]; simp [hx]
    · rw [hn6, hn5]; simp [List.getLastD]
    · exact List.nodup_cons.2 ⟨hcfl5, hnd5⟩
    · intro x
      rw [hmem]
      simp
  · rw [e3, a3]; rfl
  · rw [e1, a1]; rfl
  · rw [e2, a2]; rfl

/-- Release of a block whose predecessor only is free. -/
theorem free_prev {h : Heap} {pre post fl : List Nat} {p c : Nat}
    (r : Rep h (pre ++ p :: c :: post) fl)
    (hc : ¬ blkmngr_is_free h.mem c = true)
    (hp : blkmngr_is_free h.mem p = true)
    (hn : ¬ blkmngr_is_free h.mem (post.headD 0) = true) :
    ∃ h', __do_free h (c + 12) = .ok h' ∧ Rep h' (pre ++ p :: post) fl ∧
      h'.top = h.top ∧ h'.vm_start = h.vm_start ∧ h'.vm_end = h.vm_end ∧
      (∀ x, x ≠ p → (h'.mem x).size = (h.mem x).size) ∧
      (h'.mem p).size = payload h p + 12 + payload h c + 1 := by
  have hU := U32_eq
  have r1 : Rep h ((pre ++ [p]) ++ c :: post) fl := by simpa using r
  have hpm : p ∈ pre ++ p :: c :: post := List.mem_append_right _ (List.mem_cons_self _ _)
  have hcm : c ∈ pre ++ p :: c :: post :=
    List.mem_append_right _ (List.mem_cons_of_mem _ (List.mem_cons_self _ _))
  obtain ⟨hptr, hcur, hprev, hnext⟩ := free_entry r1
  rw [List.getLastD_concat] at hprev
  have hcfl : c ∉ fl := fun hm => hc (r.fsound c hm).2
  have hpfl : p ∈ fl := r.fcomplete p hpm hp
  have hbp : block_end h p = c := by simpa using r.block_end_eq
  have hbc := r.lt_u32 c hcm
  unfold block_end OVERHEAD at hbp
  have hep := r.payload_even p hpm
  have hec := r.payload_even c hcm
  have hv0 : (blkmngr_get_real_size (h.mem p).size + OVERHEAD +
      blkmngr_get_real_size (h.mem c).size) % U32 = payload h p + 12 + payload h c := by
    show (payload h p + 12 + payload h c) % U32 = _
    exact Nat.mod_eq_of_lt (by omega)
  have hsf : set_free_word (payload h p + 12 + payload h c) 1 =
      payload h p + 12 + payload h c + 1 := by
    rw [set_free_one _ (by omega)]; omega
  obtain ⟨g, hg⟩ : ∃ g, g = ((blkmngr_set_free (h.set_size p
      (payload h p + 12 + payload h c)) p 1).set_next p (post.headD 0)).set_tail
      (if h.tail = c then p else h.tail) := ⟨_, rfl⟩
  have hsc : (g.mem p).size = payload h p + 12 + payload h c + 1 := by rw [hg]; simp [hsf]
  have hso : ∀ x, x ≠ p → (g.mem x).size = (h.mem x).size := by
    intro x hx; rw [hg]; simp [hx]
  have hno : ∀ x, x ≠ p → (g.mem x).next = (h.mem x).next := by
    intro x hx; rw [hg]; simp [hx]
  have hnp : (g.mem p).next = (h.mem ([c].getLastD 0)).next := by
    have := r1.next_eq
    rw [hg]; simp [List.getLastD, this]
  have htl : g.tail = if h.tail = [c].getLastD 0 then p else h.tail := by
    rw [hg]; simp [List.getLastD]
  have hfc : Lnk (fun x => (g.mem x).nextfree) g.freelist fl 0 := by
    rw [hg]; simpa using r.fchain
  have hv2 : p + 12 + (payload h p + 12 + payload h c + 1 - 1) = block_end h ([c].getLastD 0) := by
    simp only [List.getLastD_cons, List.getLastD_nil]
    unfold block_end OVERHEAD
    omega
  have hfm : ∀ x, x ∈ fl ↔ x = p ∨ (x ∈ fl ∧ x ∉ [c]) := by
    intro x
    constructor
    · intro hx
      by_cases hxp : x = p
      · exact Or.inl hxp
      · exact Or.inr ⟨hx, by
          intro hm
          rw [List.mem_singleton] at hm
          exact hcfl (hm ▸ hx)⟩
    · rintro (hx | ⟨hx, -⟩)
      · rw [hx]; exact hpfl
      · exact hx
  have r' : Rep h (pre ++ p :: ([c] ++ post)) fl := by simpa using r
  refine ⟨g, ?_, ?_, by rw [hg]; rfl, by rw [hg]; rfl, by rw [hg]; rfl, hso, hsc⟩
  · unfold __do_free c_assert
    simp only [hptr, r.head_ptr, r.tail_ptr, r.freelist_ptr, ne_eq, not_false_eq_true, and_self,
      ↓reduceIte, ok_bind, hcur, hprev, hnext, hp, hn, Bool.and_false, Bool.false_and,
      Bool.false_eq_true, hv0, ite_set_tail, set_next_tail, set_free_tail, set_size_tail]
    rw [hg]; rfl
  · exact rep_merge r' (by simp) (by rw [hg]; rfl) (by rw [hg]; rfl) (by rw [hg]; rfl)
      (by rw [hg]; rfl) htl hso hsc (by omega) hv2 hno hnp hfc r.fnodup hfm

/-- Release of a block whose neighbours are both free. -/
theorem free_both {h : Heap} {pre post fl : List Nat} {p c n : Nat}
    (r : Rep h (pre ++ p :: c :: n :: post) fl)
    (hc : ¬ blkmngr_is_free h.mem c = true)
    (hp : blkmngr_is_free h.mem p = true)
    (hn : blkmngr_is_free h.mem n = true) :
    ∃ h' fl', __do_free h (c + 12) = .ok h' ∧ Rep h' (pre ++ p :: post) fl' ∧
      h'.top = h.top ∧ h'.vm_start = h.vm_start ∧ h'.vm_end = h.vm_end ∧
      (∀ x, x ≠ p → (h'.mem x).size = (h.mem x).size) ∧
      (h'.mem p).size = payload h p + 24 + payload h c + payload h n + 1 ∧
      (∀ x, x ∈ fl' ↔ (x ∈ fl ∧ x ≠ n)) := by
  have hU := U32_eq
  have r1 : Rep h ((pre ++ [p]) ++ c :: n :: post) fl := by simpa using r
  have r2 : Rep h ((pre ++ [p, c]) ++ n :: post) fl := by simpa using r
  have hpm : p ∈ pre ++ p :: c :: n :: post := List.mem_append_right _ (List.mem_cons_self _ _)
  have hcm : c ∈ pre ++ p :: c :: n :: post :=
    List.mem_append_right _ (List.mem_cons_of_mem _ (List.mem_cons_self _ _))
  have hnm : n ∈ pre ++ p :: c :: n :: post :=
    List.mem_append_right _ (List.mem_cons_of_mem _ (List.mem_cons_of_mem _
      (List.mem_cons_self _ _)))
  obtain ⟨hptr, hcur, hprev, hnext⟩ := free_entry r1
  rw [List.getLastD_concat] at hprev
  simp only [List.headD_cons] at hnext
  have hcfl : c ∉ fl := fun hm => hc (r.fsound c hm).2
  have hpfl : p ∈ fl := r.fcomplete p hpm hp
  have hnfl : n ∈ fl := r.fcomplete n hnm hn
  have hnd := r.nodup
  have hpn : p ≠ n := by
    intro e
    have h1 := (List.nodup_append.1 hnd).2.1
    have h2 := (List.nodup_cons.1 h1).1
    apply h2
    rw [e]
    exact List.mem_cons_of_mem _ (List.mem_cons_self _ _)
  have hbp : block_end h p = c := by simpa using r.block_end_eq
  have hbc : block_end h c = n := by simpa using r1.block_end_eq
  have hbn := r.lt_u32 n hnm
  unfold block_end OVERHEAD at hbp hbc
  have hep := r.payload_even p hpm
  have hec := r.payload_even c hcm
  have hen := r.payload_even n hnm
  have hv0 : (blkmngr_get_real_size (h.mem p).size + 2 * OVERHEAD +
      blkmngr_get_real_size (h.mem c).size + blkmngr_get_real_size (h.mem n).size) % U32 =
      payload h p + 24 + payload h c + payload h n := by
    show (payload h p + 2 * 12 + payload h c + payload h n) % U32 = _
    rw [Nat.mod_eq_of_lt (by omega)]
  have hsf : set_free_word (payload h p + 24 + payload h c + payload h n) 1 =
      payload h p + 24 + payload h c + payload h n + 1 := by
    rw [set_free_one _ (by omega)]; omega
  have hnn : blkmngr_get_next_block (blkmngr_set_free (h.set_size p
      (payload h p + 24 + payload h c + payload h n)) p 1) n = .ok (h.mem n).next :=
    r.get_next_of n hnm rfl rfl (by simp)
  obtain ⟨g5, fl5, hg5, hfc5, hnd5, hm5, hs5, hn5, a1, a2, a3, a4, a5⟩ :=
    remove_spec (((blkmngr_set_free (h.set_size p
      (payload h p + 24 + payload h c + payload h n)) p 1).set_next p (h.mem n).next).set_tail
      (if h.tail = n then p else h.tail)) n fl r.freelist_ptr (by simpa using r.fchain)
      r.fnodup r.fnonzero (by
        have := r.length_le
        have := r.flength_le
        omega) hnfl
  have hsc : (g5.mem p).size = payload h p + 24 + payload h c + payload h n + 1 := by
    rw [hs5]; simp [hsf]
  have hso : ∀ x, x ≠ p → (g5.mem x).size = (h.mem x).size := by
    intro x hx; rw [hs5]; simp [hx]
  refine ⟨g5, fl5, ?_, ?_, ?_, ?_, ?_, hso, hsc, hm5⟩
  · unfold __do_free c_assert
    simp only [hptr, r.head_ptr, r.tail_ptr, r.freelist_ptr, ne_eq, not_false_eq_true, and_self,
      ↓reduceIte, ok_bind, hcur, hprev, hnext, hp, hn, Bool.and_self, Bool.and_true,
      hv0, hnn, ite_set_tail, set_next_tail, set_free_tail, set_size_tail, hg5]
  · have r' : Rep h (pre ++ p :: ([c, n] ++ post)) fl := by simpa using r
    refine rep_merge r' (by simp) ?_ ?_ ?_ ?_ ?_ hso hsc (by omega) ?_ ?_ ?_ hfc5 hnd5 ?_
    · rw [a1]; rfl
    · rw [a2]; rfl
    · rw [a3]; rfl
    · rw [a4]; rfl
    · rw [a5]; simp [List.getLastD]
    · simp only [List.getLastD_cons, List.getLastD_nil]
      unfold block_end OVERHEAD
      omega
    · intro x hx; rw [hn5]; simp [hx]
    · rw [hn5]; simp [List.getLastD]
    · intro x
      rw [hm5]
      constructor
      · rintro ⟨hx, hxn⟩
        by_cases hxp : x = p
        · exact Or.inl hxp
        · refine Or.inr ⟨hx, ?_⟩
          intro hm
          rcases List.mem_cons.1 hm with e | hm
          · exact hcfl (e ▸ hx)
          · exact hxn (List.mem_singleton.1 hm)
      · rintro (hx | ⟨hx, hm⟩)
        · rw [hx]; exact ⟨hpfl, hpn⟩
        · exact ⟨hx, fun e => hm (by simp [e])⟩
  · rw [a3]; rfl
  · rw [a1]; rfl
  · rw [a2]; rfl

/-! ## `__do_malloc` on a well-formed heap -/

theorem Rep.freelist_zero {h : Heap} {bs fl : List Nat} (r : Rep h bs fl)
    (h0 : h.freelist = 0) : fl = [] := by
  cases fl with
  | nil => rfl
  | cons x l =>
    have h1 := r.fchain.1
    have h2 := r.fnonzero x (List.mem_cons_self _ _)
    omega

/-- The best-fit search either finds no fitting block or returns a free block that fits. -/
theorem Rep.find_best {h : Heap} {bs fl : List Nat} (r : Rep h bs fl) (R : Nat)
    (hR : R % 2 = 0) (hRlt : R < U32) :
    ∃ b, blkmngr_find_best_fitting h R = .ok b ∧
      ((b = 0 ∧ ∀ x ∈ fl, payload h x < R) ∨ (b ≠ 0 ∧ b ∈ fl ∧ R ≤ payload h b)) := by
  have hrs : blkmngr_get_real_size R = R := by rw [real_size_eq R hRlt]; omega
  have hfit : ∀ x ∈ fl, ((h.mem x).size ≥ blkmngr_get_real_size R ∧
      blkmngr_is_free h.mem x = true) ↔ R ≤ payload h x := by
    intro x hx
    obtain ⟨hb, hf⟩ := r.fsound x hx
    have h1 := r.payload_free x hb hf
    have h2 := r.payload_even x hb
    rw [hrs]
    constructor
    · rintro ⟨h3, -⟩; omega
    · intro h3; exact ⟨by omega, hf⟩
  unfold blkmngr_find_best_fitting c_assert
  simp only [r.freelist_ptr, ne_eq, not_false_eq_true, ↓reduceIte, ok_bind]
  by_cases h0 : h.freelist = 0
  · have := r.freelist_zero h0
    subst this
    exact ⟨0, by simp [h0, pure, Except.pure], Or.inl ⟨rfl, by simp⟩⟩
  · obtain ⟨b, hb, h1, h2⟩ := find_loop_spec h.mem R fl h.freelist U32 0 r.fchain r.fnonzero (by
      have := r.length_le
      have := r.flength_le
      omega)
    refine ⟨b, by simp [h0, hb], ?_⟩
    by_cases hb0 : b = 0
    · left
      refine ⟨hb0, fun x hx => ?_⟩
      have := (h2 hb0).2 x hx
      rw [hfit x hx] at this
      omega
    · right
      rcases h1 with h1 | ⟨h1, h1'⟩
      · exact absurd h1 hb0
      · exact ⟨hb0, h1, (hfit b h1).1 h1'⟩

theorem two_pow_31 : (2 : Nat) ^ 31 = 2147483648 := by norm_num

theorem to_int32_pos (x : Nat) (hx : x < U32) :
    to_int32 x > 0 ↔ (0 < x ∧ x < 2147483648) := by
  unfold to_int32
  rw [Nat.mod_eq_of_lt hx, two_pow_31]
  have hU := U32_eq
  have hU' : (U32 : Int) = 4294967296 := by rw [hU]; rfl
  by_cases h1 : x < 2147483648
  · rw [if_pos h1]
    constructor
    · intro h2; exact ⟨by omega, h1⟩
    · intro h2; omega
  · rw [if_neg h1]
    constructor
    · intro h2; exfalso; omega
    · intro h2; exact absurd h2.2 h1

theorem to_int32_toNat (x : Nat) (hx : x < 2147483648) : (to_int32 x).toNat = x := by
  unfold to_int32
  have hU := U32_eq
  rw [Nat.mod_eq_of_lt (by omega), two_pow_31]
  simp [hx]

theorem ksbrk_eq (h : Heap) (x : Nat) (hx : x < U32) :
    ksbrk h (to_int32 x) =
      if 0 < x ∧ x < 2147483648 ∧ (h.top + x) % U32 ≤ h.vm_end then
        (h.top, h.set_top ((h.top + x) % U32))
      else (0, h) := by
  unfold ksbrk __do_brk
  by_cases h1 : 0 < x ∧ x < 2147483648
  · have h2 := (to_int32_pos x hx).2 h1
    simp only [h2, ↓reduceIte, to_int32_toNat x h1.2, h1, true_and]
  · have h2 : ¬ to_int32 x > 0 := fun h2 => h1 ((to_int32_pos x hx).1 h2)
    simp only [h2, ↓reduceIte]
    have h3 : ¬ (0 < x ∧ x < 2147483648 ∧ (h.top + x) % U32 ≤ h.vm_end) :=
      fun h3 => h1 ⟨h3.1, h3.2.1⟩
    simp only [h3, ↓reduceIte]
theorem OVERHEAD_eq : OVERHEAD = 12 := rfl

theorem malloc_entry {h : Heap} {bs fl : List Nat} (r : Rep h bs fl) (size : Nat) :
    CEIL16 size % 16 = 0 ∧ CEIL16 size + 16 ≤ U32 ∧
      (CEIL16 size + 12) % U32 = CEIL16 size + 12 ∧
      (CEIL16 size + 12 + U32 - 12) % U32 = CEIL16 size ∧
      ∃ b, blkmngr_find_best_fitting h (CEIL16 size) = .ok b ∧
        ((b = 0 ∧ ∀ x ∈ fl, payload h x < CEIL16 size) ∨
          (b ≠ 0 ∧ b ∈ fl ∧ CEIL16 size ≤ payload h b)) := by
  have hU := U32_eq
  have h16 := ceil16_mod size
  have hRlt := ceil16_lt size
  refine ⟨h16, hRlt, ?_, ?_, r.find_best (CEIL16 size) (by omega) (by omega)⟩
  · exact Nat.mod_eq_of_lt (by omega)
  · have : CEIL16 size + 12 + U32 - 12 = CEIL16 size + U32 := by omega
    rw [this, Nat.add_mod_right, Nat.mod_eq_of_lt (by omega)]

/-- The miss path when the region manager refuses: the `assert` fails. -/
theorem malloc_miss_fail {h : Heap} {bs fl : List Nat} (r : Rep h bs fl) (size : Nat)
    (hs : size ≠ 0) (hnofit : ∀ x ∈ fl, payload h x < CEIL16 size)
    (hbrk : ¬ (CEIL16 size + 12 < 2147483648 ∧
      (h.top + (CEIL16 size + 12)) % U32 ≤ h.vm_end)) :
    __do_malloc h size = .error Fault.assertion := by
  have hU := U32_eq
  obtain ⟨h16, hRlt, hbs, hsz, b, hb, hb'⟩ := malloc_entry r size
  have hb0 : b = 0 := by
    rcases hb' with ⟨h1, -⟩ | ⟨-, h1, h2⟩
    · exact h1
    · have := hnofit b h1; omega
  subst hb0
  have hk := ksbrk_eq h (CEIL16 size + 12) (by omega)
  rw [if_neg (fun hc => hbrk ⟨hc.2.1, hc.2.2⟩)] at hk
  unfold __do_malloc c_assert
  simp only [hs, ↓reduceIte, hb, ok_bind, OVERHEAD_eq, hbs, hk, ne_eq, not_true_eq_false,
    error_bind]

/-- The heap left by the miss path when the heap was empty. -/
theorem malloc_miss_empty {h : Heap} {bs fl : List Nat} (r : Rep h bs fl) (size : Nat)
    (hs : size ≠ 0) (hnofit : ∀ x ∈ fl, payload h x < CEIL16 size)
    (hpos : CEIL16 size + 12 < 2147483648)
    (hfits : (h.top + (CEIL16 size + 12)) % U32 ≤ h.vm_end) (hh : h.head = 0) :
    __do_malloc h size = .ok ((h.top + 12) % U32,
      blkmngr_set_free ((((((h.set_top ((h.top + (CEIL16 size + 12)) % U32)).set_head
        h.top).set_next h.top 0).set_nextfree h.top 0).set_tail h.top).set_size h.top
        (CEIL16 size)) h.top 0) := by
  have hU := U32_eq
  obtain ⟨h16, hRlt, hbs, hsz, b, hb, hb'⟩ := malloc_entry r size
  have hb0 : b = 0 := by
    rcases hb' with ⟨h1, -⟩ | ⟨-, h1, h2⟩
    · exact h1
    · have := hnofit b h1; omega
  subst hb0
  have hk := ksbrk_eq h (CEIL16 size + 12) (by omega)
  rw [if_pos ⟨by omega, hpos, hfits⟩] at hk
  have htop0 : h.top ≠ 0 := by have := r.start_le; omega
  unfold __do_malloc c_assert
  simp only [hs, ↓reduceIte, hb, ok_bind, OVERHEAD_eq, hbs, hk, ne_eq, not_true_eq_false,
    htop0, not_false_eq_true, hsz, hh, pure, Except.pure]

/-- The heap left by the miss path when the heap had a tail block. -/
theorem malloc_miss_tail {h : Heap} {bs fl : List Nat} (r : Rep h bs fl) (size : Nat)
    (hs : size ≠ 0) (hnofit : ∀ x ∈ fl, payload h x < CEIL16 size)
    (hpos : CEIL16 size + 12 < 2147483648)
    (hfits : (h.top + (CEIL16 size + 12)) % U32 ≤ h.vm_end) (hh : h.head ≠ 0) :
    __do_malloc h size = .ok ((h.top + 12) % U32,
      blkmngr_set_free ((((((h.set_top ((h.top + (CEIL16 size + 12)) % U32)).set_next
        h.tail h.top).set_next h.top 0).set_nextfree h.top 0).set_tail h.top).set_size h.top
        (CEIL16 size)) h.top 0) := by
  have hU := U32_eq
  obtain ⟨h16, hRlt, hbs, hsz, b, hb, hb'⟩ := malloc_entry r size
  have hb0 : b = 0 := by
    rcases hb' with ⟨h1, -⟩ | ⟨-, h1, h2⟩
    · exact h1
    · have := hnofit b h1; omega
  subst hb0
  have hk := ksbrk_eq h (CEIL16 size + 12) (by omega)
  rw [if_pos ⟨by omega, hpos, hfits⟩] at hk
  have htop0 : h.top ≠ 0 := by have := r.start_le; omega
  have hne : bs ≠ [] := by
    intro e; subst e
    have : h.head = 0 := by simpa using r.chain
    exact hh this
  have ht : h.tail ≠ 0 := r.nonzero _ (r.tail_mem hne)
  unfold __do_malloc c_assert
  simp only [hs, ↓reduceIte, hb, ok_bind, OVERHEAD_eq, hbs, hk, ne_eq, not_true_eq_false,
    htop0, not_false_eq_true, hsz, hh, ht, pure, Except.pure]

/-- The miss path when the region manager extends the heap. -/
theorem malloc_miss {h : Heap} {bs fl : List Nat} (r : Rep h bs fl) (size : Nat)
    (hs : size ≠ 0) (hnofit : ∀ x ∈ fl, payload h x < CEIL16 size)
    (hpos : CEIL16 size + 12 < 2147483648)
    (hfits : (h.top + (CEIL16 size + 12)) % U32 ≤ h.vm_end) :
    ∃ h', __do_malloc h size = .ok ((h.top + 12) % U32, h') ∧
      h'.vm_start = h.vm_start ∧ h'.vm_end = h.vm_end ∧
      h'.top = (h.top + (CEIL16 size + 12)) % U32 ∧
      h'.head = (if h.head = 0 then h.top else h.head) ∧ h'.tail = h.top ∧
      h'.freelist = h.freelist ∧
      (∀ x, x ≠ h.top → (h'.mem x).size = (h.mem x).size) ∧
      (h'.mem h.top).size = CEIL16 size ∧
      (∀ x, x ≠ h.top → x ≠ h.tail → (h'.mem x).next = (h.mem x).next) ∧
      (h'.mem h.top).next = 0 ∧
      (h.head ≠ 0 → (h'.mem h.tail).next = h.top) ∧
      (∀ x, x ≠ h.top → (h'.mem x).nextfree = (h.mem x).nextfree) := by
  have hU := U32_eq
  have hRlt := ceil16_lt size
  have h16 := ceil16_mod size
  have hsw : set_free_word (CEIL16 size) 0 = CEIL16 size := by
    rw [set_free_zero _ (by omega)]; omega
  by_cases hh : h.head = 0
  · refine ⟨_, malloc_miss_empty r size hs hnofit hpos hfits hh, ?_, ?_, ?_, ?_, ?_, ?_, ?_,
      ?_, ?_, ?_, ?_, ?_⟩
    · simp
    · simp
    · simp
    · simp [hh]
    · simp
    · simp
    · intro x hx; simp [hx]
    · simp [hsw]
    · intro x hx _; simp [hx]
    · simp
    · intro h1; exact absurd hh h1
    · intro x hx; simp [hx]
  · have hne : bs ≠ [] := by
      intro e; subst e
      have : h.head = 0 := by simpa using r.chain
      exact hh this
    have htt : h.tail ≠ h.top := by
      have h1 := (r.mem_bounds _ (r.tail_mem hne)).2
      have h2 := block_end_ge h h.tail
      omega
    refine ⟨_, malloc_miss_tail r size hs hnofit hpos hfits hh, ?_, ?_, ?_, ?_, ?_, ?_, ?_,
      ?_, ?_, ?_, ?_, ?_⟩
    · simp
    · simp
    · simp
    · simp [hh]
    · simp
    · simp
    · intro x hx; simp [hx]
    · simp [hsw]
    · intro x hx hx'; simp [hx, hx']
    · simp
    · intro _; simp [htt]
    · intro x hx; simp [hx]

/-! ## The hit path of `__do_malloc` -/

/-- What the hit path computes before it decides whether to split. -/
theorem hit_entry {h : Heap} {pre post fl : List Nat} {b : Nat}
    (r : Rep h (pre ++ b :: post) fl) (size : Nat)
    (hfind : blkmngr_find_best_fitting h (CEIL16 size) = .ok b) (hb0 : b ≠ 0) :
    b ∈ fl ∧ CEIL16 size ≤ payload h b ∧ blkmngr_is_free h.mem b = true ∧
      blkmngr_get_next_block h b = .ok (post.headD 0) ∧
      (blkmngr_get_real_size (h.mem b).size + 12) % U32 = payload h b + 12 ∧
      (payload h b + 12 + U32 - (CEIL16 size + 12)) % U32 = payload h b - CEIL16 size ∧
      (payload h b + 12 + U32 - 12) % U32 = payload h b ∧
      (b + 12) % U32 = b + 12 ∧
      set_free_word (payload h b) 0 = payload h b := by
  have hU := U32_eq
  have hbm : b ∈ pre ++ b :: post := List.mem_append_right _ (List.mem_cons_self _ _)
  obtain ⟨h16, hRlt, hbs, hsz, b', hb', hcase⟩ := malloc_entry r size
  rw [hfind] at hb'
  have hbb : b = b' := by injection hb'
  subst hbb
  have hfl : b ∈ fl ∧ CEIL16 size ≤ payload h b := by
    rcases hcase with ⟨h1, -⟩ | ⟨-, h1, h2⟩
    · exact absurd h1 hb0
    · exact ⟨h1, h2⟩
  have hlt := r.lt_u32 b hbm
  have hev := r.payload_even b hbm
  have hnext := r.get_next b hbm
  rw [r.next_eq] at hnext
  refine ⟨hfl.1, hfl.2, (r.fsound b hfl.1).2, hnext, ?_, ?_, ?_, ?_, ?_⟩
  · show (payload h b + 12) % U32 = _
    exact Nat.mod_eq_of_lt (by omega)
  · have : payload h b + 12 + U32 - (CEIL16 size + 12) = payload h b - CEIL16 size + U32 := by
      omega
    rw [this, Nat.add_mod_right, Nat.mod_eq_of_lt (by omega)]
  · have : payload h b + 12 + U32 - 12 = payload h b + U32 := by omega
    rw [this, Nat.add_mod_right, Nat.mod_eq_of_lt (by omega)]
  · exact Nat.mod_eq_of_lt (by omega)
  · rw [set_free_zero _ (by omega)]; omega

/-- The hit path when the remainder is too small to split. -/
theorem malloc_nosplit_exec {h : Heap} {pre post fl : List Nat} {b : Nat}
    (r : Rep h (pre ++ b :: post) fl) (size : Nat) (hs : size ≠ 0)
    (hfind : blkmngr_find_best_fitting h (CEIL16 size) = .ok b) (hb0 : b ≠ 0)
    (hsmall : payload h b - CEIL16 size < 8 + 12) :
    __do_malloc h size =
      (blkmngr_remove_from_freelist (blkmngr_set_free (h.set_size b (payload h b)) b 0) b >>=
        fun h' => .ok (b + 12, h')) := by
  obtain ⟨-, -, -, hnext, hchunk, hrem, hstore, hptr, -⟩ := hit_entry r size hfind hb0
  obtain ⟨-, -, hbs, -, -⟩ := malloc_entry r size
  unfold __do_malloc
  simp only [hs, ↓reduceIte, hfind, ok_bind, OVERHEAD_eq, hbs, hb0, ne_eq, not_false_eq_true,
    hnext, hchunk, hrem, hsmall, hstore, hptr, pure, Except.pure]

/-- The hit path without split: the best-fit block is handed out whole. -/
theorem malloc_nosplit {h : Heap} {pre post fl : List Nat} {b : Nat}
    (r : Rep h (pre ++ b :: post) fl) (size : Nat) (hs : size ≠ 0)
    (hfind : blkmngr_find_best_fitting h (CEIL16 size) = .ok b) (hb0 : b ≠ 0)
    (hsmall : payload h b - CEIL16 size < 8 + 12) :
    ∃ h' fl', __do_malloc h size = .ok (b + 12, h') ∧ Rep h' (pre ++ b :: post) fl' ∧
      h'.top = h.top ∧ h'.vm_start = h.vm_start ∧ h'.vm_end = h.vm_end ∧
      (∀ x, x ≠ b → (h'.mem x).size = (h.mem x).size) ∧
      (h'.mem b).size = payload h b ∧
      (∀ x, x ∈ fl' ↔ (x ∈ fl ∧ x ≠ b)) := by
  have hU := U32_eq
  have hbm : b ∈ pre ++ b :: post := List.mem_append_right _ (List.mem_cons_self _ _)
  obtain ⟨hbfl, hle, hfree, -, -, -, -, -, hsw⟩ := hit_entry r size hfind hb0
  have hlt := r.lt_u32 b hbm
  have hev := r.payload_even b hbm
  obtain ⟨g, fl', hg, hfc, hnd, hm, hsz, hnx, a1, a2, a3, a4, a5⟩ :=
    remove_spec (blkmngr_set_free (h.set_size b (payload h b)) b 0) b fl r.freelist_ptr
      (by simpa using r.fchain) r.fnodup r.fnonzero (by
        have := r.length_le
        have := r.flength_le
        omega) hbfl
  have hsb : (g.mem b).size = payload h b := by rw [hsz]; simp [hsw]
  have hso : ∀ x, x ≠ b → (g.mem x).size = (h.mem x).size := by
    intro x hx; rw [hsz]; simp [hx]
  refine ⟨g, fl', ?_, ?_, by rw [a3]; rfl, by rw [a1]; rfl, by rw [a2]; rfl, hso, hsb, hm⟩
  · rw [malloc_nosplit_exec r size hs hfind hb0 hsmall, hg]; rfl
  · refine rep_flip r (by rw [a1]; rfl) (by rw [a2]; rfl) (by rw [a3]; rfl) (by rw [a4]; rfl)
      (by rw [a5]; rfl) hso hsb (by omega) (by omega) ?_ hfc hnd ?_
    · intro x; rw [hnx]; simp
    · intro x
      rw [hm]
      constructor
      · rintro ⟨h1, h2⟩; exact Or.inr ⟨h2, h1⟩
      · rintro (⟨-, -, h1⟩ | ⟨h1, h2⟩)
        · omega
        · exact ⟨h2, h1⟩

/-- The hit path with split, when the successor of the best-fit block is not free. -/
theorem malloc_split_exec {h : Heap} {pre post fl : List Nat} {b : Nat}
    (r : Rep h (pre ++ b :: post) fl) (size : Nat) (hs : size ≠ 0)
    (hfind : blkmngr_find_best_fitting h (CEIL16 size) = .ok b) (hb0 : b ≠ 0)
    (hbig : ¬ payload h b - CEIL16 size < 8 + 12)
    (hn : ¬ blkmngr_is_free h.mem (post.headD 0) = true) :
    __do_malloc h size =
      (blkmngr_add_to_freelist
        (((blkmngr_set_free ((blkmngr_set_free (h.set_size b (CEIL16 size)) b 0).set_size
          (b + (CEIL16 size + 12)) (payload h b - CEIL16 size - 12))
          (b + (CEIL16 size + 12)) 1).set_next (b + (CEIL16 size + 12)) (post.headD 0)).set_tail
          (if b = h.tail then b + (CEIL16 size + 12) else h.tail))
        (b + (CEIL16 size + 12)) >>= fun h7 =>
      blkmngr_remove_from_freelist (h7.set_next b (b + (CEIL16 size + 12))) b >>=
        fun h' => .ok (b + 12, h')) := by
  have hU := U32_eq
  have hbm : b ∈ pre ++ b :: post := List.mem_append_right _ (List.mem_cons_self _ _)
  obtain ⟨-, hle, -, hnext, hchunk, hrem, -, hptr, -⟩ := hit_entry r size hfind hb0
  obtain ⟨-, hRlt, hbs, hsz, -⟩ := malloc_entry r size
  have hlt := r.lt_u32 b hbm
  have hS : (b + (CEIL16 size + 12)) % U32 = b + (CEIL16 size + 12) :=
    Nat.mod_eq_of_lt (by omega)
  have hres : (payload h b - CEIL16 size + U32 - 12) % U32 =
      payload h b - CEIL16 size - 12 := by
    have : payload h b - CEIL16 size + U32 - 12 = payload h b - CEIL16 size - 12 + U32 := by
      omega
    rw [this, Nat.add_mod_right, Nat.mod_eq_of_lt (by omega)]
  have hnf : blkmngr_is_free (blkmngr_set_free (h.set_size b (CEIL16 size)) b 0).mem
      (post.headD 0) = false := by
    rw [Bool.eq_false_iff]
    intro hf
    apply hn
    by_cases hx : post.headD 0 = b
    · exfalso
      cases post with
      | nil => simp at hx; exact hb0 hx.symm
      | cons y l =>
        simp only [List.headD_cons] at hx
        have := (List.nodup_append.1 r.nodup).2.1
        exact (List.nodup_cons.1 this).1 (hx ▸ List.mem_cons_self _ _)
    · have hc := is_free_congr h (blkmngr_set_free (h.set_size b (CEIL16 size)) b 0)
        (post.headD 0) (by rw [set_free_mem_size, if_neg hx, set_size_mem_size, if_neg hx])
      rw [← hc]
      exact hf
  unfold __do_malloc
  simp only [hs, ↓reduceIte, hfind, ok_bind, OVERHEAD_eq, hbs, hb0, ne_eq, not_false_eq_true,
    hnext, hchunk, hrem, hbig, hsz, hptr, hS, hres, hnf, Bool.false_eq_true, pure, Except.pure,
    ite_set_tail, set_next_tail, set_free_tail, set_size_tail, bind_assoc]

theorem Rep.inner_not_mem {h : Heap} {pre post fl : List Nat} {b : Nat}
    (r : Rep h (pre ++ b :: post) fl) (s : Nat) (h1 : b < s) (h2 : s < block_end h b) :
    s ∉ pre ++ b :: post := by
  have hsorted := lnk_sorted _ (block_end_ge h) _ _ _ r.layout
  rw [List.pairwise_append] at hsorted
  intro hm
  rcases List.mem_append.1 hm with hm | hm
  · have h3 := hsorted.2.2 s hm b (List.mem_cons_self _ _)
    have h4 := block_end_ge h s
    omega
  · rcases List.mem_cons.1 hm with hm | hm
    · omega
    · have h3 := (List.pairwise_cons.1 hsorted.2.1).1 s hm
      omega

set_option maxHeartbeats 1000000 in
/-- The hit path with split: the best-fit block keeps the rounded size and the
rest becomes a new free block. -/
theorem malloc_split {h : Heap} {pre post fl : List Nat} {b : Nat}
    (r : Rep h (pre ++ b :: post) fl) (size : Nat) (hs : size ≠ 0)
    (hfind : blkmngr_find_best_fitting h (CEIL16 size) = .ok b) (hb0 : b ≠ 0)
    (hbig : ¬ payload h b - CEIL16 size < 8 + 12)
    (hn : ¬ blkmngr_is_free h.mem (post.headD 0) = true) :
    ∃ h' fl', __do_malloc h size = .ok (b + 12, h') ∧
      Rep h' (pre ++ b :: (b + (CEIL16 size + 12)) :: post) fl' ∧
      h'.top = h.top ∧ h'.vm_start = h.vm_start ∧ h'.vm_end = h.vm_end ∧
      (∀ x, x ≠ b → x ≠ b + (CEIL16 size + 12) → (h'.mem x).size = (h.mem x).size) ∧
      (h'.mem b).size = CEIL16 size ∧
      (h'.mem (b + (CEIL16 size + 12))).size = payload h b - CEIL16 size - 12 + 1 ∧
      (∀ x, x ∈ fl' ↔ x = b + (CEIL16 size + 12) ∨ (x ∈ fl ∧ x ≠ b)) := by
  have hU := U32_eq
  have hbm : b ∈ pre ++ b :: post := List.mem_append_right _ (List.mem_cons_self _ _)
  obtain ⟨hbfl, hle, hfree, -, -, -, -, -, -⟩ := hit_entry r size hfind hb0
  obtain ⟨h16, hRlt, -, -, -⟩ := malloc_entry r size
  have hlt := r.lt_u32 b hbm
  have hev := r.payload_even b hbm
  have hexec := malloc_split_exec r size hs hfind hb0 hbig hn
  have hbe : block_end h b = b + 12 + payload h b := rfl
  have hSbs : b + (CEIL16 size + 12) ∉ pre ++ b :: post :=
    r.inner_not_mem _ (by omega) (by omega)
  have hSfl : b + (CEIL16 size + 12) ∉ fl := fun hm => hSbs (r.fsound _ hm).1
  have hSb : b + (CEIL16 size + 12) ≠ b := by omega
  have hbS : b ≠ b + (CEIL16 size + 12) := by omega
  have hsw0 : set_free_word (CEIL16 size) 0 = CEIL16 size := by
    rw [set_free_zero _ (by omega)]; omega
  have hsw1 : set_free_word (payload h b - CEIL16 size - 12) 1 =
      payload h b - CEIL16 size - 12 + 1 := by
    rw [set_free_one _ (by omega)]; omega
  obtain ⟨g6, hg6⟩ : ∃ g6, g6 = (((blkmngr_set_free ((blkmngr_set_free (h.set_size b
      (CEIL16 size)) b 0).set_size (b + (CEIL16 size + 12)) (payload h b - CEIL16 size - 12))
      (b + (CEIL16 size + 12)) 1).set_next (b + (CEIL16 size + 12)) (post.headD 0)).set_tail
      (if b = h.tail then b + (CEIL16 size + 12) else h.tail)) := ⟨_, rfl⟩
  rw [← hg6] at hexec
  have c1 : g6.vm_start = h.vm_start := by rw [hg6]; simp
  have c2 : g6.vm_end = h.vm_end := by rw [hg6]; simp
  have c3 : g6.top = h.top := by rw [hg6]; simp
  have c4 : g6.head = h.head := by rw [hg6]; simp
  have c5 : g6.tail = if b = h.tail then b + (CEIL16 size + 12) else h.tail := by
    rw [hg6]; simp
  have c6 : g6.freelist = h.freelist := by rw [hg6]; simp
  have c7 : ∀ x, (g6.mem x).nextfree = (h.mem x).nextfree := by intro x; rw [hg6]; simp
  have c8 : (g6.mem b).size = CEIL16 size := by rw [hg6]; simp [hbS, hsw0]
  have c9 : (g6.mem (b + (CEIL16 size + 12))).size = payload h b - CEIL16 size - 12 + 1 := by
    rw [hg6]; simp [hsw1]
  have c10 : ∀ x, x ≠ b → x ≠ b + (CEIL16 size + 12) → (g6.mem x).size = (h.mem x).size := by
    intro x hx hx'; rw [hg6]; simp [hx, hx']
  have c11 : ∀ x, x ≠ b + (CEIL16 size + 12) → (g6.mem x).next = (h.mem x).next := by
    intro x hx; rw [hg6]; simp [hx]
  have c12 : (g6.mem (b + (CEIL16 size + 12))).next = post.headD 0 := by rw [hg6]; simp
  have hfc6 : Lnk (fun x => (g6.mem x).nextfree) g6.freelist fl 0 := by
    rw [c6]
    exact (lnk_congr _ _ fl _ 0 (fun x _ => (c7 x).symm)).1 r.fchain
  obtain ⟨g7, hg7, hfc7, hs7, hn7, e1, e2, e3, e4, e5⟩ :=
    add_spec g6 (b + (CEIL16 size + 12)) fl (by omega) (r.freelist_ptr_of c1) hfc6 hSfl
  obtain ⟨g9, fl9, hg9, hfc9, hnd9, hm9, hs9, hn9, a1, a2, a3, a4, a5⟩ :=
    remove_spec (g7.set_next b (b + (CEIL16 size + 12))) b ((b + (CEIL16 size + 12)) :: fl)
      (r.freelist_ptr_of (by rw [set_next_vm_start, e1, c1])) (by simpa using hfc7)
      (List.nodup_cons.2 ⟨hSfl, r.fnodup⟩)
      (by
        intro x hx
        rcases List.mem_cons.1 hx with hx | hx
        · omega
        · exact r.fnonzero x hx)
      (by
        have := r.length_le
        have := r.flength_le
        simp only [List.length_cons]
        omega) (List.mem_cons_of_mem _ hbfl)
  have hsb : (g9.mem b).size = CEIL16 size := by
    rw [hs9, set_next_mem_size, hs7, c8]
  have hsS : (g9.mem (b + (CEIL16 size + 12))).size = payload h b - CEIL16 size - 12 + 1 := by
    rw [hs9, set_next_mem_size, hs7, c9]
  have hso : ∀ x, x ≠ b → x ≠ b + (CEIL16 size + 12) → (g9.mem x).size = (h.mem x).size := by
    intro x hx hx'; rw [hs9, set_next_mem_size, hs7, c10 x hx hx']
  have hno : ∀ x, x ≠ b → x ≠ b + (CEIL16 size + 12) → (g9.mem x).next = (h.mem x).next := by
    intro x hx hx'; rw [hn9, set_next_mem_next, if_neg hx, hn7, c11 x hx']
  have hnb : (g9.mem b).next = b + (CEIL16 size + 12) := by
    rw [hn9, set_next_mem_next, if_pos rfl]
  have hnS : (g9.mem (b + (CEIL16 size + 12))).next = (h.mem b).next := by
    rw [hn9, set_next_mem_next, if_neg hSb, hn7, c12, r.next_eq]
  have htl : g9.tail = if h.tail = b then b + (CEIL16 size + 12) else h.tail := by
    rw [a5, set_next_tail, e5, c5]
    by_cases hbt : b = h.tail
    · rw [if_pos hbt, if_pos hbt.symm]
    · rw [if_neg hbt, if_neg (fun e => hbt e.symm)]
  have hfm : ∀ x, x ∈ fl9 ↔ x = b + (CEIL16 size + 12) ∨ (x ∈ fl ∧ x ≠ b) := by
    intro x
    rw [hm9, List.mem_cons]
    constructor
    · rintro ⟨h1 | h1, h2⟩
      · exact Or.inl h1
      · exact Or.inr ⟨h1, h2⟩
    · rintro (h1 | ⟨h1, h2⟩)
      · exact ⟨Or.inl h1, by rw [h1]; exact hSb⟩
      · exact ⟨Or.inr h1, h2⟩
  have hvs' : g9.vm_start = h.vm_start := by rw [a1, set_next_vm_start, e1, c1]
  have hve' : g9.vm_end = h.vm_end := by rw [a2, set_next_vm_end, e2, c2]
  have htop' : g9.top = h.top := by rw [a3, set_next_top, e3, c3]
  have hhead' : g9.head = h.head := by rw [a4, set_next_head, e4, c4]
  refine ⟨g9, fl9, ?_, ?_, htop', hvs', hve', hso, hsb, hsS, hfm⟩
  · rw [hexec, hg7, ok_bind, hg9, ok_bind]
  · exact rep_split r hvs' hve' htop' hhead' htl hso hsb (by omega) (by omega) hsS (by omega)
      (by omega) hno hnb hnS hfc9 hnd9 hfm

/-! ## Invariant B3 on lists -/

theorem naf_cons_cons (mem : Nat → block_t) (a b : Nat) (l : List Nat) :
    no_adjacent_free mem (a :: b :: l) ↔
      ¬ (blkmngr_is_free mem a = true ∧ blkmngr_is_free mem b = true) ∧
        no_adjacent_free mem (b :: l) := Iff.rfl

theorem naf_tail (mem : Nat → block_t) (a : Nat) (l : List Nat)
    (h : no_adjacent_free mem (a :: l)) : no_adjacent_free mem l := by
  cases l with
  | nil => trivial
  | cons b l => exact h.2

/-- Characterisation of `no_adjacent_free` on a list cut in two. -/
theorem naf_append (mem : Nat → block_t) (l1 l2 : List Nat) :
    no_adjacent_free mem (l1 ++ l2) ↔
      no_adjacent_free mem l1 ∧ no_adjacent_free mem l2 ∧
        ¬ (blkmngr_is_free mem (l1.getLastD 0) = true ∧
          blkmngr_is_free mem (l2.headD 0) = true) := by
  induction l1 with
  | nil =>
    simp only [List.nil_append, List.getLastD_nil, is_free_zero, Bool.false_eq_true, false_and,
      not_false_eq_true, and_true]
    exact ⟨fun h => ⟨trivial, h⟩, fun h => h.2⟩
  | cons a l ih =>
    cases l with
    | nil =>
      cases l2 with
      | nil =>
        simp only [List.append_nil, List.headD_nil, is_free_zero, Bool.false_eq_true, and_false,
          not_false_eq_true, and_true]
        exact ⟨fun h => ⟨h, trivial⟩, fun h => h.1⟩
      | cons b l2 =>
        simp only [List.singleton_append, naf_cons_cons, List.getLastD_cons, List.getLastD_nil,
          List.headD_cons]
        exact ⟨fun h => ⟨trivial, h.2, h.1⟩, fun h => ⟨h.2.2, h.2.1⟩⟩
    | cons c l =>
      have e : (a :: c :: l).getLastD 0 = (c :: l).getLastD 0 :=
        getLastD_cons_ne (c :: l) a 0 (by simp)
      rw [e]
      simp only [List.cons_append, naf_cons_cons] at ih ⊢
      rw [ih]
      tauto

theorem naf_congr (mem mem' : Nat → block_t) (l : List Nat)
    (hl : ∀ x ∈ l, blkmngr_is_free mem' x = blkmngr_is_free mem x) :
    no_adjacent_free mem' l ↔ no_adjacent_free mem l := by
  induction l with
  | nil => exact Iff.rfl
  | cons a l ih =>
    cases l with
    | nil => exact Iff.rfl
    | cons b l =>
      rw [naf_cons_cons, naf_cons_cons, hl a (by simp), hl b (by simp),
        ih (fun x hx => hl x (List.mem_cons_of_mem _ hx))]

/-- The middle of a list is replaced; the flags of the rest are kept. -/
theorem naf_replace (mem mem' : Nat → block_t) (pre mid mid' post : List Nat)
    (hold : no_adjacent_free mem (pre ++ (mid ++ post)))
    (hpre : ∀ x ∈ pre, blkmngr_is_free mem' x = blkmngr_is_free mem x)
    (hpost : ∀ x ∈ post, blkmngr_is_free mem' x = blkmngr_is_free mem x)
    (hmid : no_adjacent_free mem' mid') (hne : mid' ≠ [])
    (hb1 : ¬ (blkmngr_is_free mem' (pre.getLastD 0) = true ∧
      blkmngr_is_free mem' (mid'.headD 0) = true))
    (hb2 : ¬ (blkmngr_is_free mem' (mid'.getLastD 0) = true ∧
      blkmngr_is_free mem' (post.headD 0) = true)) :
    no_adjacent_free mem' (pre ++ (mid' ++ post)) := by
  rw [naf_append] at hold
  obtain ⟨h1, h2, -⟩ := hold
  rw [naf_append] at h2
  obtain ⟨-, h3, -⟩ := h2
  rw [naf_append, naf_append]
  refine ⟨(naf_congr mem mem' pre hpre).2 h1, ⟨hmid, (naf_congr mem mem' post hpost).2 h3, hb2⟩,
    ?_⟩
  cases mid' with
  | nil => exact absurd rfl hne
  | cons a l => simpa using hb1

theorem naf_mid (mem : Nat → block_t) (pre post : List Nat) (x : Nat)
    (h : no_adjacent_free mem (pre ++ x :: post)) :
    ¬ (blkmngr_is_free mem (pre.getLastD 0) = true ∧ blkmngr_is_free mem x = true) ∧
      ¬ (blkmngr_is_free mem x = true ∧ blkmngr_is_free mem (post.headD 0) = true) := by
  rw [naf_append] at h
  obtain ⟨-, h2, h3⟩ := h
  refine ⟨by simpa using h3, ?_⟩
  cases post with
  | nil => simp [is_free_zero]
  | cons y l => exact h2.1

/-! ## `__do_free` preserves the invariants -/

theorem payload_congr (h h' : Heap) (x : Nat) (hs : (h'.mem x).size = (h.mem x).size) :
    payload h' x = payload h x := by
  unfold payload; rw [hs]

/-- What every case of `__do_free` gives once the representation is rebuilt. -/
theorem merge_post {h h' : Heap} {pre mid post fl fl' : List Nat} {a c V : Nat}
    (r : Rep h (pre ++ a :: (mid ++ post)) fl) (r' : Rep h' (pre ++ a :: post) fl')
    (b3 : no_adjacent_free h.mem (pre ++ a :: (mid ++ post)))
    (hso : ∀ x, x ≠ a → (h'.mem x).size = (h.mem x).size)
    (hsa : (h'.mem a).size = V + 1) (hV : V % 2 = 0)
    (hc : c ∈ a :: mid) (hothers : ∀ x ∈ a :: mid, x ≠ c → blkmngr_is_free h.mem x = true)
    (hb1 : ¬ blkmngr_is_free h.mem (pre.getLastD 0) = true)
    (hb2 : ¬ blkmngr_is_free h.mem (post.headD 0) = true)
    (hQ : ∀ Q : Nat → Prop, (∀ p q, Q p → Q q → Q (p + 12 + q)) →
      (∀ x ∈ pre ++ a :: (mid ++ post), Q (payload h x)) → Q V) :
    no_adjacent_free h'.mem (pre ++ a :: post) ∧
      (∀ x, (x ∈ pre ++ a :: post ∧ ¬ blkmngr_is_free h'.mem x = true) ↔
        (x ∈ pre ++ a :: (mid ++ post) ∧ ¬ blkmngr_is_free h.mem x = true ∧ x ≠ c)) ∧
      (∀ Q : Nat → Prop, (∀ p q, Q p → Q q → Q (p + 12 + q)) →
        (∀ x ∈ pre ++ a :: (mid ++ post), Q (payload h x)) →
        ∀ x ∈ pre ++ a :: post, Q (payload h' x)) := by
  have hnd := r.nodup
  have hnd1 := List.nodup_append.1 hnd
  have hnd2 := List.nodup_cons.1 hnd1.2.1
  have hnd3 := List.nodup_append.1 hnd2.2
  have ham : a ∈ pre ++ a :: (mid ++ post) := List.mem_append_right _ (List.mem_cons_self _ _)
  have ha0 : a ≠ 0 := r.nonzero a ham
  have ha_pre : ∀ y ∈ pre, y ≠ a := fun y hy hya =>
    hnd1.2.2 hy (hya ▸ List.mem_cons_self _ _)
  have ha_post : ∀ y ∈ post, y ≠ a := fun y hy hya =>
    hnd2.1 (hya ▸ List.mem_append_right _ hy)
  have hmid_pre : ∀ y ∈ pre, y ∉ a :: mid := fun y hy hym => by
    rcases List.mem_cons.1 hym with e | hym
    · exact ha_pre y hy e
    · exact hnd1.2.2 hy (List.mem_cons_of_mem _ (List.mem_append_left _ hym))
  have hmid_post : ∀ y ∈ post, y ∉ a :: mid := fun y hy hym => by
    rcases List.mem_cons.1 hym with e | hym
    · exact ha_post y hy e
    · exact hnd3.2.2 hym hy
  have hfa : blkmngr_is_free h'.mem a = true := by
    rw [is_free_iff, hsa]; exact ⟨ha0, by omega⟩
  have hfree_pre : ∀ x ∈ pre, blkmngr_is_free h'.mem x = blkmngr_is_free h.mem x :=
    fun x hx => is_free_congr h h' x (hso x (ha_pre x hx))
  have hfree_post : ∀ x ∈ post, blkmngr_is_free h'.mem x = blkmngr_is_free h.mem x :=
    fun x hx => is_free_congr h h' x (hso x (ha_post x hx))
  have hlast : blkmngr_is_free h'.mem (pre.getLastD 0) =
      blkmngr_is_free h.mem (pre.getLastD 0) := by
    by_cases hp : pre = []
    · subst hp; simp [is_free_zero]
    · exact hfree_pre _ (getLastD_mem pre 0 hp)
  have hfirst : blkmngr_is_free h'.mem (post.headD 0) =
      blkmngr_is_free h.mem (post.headD 0) := by
    cases post with
    | nil => simp [is_free_zero]
    | cons y l => exact hfree_post y (List.mem_cons_self _ _)
  refine ⟨?_, ?_, ?_⟩
  · have hold : no_adjacent_free h.mem (pre ++ ((a :: mid) ++ post)) := by simpa using b3
    have := naf_replace h.mem h'.mem pre (a :: mid) [a] post hold hfree_pre hfree_post trivial
      (by simp) (by rw [hlast]; exact fun hh => hb1 hh.1)
      (by rw [hfirst]; exact fun hh => hb2 hh.2)
    simpa using this
  · intro x
    constructor
    · rintro ⟨hx, hxf⟩
      have hxa : x ≠ a := fun e => hxf (e ▸ hfa)
      rcases List.mem_append.1 hx with hx | hx
      · refine ⟨List.mem_append_left _ hx, by rw [← hfree_pre x hx]; exact hxf, ?_⟩
        intro e
        exact hmid_pre x hx (e ▸ hc)
      · rcases List.mem_cons.1 hx with hx | hx
        · exact absurd hx hxa
        · refine ⟨List.mem_append_right _ (List.mem_cons_of_mem _ (List.mem_append_right _ hx)),
            by rw [← hfree_post x hx]; exact hxf, ?_⟩
          intro e
          exact hmid_post x hx (e ▸ hc)
    · rintro ⟨hx, hxf, hxc⟩
      have hxm : x ∉ a :: mid := fun hm => hxf (hothers x hm hxc)
      rcases List.mem_append.1 hx with hx | hx
      · exact ⟨List.mem_append_left _ hx, by rw [hfree_pre x hx]; exact hxf⟩
      · rcases List.mem_cons.1 hx with hx | hx
        · exact absurd (hx ▸ List.mem_cons_self _ _) hxm
        · rcases List.mem_append.1 hx with hx | hx
          · exact absurd (List.mem_cons_of_mem _ hx) hxm
          · exact ⟨List.mem_append_right _ (List.mem_cons_of_mem _ hx),
              by rw [hfree_post x hx]; exact hxf⟩
  · intro Q hclos hall x hx
    by_cases hxa : x = a
    · subst hxa
      have hp : payload h' x = V := by
        rw [r'.payload_eq x hx, hsa]; omega
      rw [hp]
      exact hQ Q hclos hall
    · rw [payload_congr h h' x (hso x hxa)]
      apply hall
      rcases List.mem_append.1 hx with hx | hx
      · exact List.mem_append_left _ hx
      · rcases List.mem_cons.1 hx with hx | hx
        · exact absurd hx hxa
        · exact List.mem_append_right _ (List.mem_cons_of_mem _ (List.mem_append_right _ hx))

/-- Release of an allocated block of a well-formed heap: the call returns, and
the heap it leaves is well formed, satisfies B3, holds the same region, has the
allocated blocks of before but the released one, and has payload sizes that are
old payload sizes or sums `p + 12 + q` of them. -/
theorem free_rep {h : Heap} {bs fl : List Nat} {c : Nat} (r : Rep h bs fl)
    (b3 : no_adjacent_free h.mem bs) (hc : c ∈ bs) (hcf : ¬ blkmngr_is_free h.mem c = true) :
    ∃ h' bs' fl', __do_free h (c + 12) = .ok h' ∧ Rep h' bs' fl' ∧
      no_adjacent_free h'.mem bs' ∧
      h'.top = h.top ∧ h'.vm_start = h.vm_start ∧ h'.vm_end = h.vm_end ∧ bs' ≠ [] ∧
      (∀ x, (x ∈ bs' ∧ ¬ blkmngr_is_free h'.mem x = true) ↔
        (x ∈ bs ∧ ¬ blkmngr_is_free h.mem x = true ∧ x ≠ c)) ∧
      (∀ Q : Nat → Prop, (∀ p q, Q p → Q q → Q (p + 12 + q)) →
        (∀ x ∈ bs, Q (payload h x)) → ∀ x ∈ bs', Q (payload h' x)) := by
  obtain ⟨pre, post, rfl⟩ := List.append_of_mem hc
  have hmid := naf_mid h.mem pre post c b3
  by_cases hp : blkmngr_is_free h.mem (pre.getLastD 0) = true
  · have hpne : pre ≠ [] := by
      intro e; subst e
      simp [is_free_zero] at hp
    obtain ⟨pre', p, rfl⟩ : ∃ l' x, pre = l' ++ [x] :=
      ⟨pre.dropLast, pre.getLast hpne, (List.dropLast_append_getLast hpne).symm⟩
    rw [List.getLastD_concat] at hp
    have r1 : Rep h (pre' ++ p :: c :: post) fl := by simpa using r
    have b31 : no_adjacent_free h.mem (pre' ++ p :: c :: post) := by simpa using b3
    have hpp := (naf_mid h.mem pre' (c :: post) p b31).1
    have hb1 : ¬ blkmngr_is_free h.mem (pre'.getLastD 0) = true := fun hh => hpp ⟨hh, hp⟩
    have hbs : pre' ++ [p] ++ c :: post = pre' ++ p :: c :: post := by simp
    rw [hbs]
    have hpm : p ∈ pre' ++ p :: c :: post := List.mem_append_right _ (List.mem_cons_self _ _)
    have hcm : c ∈ pre' ++ p :: c :: post :=
      List.mem_append_right _ (List.mem_cons_of_mem _ (List.mem_cons_self _ _))
    have hpc : p ≠ c := fun e => hcf (e ▸ hp)
    by_cases hn : blkmngr_is_free h.mem (post.headD 0) = true
    · cases post with
      | nil => simp [is_free_zero] at hn
      | cons n post' =>
        simp only [List.headD_cons] at hn
        have hnc : n ≠ c := fun e => hcf (e ▸ hn)
        have b32 : no_adjacent_free h.mem ((pre' ++ [p, c]) ++ n :: post') := by simpa using b3
        have hnn := (naf_mid h.mem (pre' ++ [p, c]) post' n b32).2
        have hb2 : ¬ blkmngr_is_free h.mem (post'.headD 0) = true := fun hh => hnn ⟨hn, hh⟩
        obtain ⟨h', fl', hex, r', htop, hvs, hve, hso, hsa, -⟩ := free_both r1 hcf hp hn
        have r2 : Rep h (pre' ++ p :: ([c, n] ++ post')) fl := by simpa using r1
        have b33 : no_adjacent_free h.mem (pre' ++ p :: ([c, n] ++ post')) := by simpa using b3
        have hV : (payload h p + 24 + payload h c + payload h n) % 2 = 0 := by
          have := r1.payload_even p hpm
          have := r1.payload_even c hcm
          have := r1.payload_even n (by simp)
          omega
        obtain ⟨m1, m2, m3⟩ := merge_post r2 r' b33 hso hsa hV
          (show c ∈ p :: [c, n] by simp)
          (by
            intro x hx hxc
            simp only [List.mem_cons, List.mem_singleton, List.not_mem_nil, or_false] at hx
            rcases hx with e | e | e
            · rw [e]; exact hp
            · exact absurd e hxc
            · rw [e]; exact hn) hb1 hb2
          (by
            intro Q hclos hall
            have q1 := hall p (by simp)
            have q2 := hall c (by simp)
            have q3 := hall n (by simp)
            have := hclos _ _ (hclos _ _ q1 q2) q3
            have e : payload h p + 12 + payload h c + 12 + payload h n =
              payload h p + 24 + payload h c + payload h n := by omega
            rw [e] at this
            exact this)
        refine ⟨h', _, fl', hex, r', m1, htop, hvs, hve, by simp, ?_, ?_⟩
        · intro x; rw [m2 x]; simp
        · intro Q hclos hall
          exact m3 Q hclos (by simpa using hall)
    · obtain ⟨h', hex, r', htop, hvs, hve, hso, hsa⟩ := free_prev r1 hcf hp hn
      have r2 : Rep h (pre' ++ p :: ([c] ++ post)) fl := by simpa using r1
      have b33 : no_adjacent_free h.mem (pre' ++ p :: ([c] ++ post)) := by simpa using b3
      have hV : (payload h p + 12 + payload h c) % 2 = 0 := by
        have := r1.payload_even p hpm
        have := r1.payload_even c hcm
        omega
      obtain ⟨m1, m2, m3⟩ := merge_post r2 r' b33 hso hsa hV
        (show c ∈ p :: [c] by simp)
        (by
          intro x hx hxc
          simp only [List.mem_cons, List.mem_singleton, List.not_mem_nil, or_false] at hx
          rcases hx with e | e
          · rw [e]; exact hp
          · exact absurd e hxc) hb1 hn
        (by
          intro Q hclos hall
          exact hclos _ _ (hall p (by simp)) (hall c (by simp)))
      refine ⟨h', _, fl, hex, r', m1, htop, hvs, hve, by simp, ?_, ?_⟩
      · intro x; rw [m2 x]; simp
      · intro Q hclos hall
        exact m3 Q hclos (by simpa using hall)
  · have hcm : c ∈ pre ++ c :: post := List.mem_append_right _ (List.mem_cons_self _ _)
    by_cases hn : blkmngr_is_free h.mem (post.headD 0) = true
    · cases post with
      | nil => simp [is_free_zero] at hn
      | cons n post' =>
        simp only [List.headD_cons] at hn
        have b32 : no_adjacent_free h.mem ((pre ++ [c]) ++ n :: post') := by simpa using b3
        have hnn := (naf_mid h.mem (pre ++ [c]) post' n b32).2
        have hb2 : ¬ blkmngr_is_free h.mem (post'.headD 0) = true := fun hh => hnn ⟨hn, hh⟩
        obtain ⟨h', fl', hex, r', htop, hvs, hve, hso, hsa, -⟩ := free_next r hcf hp hn
        have r2 : Rep h (pre ++ c :: ([n] ++ post')) fl := by simpa using r
        have b33 : no_adjacent_free h.mem (pre ++ c :: ([n] ++ post')) := by simpa using b3
        have hV : (payload h c + 12 + payload h n) % 2 = 0 := by
          have := r.payload_even c hcm
          have := r.payload_even n (by simp)
          omega
        obtain ⟨m1, m2, m3⟩ := merge_post r2 r' b33 hso hsa hV
          (show c ∈ c :: [n] by simp)
          (by
            intro x hx hxc
            simp only [List.mem_cons, List.mem_singleton, List.not_mem_nil, or_false] at hx
            rcases hx with e | e
            · exact absurd e hxc
            · rw [e]; exact hn) hp hb2
          (by
            intro Q hclos hall
            exact hclos _ _ (hall c (by simp)) (hall n (by simp)))
        refine ⟨h', _, fl', hex, r', m1, htop, hvs, hve, by simp, ?_, ?_⟩
        · intro x; rw [m2 x]; simp
        · intro Q hclos hall
          exact m3 Q hclos (by simpa using hall)
    · obtain ⟨h', hex, r', htop, hvs, hve, hso, hsa⟩ := free_neither r hcf hp hn
      have r2 : Rep h (pre ++ c :: ([] ++ post)) fl := by simpa using r
      have b33 : no_adjacent_free h.mem (pre ++ c :: ([] ++ post)) := by simpa using b3
      obtain ⟨m1, m2, m3⟩ := merge_post r2 r' b33 hso hsa (r.payload_even c hcm)
        (show c ∈ c :: [] by simp)
        (by
          intro x hx hxc
          simp only [List.mem_singleton] at hx
          exact absurd hx hxc) hp hn
        (by
          intro Q _ hall
          exact hall c (by simp))
      refine ⟨h', _, c :: fl, hex, r', m1, htop, hvs, hve, by simp, ?_, ?_⟩
      · intro x; rw [m2 x]; simp
      · intro Q hclos hall
        exact m3 Q hclos (by simpa using hall)

/-! ## `__do_malloc` preserves the invariants -/

/-- The three ways `__do_malloc` can go on a well-formed heap that satisfies B3. -/
theorem malloc_cases {h : Heap} {bs fl : List Nat} (r : Rep h bs fl)
    (b3 : no_adjacent_free h.mem bs) (size : Nat) (hs : size ≠ 0) :
    ((∀ x ∈ fl, payload h x < CEIL16 size) ∧
      ¬ (CEIL16 size + 12 < 2147483648 ∧ (h.top + (CEIL16 size + 12)) % U32 ≤ h.vm_end) ∧
      __do_malloc h size = .error Fault.assertion) ∨
    ((∀ x ∈ fl, payload h x < CEIL16 size) ∧
      (CEIL16 size + 12 < 2147483648 ∧ (h.top + (CEIL16 size + 12)) % U32 ≤ h.vm_end) ∧
      ∃ h', __do_malloc h size = .ok ((h.top + 12) % U32, h') ∧
        h'.vm_start = h.vm_start ∧ h'.vm_end = h.vm_end ∧
        h'.top = (h.top + (CEIL16 size + 12)) % U32 ∧
        h'.head = (if h.head = 0 then h.top else h.head) ∧ h'.tail = h.top ∧
        h'.freelist = h.freelist ∧
        (∀ x, x ≠ h.top → (h'.mem x).size = (h.mem x).size) ∧
        (h'.mem h.top).size = CEIL16 size ∧
        (∀ x, x ≠ h.top → x ≠ h.tail → (h'.mem x).next = (h.mem x).next) ∧
        (h'.mem h.top).next = 0 ∧
        (h.head ≠ 0 → (h'.mem h.tail).next = h.top) ∧
        (∀ x, x ≠ h.top → (h'.mem x).nextfree = (h.mem x).nextfree)) ∨
    (∃ b pre post, bs = pre ++ b :: post ∧
      blkmngr_find_best_fitting h (CEIL16 size) = .ok b ∧ b ≠ 0 ∧ b ∈ fl ∧
      CEIL16 size ≤ payload h b ∧ blkmngr_is_free h.mem b = true ∧
      ((payload h b - CEIL16 size < 8 + 12 ∧
        ∃ h' fl', __do_malloc h size = .ok (b + 12, h') ∧ Rep h' (pre ++ b :: post) fl' ∧
          h'.top = h.top ∧ h'.vm_start = h.vm_start ∧ h'.vm_end = h.vm_end ∧
          (∀ x, x ≠ b → (h'.mem x).size = (h.mem x).size) ∧
          (h'.mem b).size = payload h b ∧
          (∀ x, x ∈ fl' ↔ (x ∈ fl ∧ x ≠ b))) ∨
      (¬ payload h b - CEIL16 size < 8 + 12 ∧
        ∃ h' fl', __do_malloc h size = .ok (b + 12, h') ∧
          Rep h' (pre ++ b :: (b + (CEIL16 size + 12)) :: post) fl' ∧
          h'.top = h.top ∧ h'.vm_start = h.vm_start ∧ h'.vm_end = h.vm_end ∧
          (∀ x, x ≠ b → x ≠ b + (CEIL16 size + 12) → (h'.mem x).size = (h.mem x).size) ∧
          (h'.mem b).size = CEIL16 size ∧
          (h'.mem (b + (CEIL16 size + 12))).size = payload h b - CEIL16 size - 12 + 1 ∧
          (∀ x, x ∈ fl' ↔ x = b + (CEIL16 size + 12) ∨ (x ∈ fl ∧ x ≠ b))))) := by
  obtain ⟨-, -, -, -, b, hfind, hcase⟩ := malloc_entry r size
  rcases hcase with ⟨hb0, hnofit⟩ | ⟨hb0, hbfl, hle⟩
  · by_cases hbrk : CEIL16 size + 12 < 2147483648 ∧
        (h.top + (CEIL16 size + 12)) % U32 ≤ h.vm_end
    · exact Or.inr (Or.inl ⟨hnofit, hbrk, malloc_miss r size hs hnofit hbrk.1 hbrk.2⟩)
    · exact Or.inl ⟨hnofit, hbrk, malloc_miss_fail r size hs hnofit hbrk⟩
  · right; right
    obtain ⟨hbm, hfree⟩ := r.fsound b hbfl
    obtain ⟨pre, post, rfl⟩ := List.append_of_mem hbm
    have hn : ¬ blkmngr_is_free h.mem (post.headD 0) = true :=
      fun hh => (naf_mid h.mem pre post b b3).2 ⟨hfree, hh⟩
    refine ⟨b, pre, post, rfl, hfind, hb0, hbfl, hle, hfree, ?_⟩
    by_cases hsmall : payload h b - CEIL16 size < 8 + 12
    · exact Or.inl ⟨hsmall, malloc_nosplit r size hs hfind hb0 hsmall⟩
    · exact Or.inr ⟨hsmall, malloc_split r size hs hfind hb0 hsmall hn⟩

theorem not_free_of_even (mem : Nat → block_t) (x : Nat) (hx : (mem x).size % 2 = 0) :
    ¬ blkmngr_is_free mem x = true := by
  rw [is_free_iff]; omega

theorem free_of_odd (mem : Nat → block_t) (x : Nat) (hx0 : x ≠ 0) (hx : (mem x).size % 2 = 1) :
    blkmngr_is_free mem x = true := by
  rw [is_free_iff]; exact ⟨hx0, hx⟩

theorem ok_inj {p q : Nat} {h1 h2 : Heap}
    (e : (Except.ok (p, h1) : Except Fault (Nat × Heap)) = Except.ok (q, h2)) :
    p = q ∧ h1 = h2 := by
  injection e with e
  injection e with e1 e2
  exact ⟨e1, e2⟩

set_option maxHeartbeats 1000000 in
/-- A successful `__do_malloc` whose new boundary, when the heap is extended,
does not leave the 32-bit range:
the heap it leaves is well formed, satisfies B3, holds the same region with a
top that did not decrease; the pointer is 12 bytes above a block that was not
allocated before and is now, of payload at least the rounded size; the other
allocated blocks are those of before. -/
theorem malloc_rep {h : Heap} {bs fl : List Nat} (r : Rep h bs fl)
    (b3 : no_adjacent_free h.mem bs) (size : Nat) (hs : size ≠ 0) (p : Nat) (h' : Heap)
    (hm : __do_malloc h size = .ok (p, h'))
    (hsafe : (∀ x ∈ fl, payload h x < CEIL16 size) → h.top + CEIL16 size + 12 < U32) :
    ∃ bs' fl' b, Rep h' bs' fl' ∧ no_adjacent_free h'.mem bs' ∧
      h'.vm_start = h.vm_start ∧ h'.vm_end = h.vm_end ∧ h.top ≤ h'.top ∧
      p = b + 12 ∧ b ∈ bs' ∧ ¬ blkmngr_is_free h'.mem b = true ∧
      CEIL16 size ≤ payload h' b ∧ ¬ (b ∈ bs ∧ ¬ blkmngr_is_free h.mem b = true) ∧
      (∀ x, (x ∈ bs' ∧ ¬ blkmngr_is_free h'.mem x = true) ↔
        ((x ∈ bs ∧ ¬ blkmngr_is_free h.mem x = true) ∨ x = b)) ∧
      (∀ Q : Nat → Prop, Q (CEIL16 size) →
        (∀ q, Q q → CEIL16 size + 20 ≤ q → Q (q - CEIL16 size - 12)) →
        (∀ x ∈ bs, Q (payload h x)) → ∀ x ∈ bs', Q (payload h' x)) := by
  have hU := U32_eq
  have h16 := ceil16_mod size
  rcases malloc_cases r b3 size hs with ⟨-, -, hex⟩ | ⟨hnofit, hbrk, g, hex, c1, c2, c3, c4,
      c5, c6, c7, c8, c9, c10, c11, c12⟩ |
      ⟨b, pre, post, rfl, hfind, hb0, hbfl, hle, hfree, hcase⟩
  · rw [hex] at hm; exact absurd hm (by simp)
  · have hsafe := hsafe hnofit
    rw [hex] at hm
    obtain ⟨rfl, rfl⟩ := ok_inj hm
    have hmod : (h.top + (CEIL16 size + 12)) % U32 = h.top + 12 + CEIL16 size := by
      rw [Nat.mod_eq_of_lt (by omega)]; omega
    rw [hmod] at c3 hbrk
    have r' : Rep g (bs ++ [h.top]) fl :=
      rep_append r c1 c2 rfl c3 hbrk.2 c4 c5 c7 c8 (by omega) c9 c10 c11 c12 c6
    have hbs_t : ∀ x ∈ bs, x ≠ h.top := by
      intro x hx hxt
      have h1 := (r.mem_bounds x hx).2
      have h2 := block_end_ge h x
      omega
    have hnf : ¬ blkmngr_is_free g.mem h.top = true :=
      not_free_of_even _ _ (by rw [c8]; omega)
    have hflag : ∀ x ∈ bs, blkmngr_is_free g.mem x = blkmngr_is_free h.mem x :=
      fun x hx => is_free_congr h g x (c7 x (hbs_t x hx))
    have htm : h.top ∈ bs ++ [h.top] := by simp
    refine ⟨bs ++ [h.top], fl, h.top, r', ?_, c1, c2, by omega,
      Nat.mod_eq_of_lt (by omega), htm, hnf, ?_, ?_, ?_, ?_⟩
    · have hold : no_adjacent_free h.mem (bs ++ ([] ++ [])) := by simpa using b3
      have := naf_replace h.mem g.mem bs [] [h.top] [] hold hflag (by simp) trivial (by simp)
        (by simp only [List.headD_cons]; exact fun hh => hnf hh.2)
        (by simp [is_free_zero])
      simpa using this
    · rw [r'.payload_eq _ htm, c8]; omega
    · exact fun hh => hbs_t _ hh.1 rfl
    · intro x
      constructor
      · rintro ⟨hx, hxf⟩
        rcases List.mem_append.1 hx with hx | hx
        · exact Or.inl ⟨hx, by rw [← hflag x hx]; exact hxf⟩
        · exact Or.inr (List.mem_singleton.1 hx)
      · rintro (⟨hx, hxf⟩ | hx)
        · exact ⟨List.mem_append_left _ hx, by rw [hflag x hx]; exact hxf⟩
        · rw [hx]; exact ⟨htm, hnf⟩
    · intro Q hQR _ hall x hx
      rcases List.mem_append.1 hx with hx | hx
      · rw [payload_congr h g x (c7 x (hbs_t x hx))]; exact hall x hx
      · rw [List.mem_singleton.1 hx]
        have : payload g h.top = CEIL16 size := by
          rw [r'.payload_eq _ htm, c8]; omega
        rw [this]; exact hQR
  · have hbm : b ∈ pre ++ b :: post := List.mem_append_right _ (List.mem_cons_self _ _)
    have hev := r.payload_even b hbm
    have hnd := r.nodup
    have hnd1 := List.nodup_append.1 hnd
    have hnd2 := List.nodup_cons.1 hnd1.2.1
    have hb_pre : ∀ y ∈ pre, y ≠ b := fun y hy hyb =>
      hnd1.2.2 hy (hyb ▸ List.mem_cons_self _ _)
    have hb_post : ∀ y ∈ post, y ≠ b := fun y hy hyb => hnd2.1 (hyb ▸ hy)
    have hn : ¬ blkmngr_is_free h.mem (post.headD 0) = true :=
      fun hh => (naf_mid h.mem pre post b b3).2 ⟨hfree, hh⟩
    rcases hcase with ⟨-, g, fl', hex, r', d1, d2, d3, d4, d5, d6⟩ |
        ⟨hbig, g, fl', hex, r', d1, d2, d3, d4, d5, d6, d7⟩
    · rw [hex] at hm
      obtain ⟨rfl, rfl⟩ := ok_inj hm
      have hnf : ¬ blkmngr_is_free g.mem b = true :=
        not_free_of_even _ _ (by rw [d5]; exact hev)
      have hflag : ∀ x, x ≠ b → blkmngr_is_free g.mem x = blkmngr_is_free h.mem x :=
        fun x hx => is_free_congr h g x (d4 x hx)
      have hpb : payload g b = payload h b := by
        rw [r'.payload_eq _ hbm, d5]; omega
      refine ⟨pre ++ b :: post, fl', b, r', ?_, d2, d3, by omega, rfl, hbm, hnf, ?_, ?_, ?_, ?_⟩
      · have hold : no_adjacent_free h.mem (pre ++ ([b] ++ post)) := by simpa using b3
        have := naf_replace h.mem g.mem pre [b] [b] post hold
          (fun x hx => hflag x (hb_pre x hx)) (fun x hx => hflag x (hb_post x hx)) trivial
          (by simp) (by simp only [List.headD_cons]; exact fun hh => hnf hh.2)
          (by simp only [List.getLastD_cons, List.getLastD_nil]; exact fun hh => hnf hh.1)
        simpa using this
      · rw [hpb]; exact hle
      · exact fun hh => hh.2 hfree
      · intro x
        by_cases hxb : x = b
        · subst hxb
          exact ⟨fun _ => Or.inr rfl, fun _ => ⟨hbm, hnf⟩⟩
        · rw [hflag x hxb]
          exact ⟨fun hh => Or.inl hh, fun hh => hh.elim id (fun e => absurd e hxb)⟩
      · intro Q _ _ hall x hx
        by_cases hxb : x = b
        · rw [hxb, hpb]; exact hall b hbm
        · rw [payload_congr h g x (d4 x hxb)]; exact hall x hx
    · rw [hex] at hm
      obtain ⟨rfl, rfl⟩ := ok_inj hm
      have hlt := r.lt_u32 b hbm
      have hSbs : b + (CEIL16 size + 12) ∉ pre ++ b :: post :=
        r.inner_not_mem _ (by omega) (by unfold block_end OVERHEAD; omega)
      have hS_pre : ∀ y ∈ pre, y ≠ b + (CEIL16 size + 12) :=
        fun y hy e => hSbs (e ▸ List.mem_append_left _ hy)
      have hS_post : ∀ y ∈ post, y ≠ b + (CEIL16 size + 12) :=
        fun y hy e => hSbs (e ▸ List.mem_append_right _ (List.mem_cons_of_mem _ hy))
      have hbm' : b ∈ pre ++ b :: (b + (CEIL16 size + 12)) :: post := by simp
      have hSm' : b + (CEIL16 size + 12) ∈ pre ++ b :: (b + (CEIL16 size + 12)) :: post := by
        simp
      have hnf : ¬ blkmngr_is_free g.mem b = true :=
        not_free_of_even _ _ (by rw [d5]; omega)
      have hfS : blkmngr_is_free g.mem (b + (CEIL16 size + 12)) = true :=
        free_of_odd _ _ (by omega) (by rw [d6]; omega)
      have hflag : ∀ x, x ≠ b → x ≠ b + (CEIL16 size + 12) →
          blkmngr_is_free g.mem x = blkmngr_is_free h.mem x :=
        fun x hx hx' => is_free_congr h g x (d4 x hx hx')
      have hpb : payload g b = CEIL16 size := by
        rw [r'.payload_eq _ hbm', d5]; omega
      have hpS : payload g (b + (CEIL16 size + 12)) = payload h b - CEIL16 size - 12 := by
        rw [r'.payload_eq _ hSm', d6]; omega
      have hfirst : ¬ blkmngr_is_free g.mem (post.headD 0) = true := by
        cases post with
        | nil => simp [is_free_zero]
        | cons y l =>
          simp only [List.headD_cons] at hn ⊢
          rw [hflag y (hb_post y (List.mem_cons_self _ _)) (hS_post y (List.mem_cons_self _ _))]
          exact hn
      refine ⟨pre ++ b :: (b + (CEIL16 size + 12)) :: post, fl', b, r', ?_, d2, d3, by omega,
        rfl, hbm', hnf, ?_, ?_, ?_, ?_⟩
      · have hold : no_adjacent_free h.mem (pre ++ ([b] ++ post)) := by simpa using b3
        have := naf_replace h.mem g.mem pre [b] [b, b + (CEIL16 size + 12)] post hold
          (fun x hx => hflag x (hb_pre x hx) (hS_pre x hx))
          (fun x hx => hflag x (hb_post x hx) (hS_post x hx))
          ⟨fun hh => hnf hh.1, trivial⟩
          (by simp) (by simp only [List.headD_cons]; exact fun hh => hnf hh.2)
          (by
            simp only [List.getLastD_cons, List.getLastD_nil]
            exact fun hh => hfirst hh.2)
        simpa using this
      · rw [hpb]
      · exact fun hh => hh.2 hfree
      · intro x
        by_cases hxb : x = b
        · subst hxb
          exact ⟨fun _ => Or.inr rfl, fun _ => ⟨hbm', hnf⟩⟩
        · by_cases hxS : x = b + (CEIL16 size + 12)
          · subst hxS
            constructor
            · rintro ⟨-, hh⟩; exact absurd hfS hh
            · rintro (⟨hh, -⟩ | hh)
              · exact absurd hh hSbs
              · exact absurd hh hxb
          · rw [hflag x hxb hxS]
            simp only [List.mem_append, List.mem_cons, hxb, hxS, false_or, or_false]
      · intro Q hQR hQs hall x hx
        by_cases hxb : x = b
        · rw [hxb, hpb]; exact hQR
        · by_cases hxS : x = b + (CEIL16 size + 12)
          · rw [hxS, hpS]
            exact hQs _ (hall b hbm) (by omega)
          · rw [payload_congr h g x (d4 x hxb hxS)]
            apply hall
            simp only [List.mem_append, List.mem_cons, hxb, hxS, false_or] at hx
            simp only [List.mem_append, List.mem_cons, hxb, false_or]
            exact hx

/-! ## The initial heap and the reachable heaps -/

theorem kheap_init_fields (mem : Nat → block_t) (base order : Nat) (hb : 0 < base)
    (hr : base + 2 ^ order * PAGE_SIZE < U32) :
    (kheap_init mem base order).vm_start = base ∧
      (kheap_init mem base order).vm_end = base + 2 ^ order * PAGE_SIZE ∧
      (kheap_init mem base order).top = base + 12 := by
  have hU := U32_eq
  have hp : PAGE_SIZE = 4096 := rfl
  have h1 : 1 <<< order = 2 ^ order := by rw [Nat.shiftLeft_eq, one_mul]
  have h2 : 0 < 2 ^ order := pow_pos (by norm_num) _
  have h3 : 2 ^ order < U32 := by rw [hp] at hr; omega
  have h4 : 2 ^ order * PAGE_SIZE < U32 := by omega
  refine ⟨rfl, ?_, ?_⟩
  · show (base + ((1 <<< order) % U32 * PAGE_SIZE) % U32) % U32 = _
    rw [h1, Nat.mod_eq_of_lt h3, Nat.mod_eq_of_lt h4, Nat.mod_eq_of_lt hr]
  · show (base + 3 * 4) % U32 = _
    rw [hp] at hr
    exact Nat.mod_eq_of_lt (by omega)

/-- The heap left by `kheap_init` is well formed, with no block. -/
theorem kheap_init_rep (mem : Nat → block_t) (base order : Nat) (hb : 0 < base)
    (hr : base + 2 ^ order * PAGE_SIZE < U32) : Rep (kheap_init mem base order) [] [] := by
  obtain ⟨e1, e2, e3⟩ := kheap_init_fields mem base order hb hr
  have hp : PAGE_SIZE = 4096 := rfl
  have h2 : 0 < 2 ^ order := pow_pos (by norm_num) _
  refine ⟨by rw [e1]; exact hb, by rw [e2, e3, hp]; omega, by rw [e2]; exact hr, rfl, rfl, ?_,
    by simp, rfl, List.nodup_nil, by simp, by simp⟩
  rw [lnk_nil, e1, e3]

theorem B3_of_rep {h : Heap} {bs fl : List Nat} (r : Rep h bs fl)
    (b3 : no_adjacent_free h.mem bs) : B3 h := by
  unfold B3; rw [r.blocks_eq]; exact b3

theorem B3.naf {h : Heap} {bs fl : List Nat} (b3 : B3 h) (r : Rep h bs fl) :
    no_adjacent_free h.mem bs := by
  unfold B3 at b3; rw [r.blocks_eq] at b3; exact b3

theorem mem_allocated (h : Heap) (x : Nat) :
    x ∈ allocated h ↔ x ∈ blocks h ∧ ¬ blkmngr_is_free h.mem x = true := by
  unfold allocated
  simp [List.mem_filter]

theorem ceil16_ge (size : Nat) (hs : size ≠ 0) (hn : size + 15 < U32) : 16 ≤ CEIL16 size := by
  rw [ceil16_of_le size hn]; omega

/-- Every heap reached without 32-bit overflow is well formed, satisfies B3, keeps
the region of `kheap_init`, and has payload sizes that are multiples of 4, at least 8. -/
theorem reach_safe_inv (mem : Nat → block_t) (base order : Nat) (hb : 0 < base)
    (hr : base + 2 ^ order * PAGE_SIZE < U32) (h : Heap)
    (hreach : ReachSafe mem base order h) :
    WF h ∧ B3 h ∧ h.vm_start = base ∧ h.vm_end = base + 2 ^ order * PAGE_SIZE ∧
      base + 12 ≤ h.top ∧ ∀ x ∈ blocks h, payload h x % 4 = 0 ∧ 8 ≤ payload h x := by
  induction hreach with
  | init =>
    have r := kheap_init_rep mem base order hb hr
    obtain ⟨e1, e2, e3⟩ := kheap_init_fields mem base order hb hr
    refine ⟨r.wf, B3_of_rep r trivial, e1, e2, by omega, ?_⟩
    rw [r.blocks_eq]; simp
  | @malloc h h' size p _ hn hsafe hm ih =>
    obtain ⟨w, b3, i1, i2, i3, i4⟩ := ih
    by_cases hs : size = 0
    · subst hs
      have : __do_malloc h 0 = .ok (0, h) := rfl
      rw [this] at hm
      obtain ⟨-, rfl⟩ := ok_inj hm
      exact ⟨w, b3, i1, i2, i3, i4⟩
    · have r := w.rep
      have h16 := ceil16_mod size
      have hge := ceil16_ge size hs hn
      obtain ⟨bs', fl', b, r', n3', e1, e2, e3, -, -, -, -, -, -, hQ⟩ :=
        malloc_rep r (b3.naf r) size hs p h' hm (fun _ => hsafe)
      refine ⟨r'.wf, B3_of_rep r' n3', by rw [e1, i1], by rw [e2, i2], by omega, ?_⟩
      rw [r'.blocks_eq]
      exact hQ (fun q => q % 4 = 0 ∧ 8 ≤ q) ⟨by omega, by omega⟩
        (fun q hq hle => ⟨by omega, by omega⟩) i4
  | @free h h' b _ hb' hf ih =>
    obtain ⟨w, b3, i1, i2, i3, i4⟩ := ih
    have r := w.rep
    rw [mem_allocated] at hb'
    obtain ⟨g, bs', fl', hex, r', n3', e1, e2, e3, -, -, hQ⟩ :=
      free_rep r (b3.naf r) hb'.1 hb'.2
    have hf' : __do_free h (b + 12) = .ok h' := hf
    rw [hex] at hf'
    injection hf' with hf'
    subst hf'
    refine ⟨r'.wf, B3_of_rep r' n3', by rw [e2, i1], by rw [e3, i2], by omega, ?_⟩
    rw [r'.blocks_eq]
    exact hQ (fun q => q % 4 = 0 ∧ 8 ≤ q) (fun p q hp hq => ⟨by omega, by omega⟩) i4

/-! ## The worked examples, step by step -/

theorem low1_eq : __do_malloc low0 48 = .ok (4120, low1) := rfl
theorem low2_eq : __do_free low1 (4108 + OVERHEAD) = .ok low2 := rfl
theorem low3_eq : __do_malloc low2 16 = .ok (4120, low3) := rfl
theorem high1_eq : __do_malloc high0 2147418112 = .ok (3221225496, high1) := rfl
theorem high1_freed_eq : free_all high1 [3221225484] = .ok high1_freed := rfl
theorem high2_eq : __do_malloc high1 16 = .ok (1073676324, high2) := rfl
theorem wrap1_eq : __do_malloc high0 16 = .ok (3221225496, wrap1) := rfl
theorem wrap2_eq : __do_free wrap1 (3221225484 + OVERHEAD) = .ok wrap2 := rfl
theorem wrap3_eq : __do_malloc wrap2 1431655744 = .ok (3221225524, wrap3) := rfl
theorem wrap4_eq : __do_malloc wrap3 1431655744 = .ok (357913984, wrap4) := rfl
theorem wrap5_eq : __do_malloc wrap4 1431655744 = .ok (1789569740, wrap5) := rfl
theorem wrap6_eq : __do_malloc wrap5 32 = .ok (3221225496, wrap6) := rfl

theorem reach_safe_low3 : ReachSafe zero_mem 4096 0 low3 :=
  ReachSafe.malloc
    (ReachSafe.free (ReachSafe.malloc ReachSafe.init (by decide) (by decide) low1_eq)
      (by decide) low2_eq)
    (by decide) (by decide) low3_eq

theorem reach_low3 : Reach zero_mem 4096 0 low3 :=
  Reach.malloc
    (Reach.free (Reach.malloc Reach.init (by decide) low1_eq) (by decide) low2_eq)
    (by decide) low3_eq

theorem reach_high1 : Reach zero_mem 3221225472 0 high1 :=
  Reach.malloc Reach.init (by decide) high1_eq

theorem reach_high2 : Reach zero_mem 3221225472 0 high2 :=
  Reach.malloc reach_high1 (by decide) high2_eq

theorem reach_wrap6 : Reach zero_mem 3221225472 0 wrap6 :=
  Reach.malloc
    (Reach.malloc
      (Reach.malloc
        (Reach.malloc
          (Reach.free (Reach.malloc Reach.init (by decide) wrap1_eq) (by decide) wrap2_eq)
          (by decide) wrap3_eq)
        (by decide) wrap4_eq)
      (by decide) wrap5_eq)
    (by decide) wrap6_eq

/-! ## Round trip on the hit path -/

theorem flag_last {h h' : Heap} (pre : List Nat)
    (hs : ∀ x ∈ pre, (h'.mem x).size = (h.mem x).size) :
    blkmngr_is_free h'.mem (pre.getLastD 0) = blkmngr_is_free h.mem (pre.getLastD 0) := by
  by_cases hp : pre = []
  · subst hp; simp [is_free_zero]
  · exact is_free_congr h h' _ (hs _ (getLastD_mem pre 0 hp))

theorem flag_first {h h' : Heap} (post : List Nat)
    (hs : ∀ x ∈ post, (h'.mem x).size = (h.mem x).size) :
    blkmngr_is_free h'.mem (post.headD 0) = blkmngr_is_free h.mem (post.headD 0) := by
  cases post with
  | nil => simp [is_free_zero]
  | cons y l => exact is_free_congr h h' _ (hs y (List.mem_cons_self _ _))

set_option maxHeartbeats 1000000 in
/-- Allocation served by a free block, then release of the pointer: the block
list and all its size fields are as before. -/
theorem round_trip_rep {h : Heap} {bs fl : List Nat} (r : Rep h bs fl)
    (b3 : no_adjacent_free h.mem bs) (n : Nat) (hn : n ≠ 0)
    (hfit : ∃ a ∈ fl, CEIL16 n ≤ payload h a) :
    ∃ p h1 h2 fl2, __do_malloc h n = .ok (p, h1) ∧ __do_free h1 p = .ok h2 ∧
      Rep h2 bs fl2 ∧ h2.top = h.top ∧
      (∀ x ∈ bs, (h2.mem x).size = (h.mem x).size) ∧ (∀ x, x ∈ fl2 ↔ x ∈ fl) := by
  have hU := U32_eq
  have h16 := ceil16_mod n
  obtain ⟨a, hafl, hale⟩ := hfit
  rcases malloc_cases r b3 n hn with ⟨hnofit, -, -⟩ | ⟨hnofit, -, -⟩ |
      ⟨b, pre, post, rfl, hfind, hb0, hbfl, hle, hfree, hcase⟩
  · have := hnofit a hafl; omega
  · have := hnofit a hafl; omega
  · have hbm : b ∈ pre ++ b :: post := List.mem_append_right _ (List.mem_cons_self _ _)
    have hev := r.payload_even b hbm
    have hpf := r.payload_free b hbm hfree
    have hnd := r.nodup
    have hnd1 := List.nodup_append.1 hnd
    have hnd2 := List.nodup_cons.1 hnd1.2.1
    have hb_pre : ∀ y ∈ pre, y ≠ b := fun y hy hyb =>
      hnd1.2.2 hy (hyb ▸ List.mem_cons_self _ _)
    have hb_post : ∀ y ∈ post, y ≠ b := fun y hy hyb => hnd2.1 (hyb ▸ hy)
    obtain ⟨hmid1, hmid2⟩ := naf_mid h.mem pre post b b3
    have hp : ¬ blkmngr_is_free h.mem (pre.getLastD 0) = true := fun hh => hmid1 ⟨hh, hfree⟩
    have hnx : ¬ blkmngr_is_free h.mem (post.headD 0) = true := fun hh => hmid2 ⟨hfree, hh⟩
    rcases hcase with ⟨-, h1, fl1, hex, r1, d1, d2, d3, d4, d5, d6⟩ |
        ⟨hbig, h1, fl1, hex, r1, d1, d2, d3, d4, d5, d6, d7⟩
    · have hc1 : ¬ blkmngr_is_free h1.mem b = true :=
        not_free_of_even _ _ (by rw [d5]; exact hev)
      have hp1 : ¬ blkmngr_is_free h1.mem (pre.getLastD 0) = true := by
        rw [flag_last pre (fun x hx => d4 x (hb_pre x hx))]; exact hp
      have hn1 : ¬ blkmngr_is_free h1.mem (post.headD 0) = true := by
        rw [flag_first post (fun x hx => d4 x (hb_post x hx))]; exact hnx
      obtain ⟨h2, hex2, r2, e1, -, -, e4, e5⟩ := free_neither r1 hc1 hp1 hn1
      have hpb : payload h1 b = payload h b := by
        rw [r1.payload_eq _ hbm, d5]; omega
      refine ⟨b + 12, h1, h2, b :: fl1, hex, hex2, r2, by rw [e1, d1], ?_, ?_⟩
      · intro x hx
        by_cases hxb : x = b
        · rw [hxb, e5, hpb, hpf]
        · rw [e4 x hxb, d4 x hxb]
      · intro x
        rw [List.mem_cons, d6]
        constructor
        · rintro (e | ⟨hx, -⟩)
          · rw [e]; exact hbfl
          · exact hx
        · intro hx
          by_cases hxb : x = b
          · exact Or.inl hxb
          · exact Or.inr ⟨hx, hxb⟩
    · have hlt := r.lt_u32 b hbm
      have hSbs : b + (CEIL16 n + 12) ∉ pre ++ b :: post :=
        r.inner_not_mem _ (by omega) (by unfold block_end OVERHEAD; omega)
      have hS_pre : ∀ y ∈ pre, y ≠ b + (CEIL16 n + 12) :=
        fun y hy e => hSbs (e ▸ List.mem_append_left _ hy)
      have hbm1 : b ∈ pre ++ b :: (b + (CEIL16 n + 12)) :: post := by simp
      have hSm1 : b + (CEIL16 n + 12) ∈ pre ++ b :: (b + (CEIL16 n + 12)) :: post := by simp
      have hc1 : ¬ blkmngr_is_free h1.mem b = true :=
        not_free_of_even _ _ (by rw [d5]; omega)
      have hfS : blkmngr_is_free h1.mem (b + (CEIL16 n + 12)) = true :=
        free_of_odd _ _ (by omega) (by rw [d6]; omega)
      have hp1 : ¬ blkmngr_is_free h1.mem (pre.getLastD 0) = true := by
        rw [flag_last pre (fun x hx => d4 x (hb_pre x hx) (hS_pre x hx))]; exact hp
      obtain ⟨h2, fl2, hex2, r2, e1, -, -, e4, e5, e6⟩ := free_next r1 hc1 hp1 hfS
      have hpb : payload h1 b = CEIL16 n := by
        rw [r1.payload_eq _ hbm1, d5]; omega
      have hpS : payload h1 (b + (CEIL16 n + 12)) = payload h b - CEIL16 n - 12 := by
        rw [r1.payload_eq _ hSm1, d6]; omega
      refine ⟨b + 12, h1, h2, fl2, hex, hex2, r2, by rw [e1, d1], ?_, ?_⟩
      · intro x hx
        by_cases hxb : x = b
        · rw [hxb, e5, hpb, hpS, ← hpf]; omega
        · have hxS : x ≠ b + (CEIL16 n + 12) := fun e => hSbs (e ▸ hx)
          rw [e4 x hxb, d4 x hxb hxS]
      · intro x
        rw [e6, d7]
        constructor
        · rintro (e | ⟨e | ⟨hx, -⟩, hxS⟩)
          · rw [e]; exact hbfl
          · exact absurd e hxS
          · exact hx
        · intro hx
          by_cases hxb : x = b
          · exact Or.inl hxb
          · refine Or.inr ⟨Or.inr ⟨hx, hxb⟩, ?_⟩
            intro e
            exact hSbs (e ▸ (r.fsound x hx).1)

/-! ## The claims -/

/-- C1: `__do_malloc(heap, 0)` returns the null pointer and the heap it leaves
is the heap it was given: head, tail, free list head, every block header and
the top of the region are unchanged. -/
theorem malloc_zero_unchanged (h : Heap) : __do_malloc h 0 = .ok (0, h) := rfl

/-- C2: on the fresh one-page heap `low0`, `__do_malloc(0xFFFFFFFF)` rounds the
request to `CEIL16 0xFFFFFFFF = 0`, and returns the non-null pointer `0x1018`,
twelve bytes above an allocated block whose payload is 0 bytes. -/
theorem malloc_ceil_wrap_short_block :
    WF low0 ∧ CEIL16 4294967295 = 0 ∧
      __do_malloc low0 4294967295 = .ok (4120, short1) ∧
      blocks short1 = [4108] ∧ blkmngr_is_free short1.mem 4108 = false ∧
      payload short1 4108 = 0 ∧ short1.top = 4120 := by
  refine ⟨by decide, by decide, rfl, by decide, by decide, by decide, by decide⟩

/-- C3, as stated, fails: on the fresh one-page heap `low0` no free block
exists and `malloc(4068)` cannot extend the region, yet the call does not
return null with the heap unchanged. -/
theorem malloc_exhausted_not_null :
    ¬ ∀ (h : Heap) (size : Nat), WF h → 0 < size →
        (∀ a ∈ freeblocks h, payload h a < CEIL16 size) →
        h.top + CEIL16 size + OVERHEAD > h.vm_end →
        __do_malloc h size = .ok (0, h) := by
  intro hall
  have e : __do_malloc low0 4068 = .ok (0, low0) :=
    hall low0 4068 (by decide) (by decide) (by decide) (by decide)
  have e2 : __do_malloc low0 4068 = .error Fault.assertion := rfl
  rw [e2] at e
  cases e

/-- C3, amended: on a well-formed heap, when no free block fits a request of
`size > 0` bytes and the region cannot be extended (`top + CEIL(size,16) + H`
is above `vm_end` and below `2^32`), `__do_malloc` stops at its assertion
`ret != NULL`; it returns no pointer and no heap. -/
theorem malloc_exhausted_asserts (h : Heap) (size : Nat) (wf : WF h) (hs : 0 < size)
    (hnofit : ∀ a ∈ freeblocks h, payload h a < CEIL16 size)
    (hfull : h.top + CEIL16 size + OVERHEAD > h.vm_end)
    (hnowrap : h.top + CEIL16 size + OVERHEAD < U32) :
    __do_malloc h size = .error Fault.assertion := by
  have hU := U32_eq
  have hO := OVERHEAD_eq
  refine malloc_miss_fail wf.rep size (by omega) hnofit ?_
  rintro ⟨-, h2⟩
  rw [Nat.mod_eq_of_lt (by omega)] at h2
  omega

/-- C3, amended, at `low0` with `size = 4068`. -/
theorem malloc_exhausted_asserts_witness :
    WF low0 ∧ 0 < 4068 ∧ (∀ a ∈ freeblocks low0, payload low0 a < CEIL16 4068) ∧
      low0.top + CEIL16 4068 + OVERHEAD > low0.vm_end ∧
      low0.top + CEIL16 4068 + OVERHEAD < U32 ∧
      __do_malloc low0 4068 = .error Fault.assertion :=
  ⟨by decide, by decide, by decide, by decide, by decide,
    malloc_exhausted_asserts low0 4068 (by decide) (by decide) (by decide) (by decide)
      (by decide)⟩

/-- C4, as stated, fails: on the fresh heap `low0`, `p = malloc(10)` followed
by `free(p)` leaves a heap with one block and a raised top, where the heap
before the two calls had no block. -/
theorem round_trip_miss_not_restored :
    ¬ ∀ (h h1 h2 : Heap) (n p : Nat), WF h → 0 < n →
        __do_malloc h n = .ok (p, h1) → __do_free h1 p = .ok h2 →
        h2.head = h.head ∧ h2.tail = h.tail ∧ blocks h2 = blocks h ∧
          (∀ b ∈ blocks h, (h2.mem b).size = (h.mem b).size) ∧
          (∀ a, a ∈ freeblocks h2 ↔ a ∈ freeblocks h) := by
  intro hall
  have e1 : __do_malloc low0 10 = .ok (4120, trip1) := rfl
  have e2 : __do_free trip1 4120 = .ok trip2 := rfl
  have e := (hall low0 trip1 trip2 10 4120 (by decide) (by decide) e1 e2).2.2.1
  revert e
  decide

/-- C4, amended: on a well-formed heap with no two adjacent free blocks, when
some free block fits a request of `n > 0` bytes, `p = __do_malloc(heap, n)`
returns, `__do_free(heap, p)` returns, and afterwards head, tail, top, the
address-ordered sequence of blocks, the size word (payload and free flag) of
each block and the set of blocks on the free list are as before the malloc. -/
theorem round_trip_hit (h : Heap) (n : Nat) (wf : WF h) (b3 : B3 h) (hn : 0 < n)
    (hfit : ∃ a ∈ freeblocks h, CEIL16 n ≤ payload h a) :
    ∃ p h1 h2, __do_malloc h n = .ok (p, h1) ∧ __do_free h1 p = .ok h2 ∧
      h2.head = h.head ∧ h2.tail = h.tail ∧ h2.top = h.top ∧ blocks h2 = blocks h ∧
      (∀ b ∈ blocks h, (h2.mem b).size = (h.mem b).size) ∧
      (∀ a, a ∈ freeblocks h2 ↔ a ∈ freeblocks h) := by
  obtain ⟨p, h1, h2, fl2, e1, e2, r2, htop, hsz, hfl⟩ :=
    round_trip_rep wf.rep (b3.naf wf.rep) n (by omega) hfit
  refine ⟨p, h1, h2, e1, e2, ?_, ?_, htop, r2.blocks_eq, hsz, ?_⟩
  · rw [r2.head_eq, wf.rep.head_eq]
  · rw [r2.tail_eq, wf.rep.tail_eq]
  · intro a
    rw [r2.freeblocks_eq]
    exact hfl a

/-- C4, amended, at `low2` (one free block of payload 48) with `n = 16`: the
block is split by the malloc and merged again by the free. -/
theorem round_trip_hit_witness :
    WF low2 ∧ B3 low2 ∧ 0 < 16 ∧ (∃ a ∈ freeblocks low2, CEIL16 16 ≤ payload low2 a) ∧
      ∃ p h1 h2, __do_malloc low2 16 = .ok (p, h1) ∧ __do_free h1 p = .ok h2 ∧
        h2.head = low2.head ∧ h2.tail = low2.tail ∧ h2.top = low2.top ∧
        blocks h2 = blocks low2 ∧
        (∀ b ∈ blocks low2, (h2.mem b).size = (low2.mem b).size) ∧
        (∀ a, a ∈ freeblocks h2 ↔ a ∈ freeblocks low2) :=
  ⟨by decide, by decide, by decide, by decide,
    round_trip_hit low2 16 (by decide) (by decide) (by decide) (by decide)⟩

/-- C5: coalescing completeness fails on a reachable heap. On the fresh
one-page kernel heap at `0xC0000000`, `malloc(0x7FFF0000)` returns with the
top wrapped to `0x3FFF0018`; freeing the only block leaves one free block
whose chunk does not end at the top of the region. -/
theorem coalescing_completeness_fails :
    ¬ ∀ h : Heap, Reach zero_mem 3221225472 0 h → blocks h ≠ [] →
        ∀ ps : List Nat, ps.Perm (allocated h) →
          ∃ h', free_all h ps = .ok h' ∧ one_free_block h' := by
  intro hall
  have ha : allocated high1 = [3221225484] := by decide
  obtain ⟨h', e, o⟩ := hall high1 reach_high1 (by decide) [3221225484]
    (by rw [ha])
  rw [high1_freed_eq] at e
  have e' : high1_freed = h' := Except.ok.inj e
  rw [← e'] at o
  revert o
  decide

/-- C7: invariant B4 fails on a reachable heap. On the fresh one-page kernel
heap at `0xC0000000`, after `a = malloc(16)`, `free(a)`, three calls
`malloc(0x55555540)` and `malloc(32)`, the only block of the chain is
allocated and is on the free list. -/
theorem B4_not_preserved :
    ¬ ∀ h : Heap, Reach zero_mem 3221225472 0 h → B4 h := by
  intro hall
  have e := hall wrap6 reach_wrap6
  revert e
  decide

/-- C8: the space accounting equality fails on a reachable heap. On the fresh
one-page kernel heap at `0xC0000000`, after `malloc(0x7FFF0000)` the chunks of
the chain sum to `0x7FFF000C` bytes while the top, `0x3FFF0018`, is below
`vm_start + 12`. -/
theorem space_accounting_fails :
    ¬ ∀ h : Heap, Reach zero_mem 3221225472 0 h →
        (chunk_sum h : Int) = (h.top : Int) - ((h.vm_start : Int) + 12) := by
  intro hall
  have e := hall high1 reach_high1
  have e1 : chunk_sum high1 = 2147418124 := by decide
  have e2 : high1.top = 1073676312 := by decide
  have e3 : high1.vm_start = 3221225472 := by decide
  rw [e1, e2, e3] at e
  omega

/-- C9, as stated, fails: on the fresh heap `low0`, after `a = malloc(48)`,
`free(a)` and `malloc(16)`, the block split off at `0x1028` has a payload of
20 bytes, which is no multiple of 16. -/
theorem payload_not_multiple_of_16 :
    ¬ ∀ h : Heap, Reach zero_mem 4096 0 h →
        ∀ b ∈ blocks h, payload h b % 16 = 0 ∧ 8 ≤ payload h b := by
  intro hall
  have e := hall low3 reach_low3 4136 (by decide)
  revert e
  decide

/-- C9, amended: in every heap reached from `kheap_init` by calls of
`__do_malloc` and `__do_free` in which neither `size + 15` nor
`top + CEIL(size,16) + 12` passes `2^32`, the payload of every block of the
chain is a multiple of 4 and at least 8. -/
theorem payload_multiple_of_4 (mem : Nat → block_t) (base order : Nat) (h : Heap)
    (hb : 0 < base) (hend : base + 2 ^ order * PAGE_SIZE < U32)
    (hr : ReachSafe mem base order h) :
    ∀ b ∈ blocks h, payload h b % 4 = 0 ∧ 8 ≤ payload h b :=
  (reach_safe_inv mem base order hb hend h hr).2.2.2.2.2

/-- C9, amended, at the heap `low3`. -/
theorem payload_multiple_of_4_witness :
    0 < 4096 ∧ 4096 + 2 ^ 0 * PAGE_SIZE < U32 ∧ ReachSafe zero_mem 4096 0 low3 ∧
      ∀ b ∈ blocks low3, payload low3 b % 4 = 0 ∧ 8 ≤ payload low3 b :=
  ⟨by decide, by decide, reach_safe_low3,
    payload_multiple_of_4 zero_mem 4096 0 low3 (by decide) (by decide) reach_safe_low3⟩

/-- C10: invariants B2 and B5 fail on a reachable heap. On the fresh one-page
kernel heap at `0xC0000000`, after `malloc(0x7FFF0000)` and `malloc(16)` the
chain is `0xC000000C`, `0x3FFF0018`: the addresses decrease and the tail is
the lowest block. -/
theorem B2_B5_not_preserved :
    ¬ ∀ h : Heap, Reach zero_mem 3221225472 0 h → B2 h ∧ B5 h := by
  intro hall
  have e := hall high2 reach_high2
  revert e
  decide

/-! ## The flag bit and the size word -/

/-- C12: the region invariant fails. On the fresh one-page kernel heap at
`0xC0000000` (top `0xC000000C`, end `0xC0001000`), `__do_brk` with the
increment `0x7FFF000C` moves the top to `0x3FFF0018`, below `vm_start + 12`
and below the former top; `__do_malloc(0x7FFF0000)` reaches the same heap. -/
theorem region_invariant_fails :
    (¬ ∀ (h : Heap) (increment : Int), h.vm_start + 12 ≤ h.top → h.top ≤ h.vm_end →
        h.vm_end < U32 → -2147483648 ≤ increment → increment ≤ 2147483647 →
        h.vm_start + 12 ≤ (__do_brk h increment).2.top ∧
          (__do_brk h increment).2.top ≤ h.vm_end ∧ h.top ≤ (__do_brk h increment).2.top) ∧
      ¬ ∀ h : Heap, Reach zero_mem 3221225472 0 h →
        h.vm_start + 12 ≤ h.top ∧ h.top ≤ h.vm_end := by
  constructor
  · intro hall
    have e := (hall high0 2147418124 (by decide) (by decide) (by decide) (by decide)
      (by decide)).1
    revert e
    decide
  · intro hall
    have e := (hall high1 reach_high1).1
    revert e
    decide

/-- C13: when `increment > 0` and `top + increment <= vm_end` (a 32-bit bound),
`__do_brk`, and so `ksbrk` and `usbrk`, returns the previous top and sets the
top to `top + increment`; `vm_start` and `vm_end` are unchanged. The bound
`top + increment = vm_end` is included. -/
theorem brk_extends (h : Heap) (increment : Int) (hpos : 0 < increment)
    (hfit : (h.top : Int) + increment ≤ h.vm_end) (hend : h.vm_end < U32) :
    __do_brk h increment = (h.top, h.set_top (h.top + increment.toNat)) ∧
      ksbrk h increment = (h.top, h.set_top (h.top + increment.toNat)) ∧
      usbrk h increment = (h.top, h.set_top (h.top + increment.toNat)) ∧
      ((__do_brk h increment).2.top : Int) = h.top + increment ∧
      (__do_brk h increment).2.vm_start = h.vm_start ∧
      (__do_brk h increment).2.vm_end = h.vm_end := by
  have hU := U32_eq
  have hlt : h.top + increment.toNat < U32 := by omega
  have hle : h.top + increment.toNat ≤ h.vm_end := by omega
  have e : __do_brk h increment = (h.top, h.set_top (h.top + increment.toNat)) := by
    unfold __do_brk
    rw [if_pos hpos]
    simp only []
    rw [Nat.mod_eq_of_lt hlt, if_pos hle]
  refine ⟨e, e, e, ?_, ?_, ?_⟩
  · rw [e]
    show ((h.top + increment.toNat : Nat) : Int) = h.top + increment
    omega
  · rw [e]; rfl
  · rw [e]; rfl

/-- C13 at the fresh heap `low0`, with the increment that brings the top
exactly to `vm_end`. -/
theorem brk_extends_witness :
    (0 : Int) < 4084 ∧ (low0.top : Int) + 4084 ≤ low0.vm_end ∧ low0.vm_end < U32 ∧
      (__do_brk low0 4084 = (low0.top, low0.set_top (low0.top + (4084 : Int).toNat)) ∧
      ksbrk low0 4084 = (low0.top, low0.set_top (low0.top + (4084 : Int).toNat)) ∧
      usbrk low0 4084 = (low0.top, low0.set_top (low0.top + (4084 : Int).toNat)) ∧
      ((__do_brk low0 4084).2.top : Int) = low0.top + 4084 ∧
      (__do_brk low0 4084).2.vm_start = low0.vm_start ∧
      (__do_brk low0 4084).2.vm_end = low0.vm_end) :=
  ⟨by decide, by decide, by decide, brk_extends low0 4084 (by decide) (by decide) (by decide)⟩

/-- C14: on the fresh one-page kernel heap at `0xC0000000`, where
`top = 0xC000000C <= vm_end = 0xC0001000`, `__do_brk` with the positive
increment `0x7FFF000C`, whose sum with the top is above `vm_end`, returns the
non-null former top and moves the top to `0x3FFF0018`. -/
theorem brk_wrap_accepted :
    high0.top ≤ high0.vm_end ∧ high0.vm_end < U32 ∧ (0 : Int) < 2147418124 ∧
      (2147418124 : Int) ≤ 2147483647 ∧ (high0.top : Int) + 2147418124 > high0.vm_end ∧
      (__do_brk high0 2147418124).1 = 3221225484 ∧
      (__do_brk high0 2147418124).2.top = 1073676312 ∧ high0.top = 3221225484 := by
  refine ⟨by decide, by decide, by decide, by decide, by decide, by decide, by decide,
    by decide⟩

/-- C15, as stated, fails: on the fresh heap `low0`, whose top is `0x100c`,
`__do_brk` with increment 0 does not return the top. -/
theorem brk_zero_not_top :
    ¬ ∀ h : Heap, (__do_brk h 0).1 = h.top ∧ (__do_brk h 0).2.top = h.top := by
  intro hall
  have e := (hall low0).1
  revert e
  decide

/-- C15, amended: for `increment == 0`, `__do_brk`, and so `ksbrk(0)` and
`usbrk(0)`, returns null and leaves the region, its top included, unchanged. -/
theorem brk_zero_null (h : Heap) :
    __do_brk h 0 = (0, h) ∧ ksbrk h 0 = (0, h) ∧ usbrk h 0 = (0, h) :=
  ⟨rfl, rfl, rfl⟩

/-- C16: for every negative increment `__do_brk` returns null and the region
it leaves is the region it was given: top, `vm_start` and `vm_end` are
unchanged. -/
theorem brk_negative_noop (h : Heap) (increment : Int) (hneg : increment < 0) :
    __do_brk h increment = (0, h) ∧ (__do_brk h increment).2.top = h.top ∧
      (__do_brk h increment).2.vm_start = h.vm_start ∧
      (__do_brk h increment).2.vm_end = h.vm_end := by
  have e : __do_brk h increment = (0, h) := by
    unfold __do_brk
    rw [if_neg (by omega)]
  refine ⟨e, ?_, ?_, ?_⟩ <;> rw [e]

/-- C16 at the heap `low1` with increment `-60`, the size of its only chunk. -/
theorem brk_negative_noop_witness :
    (-60 : Int) < 0 ∧ (__do_brk low1 (-60) = (0, low1) ∧
      (__do_brk low1 (-60)).2.top = low1.top ∧
      (__do_brk low1 (-60)).2.vm_start = low1.vm_start ∧
      (__do_brk low1 (-60)).2.vm_end = low1.vm_end) :=
  ⟨by decide, brk_negative_noop low1 (-60) (by decide)⟩

/-! ## Neighbours of a block -/

theorem getLastD_eq_iff_nil (pre post : List Nat) (x : Nat)
    (nd : (pre ++ x :: post).Nodup) : (pre ++ x :: post).getLastD 0 = x ↔ post = [] := by
  rw [getLastD_append_cons]
  cases post with
  | nil => simp
  | cons y l =>
    have hnd := (List.nodup_cons.1 (List.nodup_append.1 nd).2.1).1
    constructor
    · intro e
      rw [getLastD_cons_ne (y :: l) x 0 (by simp)] at e
      have hm := getLastD_mem (y :: l) 0 (by simp)
      rw [e] at hm
      exact absurd hm hnd
    · intro e
      cases e

theorem getLastD_split (pre : List Nat) (p : Nat) (e : pre.getLastD 0 = p) (hp : p ≠ 0) :
    ∃ pre', pre = pre' ++ [p] := by
  have hne : pre ≠ [] := by
    intro hnil
    rw [hnil] at e
    exact hp e.symm
  refine ⟨pre.dropLast, ?_⟩
  have h1 := List.dropLast_append_getLast hne
  have h2 : pre.getLast hne = p := by
    rw [← e, List.getLastD_eq_getLast?, List.getLast?_eq_getLast _ hne]
    rfl
  rw [h2] at h1
  exact h1.symm

theorem headD_split (post : List Nat) (n : Nat) (e : post.headD 0 = n) (hn : n ≠ 0) :
    ∃ post', post = n :: post' := by
  cases post with
  | nil => exact absurd e.symm hn
  | cons y l => exact ⟨l, by rw [← e]; rfl⟩

theorem lnk_headD (g : Nat → Nat) (l : List Nat) (a e : Nat) (hl : Lnk g a l e) :
    a = l.headD e := by
  cases l with
  | nil => exact hl
  | cons b t => exact hl.1

/-- The chain around an allocated block, and what the two lookups return. -/
theorem neighbours {h : Heap} (wf : WF h) {c : Nat} (hc : c ∈ allocated h) :
    ∃ pre post, blocks h = pre ++ c :: post ∧ ¬ blkmngr_is_free h.mem c = true ∧
      blkmngr_get_previous_block h c = .ok (pre.getLastD 0) ∧
      blkmngr_get_next_block h c = .ok (post.headD 0) := by
  rw [mem_allocated] at hc
  obtain ⟨pre, post, e⟩ := List.append_of_mem hc.1
  have r := wf.rep
  rw [e] at r
  have fe := free_entry r
  exact ⟨pre, post, e, hc.2, fe.2.2.1, fe.2.2.2⟩

/-! ## The four cases of `__do_free` -/

/-- C20: on a well-formed heap, for an allocated block `c` whose predecessor
and successor are each absent or allocated, `__do_free(c + H)` returns; it
sets the free flag of `c`, keeps its payload and its `next`, makes `c` the
head of the free list with `nextfree` the former head of the free list, and
leaves head, tail, top, the chain and the size word (payload and flag) and
`next` of every other block unchanged. -/
theorem free_neither_neighbour (h : Heap) (p c n : Nat) (wf : WF h) (hc : c ∈ allocated h)
    (hprev : blkmngr_get_previous_block h c = .ok p)
    (hnext : blkmngr_get_next_block h c = .ok n)
    (hp : blkmngr_is_free h.mem p = false) (hn : blkmngr_is_free h.mem n = false) :
    ∃ h', __do_free h (c + OVERHEAD) = .ok h' ∧
      blkmngr_is_free h'.mem c = true ∧ payload h' c = payload h c ∧
      (h'.mem c).next = (h.mem c).next ∧
      h'.freelist = c ∧ (h'.mem c).nextfree = h.freelist ∧
      freeblocks h' = c :: freeblocks h ∧
      h'.head = h.head ∧ h'.tail = h.tail ∧ h'.top = h.top ∧ blocks h' = blocks h ∧
      ∀ x ∈ blocks h, x ≠ c →
        (h'.mem x).size = (h.mem x).size ∧ (h'.mem x).next = (h.mem x).next := by
  obtain ⟨pre, post, e, hcf, hprev', hnext'⟩ := neighbours wf hc
  have ep : pre.getLastD 0 = p := Except.ok.inj (hprev'.symm.trans hprev)
  have en : post.headD 0 = n := Except.ok.inj (hnext'.symm.trans hnext)
  have r := wf.rep
  have r0 := r
  rw [e] at r
  have hcm : c ∈ pre ++ c :: post := List.mem_append_right _ (List.mem_cons_self _ _)
  obtain ⟨h', ex, r', e1, -, -, e4, e5⟩ :=
    free_neither r hcf (by rw [ep, hp]; simp) (by rw [en, hn]; simp)
  have hc0 := r.nonzero c hcm
  have hev := r.payload_even c hcm
  have hfc : blkmngr_is_free h'.mem c = true :=
    free_of_odd _ _ hc0 (by rw [e5]; omega)
  have hnextall : ∀ x ∈ pre ++ c :: post, (h'.mem x).next = (h.mem x).next := by
    intro x hx
    obtain ⟨s, t, est⟩ := List.append_of_mem hx
    have ra := r
    have rb := r'
    rw [est] at ra rb
    rw [ra.next_eq, rb.next_eq]
  have hfl := r'.fchain
  rw [lnk_cons] at hfl
  refine ⟨h', ex, hfc, ?_, hnextall c hcm, hfl.1, ?_, ?_, ?_, ?_, e1, ?_, ?_⟩
  · rw [r'.payload_eq c hcm, e5]; omega
  · rw [lnk_headD _ _ _ _ hfl.2, lnk_headD _ _ _ _ r.fchain]
  · rw [r'.freeblocks_eq, r0.freeblocks_eq]
  · rw [r'.head_eq, r.head_eq]
  · rw [r'.tail_eq, r.tail_eq]
  · rw [r'.blocks_eq, e]
  · intro x hx hxc
    rw [e] at hx
    exact ⟨e4 x hxc, hnextall x hx⟩

/-- C20 at the heap `low1`, whose only block, at `0x100c`, is allocated. -/
theorem free_neither_neighbour_witness :
    WF low1 ∧ 4108 ∈ allocated low1 ∧
      blkmngr_get_previous_block low1 4108 = .ok 0 ∧
      blkmngr_get_next_block low1 4108 = .ok 0 ∧
      blkmngr_is_free low1.mem 0 = false ∧
      ∃ h', __do_free low1 (4108 + OVERHEAD) = .ok h' ∧
        blkmngr_is_free h'.mem 4108 = true ∧ payload h' 4108 = payload low1 4108 ∧
        (h'.mem 4108).next = (low1.mem 4108).next ∧
        h'.freelist = 4108 ∧ (h'.mem 4108).nextfree = low1.freelist ∧
        freeblocks h' = 4108 :: freeblocks low1 ∧
        h'.head = low1.head ∧ h'.tail = low1.tail ∧ h'.top = low1.top ∧
        blocks h' = blocks low1 ∧
        ∀ x ∈ blocks low1, x ≠ 4108 →
          (h'.mem x).size = (low1.mem x).size ∧ (h'.mem x).next = (low1.mem x).next :=
  ⟨by decide, by decide, rfl, rfl, by decide,
    free_neither_neighbour low1 0 4108 0 (by decide) (by decide) rfl rfl (by decide)
      (by decide)⟩

/-- C18: on a well-formed heap, for an allocated block `c` whose predecessor
`p` is free and whose successor `n` is absent or allocated, `__do_free(c + H)`
returns; afterwards the payload of `p` is `p.payload + H + c.payload` with the
free flag set, `p.next = n`, the tail is `p` if `c` was the tail and is
unchanged otherwise, `c` has left the chain, and the free list is the same
list as before: `p` is on it and `c` is not. -/
theorem free_prev_neighbour (h : Heap) (p c n : Nat) (wf : WF h) (hc : c ∈ allocated h)
    (hprev : blkmngr_get_previous_block h c = .ok p)
    (hnext : blkmngr_get_next_block h c = .ok n)
    (hp : blkmngr_is_free h.mem p = true) (hn : blkmngr_is_free h.mem n = false) :
    ∃ h', __do_free h (c + OVERHEAD) = .ok h' ∧
      payload h' p = payload h p + OVERHEAD + payload h c ∧
      blkmngr_is_free h'.mem p = true ∧ (h'.mem p).next = n ∧
      (c = h.tail → h'.tail = p) ∧ (c ≠ h.tail → h'.tail = h.tail) ∧
      freeblocks h' = freeblocks h ∧ p ∈ freeblocks h' ∧ c ∉ freeblocks h' ∧
      h'.head = h.head ∧ h'.top = h.top ∧
      ∃ pre post, blocks h = pre ++ p :: c :: post ∧ blocks h' = pre ++ p :: post := by
  have hO := OVERHEAD_eq
  obtain ⟨pre0, post, e, hcf, hprev', hnext'⟩ := neighbours wf hc
  have ep : pre0.getLastD 0 = p := Except.ok.inj (hprev'.symm.trans hprev)
  have en : post.headD 0 = n := Except.ok.inj (hnext'.symm.trans hnext)
  have hp0 : p ≠ 0 := ((is_free_iff _ _).1 hp).1
  obtain ⟨pre, rfl⟩ := getLastD_split pre0 p ep hp0
  have e' : blocks h = pre ++ p :: c :: post := by rw [e]; simp
  have r := wf.rep
  have r0 := r
  rw [e'] at r
  have hpm : p ∈ pre ++ p :: c :: post := by simp
  have hcm : c ∈ pre ++ p :: c :: post := by simp
  obtain ⟨h', ex, r', e1, -, -, e4, e5⟩ :=
    free_prev r hcf hp (by rw [en, hn]; simp)
  have hpm' : p ∈ pre ++ p :: post := by simp
  have hevp := r.payload_even p hpm
  have hevc := r.payload_even c hcm
  have hnd := r.nodup
  have htl : (pre ++ p :: c :: post).getLastD 0 = c ↔ post = [] := by
    have := getLastD_eq_iff_nil (pre ++ [p]) post c (by simpa using hnd)
    simpa using this
  have hfl' : freeblocks h' = freeblocks h := by rw [r'.freeblocks_eq, r0.freeblocks_eq]
  refine ⟨h', by rw [hO]; exact ex, ?_, ?_, ?_, ?_, ?_, hfl', ?_, ?_, ?_, e1, pre, post,
    e', r'.blocks_eq⟩
  · rw [r'.payload_eq p hpm', e5, hO]; omega
  · exact free_of_odd _ _ hp0 (by rw [e5]; omega)
  · rw [r'.next_eq, en]
  · intro hct
    have hpost : post = [] := htl.1 (by rw [← r.tail_eq, hct])
    rw [r'.tail_eq, hpost, getLastD_append_cons]
    rfl
  · intro hct
    have hpost : post ≠ [] := fun hnil => hct (by rw [r.tail_eq]; exact (htl.2 hnil).symm)
    rw [r'.tail_eq, r.tail_eq, getLastD_append_cons, getLastD_append_cons,
      getLastD_cons_ne post p 0 hpost, getLastD_cons_ne (c :: post) p 0 (by simp),
      getLastD_cons_ne post c 0 hpost]
  · rw [hfl']
    exact r0.fcomplete p (by rw [e']; exact hpm) hp
  · rw [hfl']
    intro hcfl
    exact hcf (r0.fsound c hcfl).2
  · rw [r'.head_eq, r.head_eq]
    cases pre <;> rfl

/-- C18 at the heap `duo3`: after `p = malloc(10)`, `q = malloc(32)` and
`free(p)` on a fresh heap, `free(q)` leaves exactly one free block, of payload
60, with head = tail. -/
theorem free_prev_neighbour_witness :
    (WF duo3 ∧ 4136 ∈ allocated duo3 ∧
      blkmngr_get_previous_block duo3 4136 = .ok 4108 ∧
      blkmngr_get_next_block duo3 4136 = .ok 0 ∧
      blkmngr_is_free duo3.mem 4108 = true ∧ blkmngr_is_free duo3.mem 0 = false ∧
      ∃ h', __do_free duo3 (4136 + OVERHEAD) = .ok h' ∧
        payload h' 4108 = payload duo3 4108 + OVERHEAD + payload duo3 4136 ∧
        blkmngr_is_free h'.mem 4108 = true ∧ (h'.mem 4108).next = 0 ∧
        (4136 = duo3.tail → h'.tail = 4108) ∧ (4136 ≠ duo3.tail → h'.tail = duo3.tail) ∧
        freeblocks h' = freeblocks duo3 ∧ 4108 ∈ freeblocks h' ∧ 4136 ∉ freeblocks h' ∧
        h'.head = duo3.head ∧ h'.top = duo3.top ∧
        ∃ pre post, blocks duo3 = pre ++ 4108 :: 4136 :: post ∧
          blocks h' = pre ++ 4108 :: post) ∧
      __do_malloc low0 10 = .ok (4120, trip1) ∧ __do_malloc trip1 32 = .ok (4148, duo2) ∧
      __do_free duo2 4120 = .ok duo3 ∧ __do_free duo3 4148 = .ok duo4 ∧
      blocks duo4 = [4108] ∧ freeblocks duo4 = [4108] ∧ payload duo4 4108 = 60 ∧
      blkmngr_is_free duo4.mem 4108 = true ∧ duo4.head = duo4.tail :=
  ⟨⟨by decide, by decide, rfl, rfl, by decide, by decide,
    free_prev_neighbour duo3 4108 4136 0 (by decide) (by decide) rfl rfl (by decide)
      (by decide)⟩,
    rfl, rfl, rfl, rfl, by decide, by decide, by decide, by decide, by decide⟩

/-- C19: on a well-formed heap, for an allocated block `c` whose successor `n`
is free and whose predecessor `p` is absent or allocated, `__do_free(c + H)`
returns; afterwards the payload of `c` is `c.payload + H + n.payload` with the
free flag set, `c.next` is the former successor of `n` (null if `n` was the
tail), the tail is `c` if `n` was the tail and is unchanged otherwise, `n` has
left the chain and the free list, and `c` is on the free list, which holds
besides `c` the blocks it held before other than `n`. -/
theorem free_next_neighbour (h : Heap) (p c n : Nat) (wf : WF h) (hc : c ∈ allocated h)
    (hprev : blkmngr_get_previous_block h c = .ok p)
    (hnext : blkmngr_get_next_block h c = .ok n)
    (hp : blkmngr_is_free h.mem p = false) (hn : blkmngr_is_free h.mem n = true) :
    ∃ h', __do_free h (c + OVERHEAD) = .ok h' ∧
      payload h' c = payload h c + OVERHEAD + payload h n ∧
      blkmngr_is_free h'.mem c = true ∧ (h'.mem c).next = (h.mem n).next ∧
      (n = h.tail → (h.mem n).next = 0 ∧ h'.tail = c) ∧ (n ≠ h.tail → h'.tail = h.tail) ∧
      n ∉ freeblocks h' ∧ c ∈ freeblocks h' ∧
      (∀ x, x ∈ freeblocks h' ↔ x = c ∨ (x ∈ freeblocks h ∧ x ≠ n)) ∧
      h'.head = h.head ∧ h'.top = h.top ∧
      ∃ pre post, blocks h = pre ++ c :: n :: post ∧ blocks h' = pre ++ c :: post := by
  have hO := OVERHEAD_eq
  obtain ⟨pre, post0, e, hcf, hprev', hnext'⟩ := neighbours wf hc
  have ep : pre.getLastD 0 = p := Except.ok.inj (hprev'.symm.trans hprev)
  have en : post0.headD 0 = n := Except.ok.inj (hnext'.symm.trans hnext)
  have hn0 : n ≠ 0 := ((is_free_iff _ _).1 hn).1
  obtain ⟨post, rfl⟩ := headD_split post0 n en hn0
  have r := wf.rep
  have r0 := r
  rw [e] at r
  have hcm : c ∈ pre ++ c :: n :: post := by simp
  have hnm : n ∈ pre ++ c :: n :: post := by simp
  obtain ⟨h', fl', ex, r', e1, -, -, e4, e5, e6⟩ :=
    free_next r hcf (by rw [ep, hp]; simp) hn
  have hcm' : c ∈ pre ++ c :: post := by simp
  have hc0 := r.nonzero c hcm
  have hevc := r.payload_even c hcm
  have hevn := r.payload_even n hnm
  have hnd := r.nodup
  have hcn : c ≠ n := by
    intro hcn
    have := (List.nodup_cons.1 (List.nodup_append.1 hnd).2.1).1
    exact this (by rw [hcn]; simp)
  have hnn : (h.mem n).next = post.headD 0 := by
    have r2 := r
    have e2 : pre ++ c :: n :: post = (pre ++ [c]) ++ n :: post := by simp
    rw [e2] at r2
    exact r2.next_eq
  have htl : (pre ++ c :: n :: post).getLastD 0 = n ↔ post = [] := by
    have := getLastD_eq_iff_nil (pre ++ [c]) post n (by simpa using hnd)
    simpa using this
  have hfl' : freeblocks h' = fl' := r'.freeblocks_eq
  have hfl : freeblocks h = _ := r0.freeblocks_eq
  refine ⟨h', by rw [hO]; exact ex, ?_, ?_, ?_, ?_, ?_, ?_, ?_, ?_, ?_, e1, pre, post,
    e, r'.blocks_eq⟩
  · rw [r'.payload_eq c hcm', e5, hO]; omega
  · exact free_of_odd _ _ hc0 (by rw [e5]; omega)
  · rw [r'.next_eq, hnn]
  · intro hnt
    have hpost : post = [] := htl.1 (by rw [← r.tail_eq, hnt])
    refine ⟨by rw [hnn, hpost]; rfl, ?_⟩
    rw [r'.tail_eq, hpost, getLastD_append_cons]
    rfl
  · intro hnt
    have hpost : post ≠ [] := fun hnil => hnt (by rw [r.tail_eq]; exact (htl.2 hnil).symm)
    rw [r'.tail_eq, r.tail_eq, getLastD_append_cons, getLastD_append_cons,
      getLastD_cons_ne post c 0 hpost, getLastD_cons_ne (n :: post) c 0 (by simp),
      getLastD_cons_ne post n 0 hpost]
  · rw [hfl', e6]
    rintro (h1 | ⟨-, h2⟩)
    · exact hcn h1.symm
    · exact h2 rfl
  · rw [hfl', e6]
    exact Or.inl rfl
  · intro x
    rw [hfl', e6]
  · rw [r'.head_eq, r.head_eq]
    cases pre <;> rfl

/-- C19 at the heap `low3`, whose chain is the allocated block `0x100c`
followed by the free block `0x1028`. -/
theorem free_next_neighbour_witness :
    WF low3 ∧ 4108 ∈ allocated low3 ∧
      blkmngr_get_previous_block low3 4108 = .ok 0 ∧
      blkmngr_get_next_block low3 4108 = .ok 4136 ∧
      blkmngr_is_free low3.mem 0 = false ∧ blkmngr_is_free low3.mem 4136 = true ∧
      ∃ h', __do_free low3 (4108 + OVERHEAD) = .ok h' ∧
        payload h' 4108 = payload low3 4108 + OVERHEAD + payload low3 4136 ∧
        blkmngr_is_free h'.mem 4108 = true ∧ (h'.mem 4108).next = (low3.mem 4136).next ∧
        (4136 = low3.tail → (low3.mem 4136).next = 0 ∧ h'.tail = 4108) ∧
        (4136 ≠ low3.tail → h'.tail = low3.tail) ∧
        4136 ∉ freeblocks h' ∧ 4108 ∈ freeblocks h' ∧
        (∀ x, x ∈ freeblocks h' ↔ x = 4108 ∨ (x ∈ freeblocks low3 ∧ x ≠ 4136)) ∧
        h'.head = low3.head ∧ h'.top = low3.top ∧
        ∃ pre post, blocks low3 = pre ++ 4108 :: 4136 :: post ∧
          blocks h' = pre ++ 4108 :: post :=
  ⟨by decide, by decide, rfl, rfl, by decide, by decide,
    free_next_neighbour low3 0 4108 4136 (by decide) (by decide) rfl rfl (by decide)
      (by decide)⟩

/-- C17: on a well-formed heap, for an allocated block `c` whose predecessor
`p` and successor `n` are both free, `__do_free(c + H)` returns; afterwards
the payload of `p` is `p.payload + 2 * H + c.payload + n.payload` with the free
flag set, `p.next` is the former successor of `n` (null if `n` was the tail),
the tail is `p` if `n` was the tail and is unchanged otherwise, `c` and `n`
have left the chain, `n` is no longer on the free list, `p` is on the free
list exactly once and `c` is not on the free list. -/
theorem free_both_neighbours (h : Heap) (p c n : Nat) (wf : WF h) (hc : c ∈ allocated h)
    (hprev : blkmngr_get_previous_block h c = .ok p)
    (hnext : blkmngr_get_next_block h c = .ok n)
    (hp : blkmngr_is_free h.mem p = true) (hn : blkmngr_is_free h.mem n = true) :
    ∃ h', __do_free h (c + OVERHEAD) = .ok h' ∧
      payload h' p = payload h p + 2 * OVERHEAD + payload h c + payload h n ∧
      blkmngr_is_free h'.mem p = true ∧ (h'.mem p).next = (h.mem n).next ∧
      (n = h.tail → (h.mem n).next = 0 ∧ h'.tail = p) ∧ (n ≠ h.tail → h'.tail = h.tail) ∧
      n ∉ freeblocks h' ∧ (freeblocks h').count p = 1 ∧ c ∉ freeblocks h' ∧
      (∀ x, x ∈ freeblocks h' ↔ x ∈ freeblocks h ∧ x ≠ n) ∧
      h'.head = h.head ∧ h'.top = h.top ∧
      ∃ pre post, blocks h = pre ++ p :: c :: n :: post ∧ blocks h' = pre ++ p :: post := by
  have hO := OVERHEAD_eq
  obtain ⟨pre0, post0, e, hcf, hprev', hnext'⟩ := neighbours wf hc
  have ep : pre0.getLastD 0 = p := Except.ok.inj (hprev'.symm.trans hprev)
  have en : post0.headD 0 = n := Except.ok.inj (hnext'.symm.trans hnext)
  have hp0 : p ≠ 0 := ((is_free_iff _ _).1 hp).1
  have hn0 : n ≠ 0 := ((is_free_iff _ _).1 hn).1
  obtain ⟨pre, rfl⟩ := getLastD_split pre0 p ep hp0
  obtain ⟨post, rfl⟩ := headD_split post0 n en hn0
  have e' : blocks h = pre ++ p :: c :: n :: post := by rw [e]; simp
  have r := wf.rep
  have r0 := r
  rw [e'] at r
  have hpm : p ∈ pre ++ p :: c :: n :: post := by simp
  have hcm : c ∈ pre ++ p :: c :: n :: post := by simp
  have hnm : n ∈ pre ++ p :: c :: n :: post := by simp
  obtain ⟨h', fl', ex, r', e1, -, -, e4, e5, e6⟩ := free_both r hcf hp hn
  have hpm' : p ∈ pre ++ p :: post := by simp
  have hevp := r.payload_even p hpm
  have hevc := r.payload_even c hcm
  have hevn := r.payload_even n hnm
  have hnd := r.nodup
  have hpn : p ≠ n := by
    intro hpn
    have := (List.nodup_cons.1 (List.nodup_append.1 hnd).2.1).1
    exact this (by rw [hpn]; simp)
  have hnn : (h.mem n).next = post.headD 0 := by
    have r2 := r
    have e2 : pre ++ p :: c :: n :: post = (pre ++ [p, c]) ++ n :: post := by simp
    rw [e2] at r2
    exact r2.next_eq
  have htl : (pre ++ p :: c :: n :: post).getLastD 0 = n ↔ post = [] := by
    have := getLastD_eq_iff_nil (pre ++ [p, c]) post n (by simpa using hnd)
    simpa using this
  have hfl' : freeblocks h' = fl' := r'.freeblocks_eq
  have hpfl : p ∈ freeblocks h := r0.fcomplete p (by rw [e']; exact hpm) hp
  have hpfl' : p ∈ freeblocks h' := by
    rw [hfl', e6, ← r0.freeblocks_eq]
    exact ⟨hpfl, hpn⟩
  refine ⟨h', by rw [hO]; exact ex, ?_, ?_, ?_, ?_, ?_, ?_, ?_, ?_, ?_, ?_, e1, pre, post,
    e', r'.blocks_eq⟩
  · rw [r'.payload_eq p hpm', e5, hO]; omega
  · exact free_of_odd _ _ hp0 (by rw [e5]; omega)
  · rw [r'.next_eq, hnn]
  · intro hnt
    have hpost : post = [] := htl.1 (by rw [← r.tail_eq, hnt])
    refine ⟨by rw [hnn, hpost]; rfl, ?_⟩
    rw [r'.tail_eq, hpost, getLastD_append_cons]
    rfl
  · intro hnt
    have hpost : post ≠ [] := fun hnil => hnt (by rw [r.tail_eq]; exact (htl.2 hnil).symm)
    rw [r'.tail_eq, r.tail_eq, getLastD_append_cons, getLastD_append_cons,
      getLastD_cons_ne post p 0 hpost, getLastD_cons_ne (c :: n :: post) p 0 (by simp),
      getLastD_cons_ne (n :: post) c 0 (by simp), getLastD_cons_ne post n 0 hpost]
  · rw [hfl', e6]
    exact fun hx => hx.2 rfl
  · have hnd' : (freeblocks h').Nodup := by rw [hfl']; exact r'.fnodup
    exact List.count_eq_one_of_mem hnd' hpfl'
  · rw [hfl', e6]
    intro hx
    exact hcf (r.fsound c hx.1).2
  · intro x
    rw [hfl', e6, ← r0.freeblocks_eq]
  · rw [r'.head_eq, r.head_eq]
    cases pre <;> rfl

/-- C17 at the heap `tri5`: after `a`, `b`, `c = malloc(16)` each, `free(a)` and
`free(c)` on a fresh heap, `free(b)` leaves one free block of payload 72. -/
theorem free_both_neighbours_witness :
    (WF tri5 ∧ 4136 ∈ allocated tri5 ∧
      blkmngr_get_previous_block tri5 4136 = .ok 4108 ∧
      blkmngr_get_next_block tri5 4136 = .ok 4164 ∧
      blkmngr_is_free tri5.mem 4108 = true ∧ blkmngr_is_free tri5.mem 4164 = true ∧
      ∃ h', __do_free tri5 (4136 + OVERHEAD) = .ok h' ∧
        payload h' 4108 =
          payload tri5 4108 + 2 * OVERHEAD + payload tri5 4136 + payload tri5 4164 ∧
        blkmngr_is_free h'.mem 4108 = true ∧ (h'.mem 4108).next = (tri5.mem 4164).next ∧
        (4164 = tri5.tail → (tri5.mem 4164).next = 0 ∧ h'.tail = 4108) ∧
        (4164 ≠ tri5.tail → h'.tail = tri5.tail) ∧
        4164 ∉ freeblocks h' ∧ (freeblocks h').count 4108 = 1 ∧ 4136 ∉ freeblocks h' ∧
        (∀ x, x ∈ freeblocks h' ↔ x ∈ freeblocks tri5 ∧ x ≠ 4164) ∧
        h'.head = tri5.head ∧ h'.top = tri5.top ∧
        ∃ pre post, blocks tri5 = pre ++ 4108 :: 4136 :: 4164 :: post ∧
          blocks h' = pre ++ 4108 :: post) ∧
      __do_malloc low0 16 = .ok (4120, tri1) ∧ __do_malloc tri1 16 = .ok (4148, tri2) ∧
      __do_malloc tri2 16 = .ok (4176, tri3) ∧ __do_free tri3 4120 = .ok tri4 ∧
      __do_free tri4 4176 = .ok tri5 ∧ __do_free tri5 4148 = .ok tri6 ∧
      blocks tri6 = [4108] ∧ freeblocks tri6 = [4108] ∧ payload tri6 4108 = 72 ∧
      blkmngr_is_free tri6.mem 4108 = true :=
  ⟨⟨by decide, by decide, rfl, rfl, by decide, by decide,
    free_both_neighbours tri5 4108 4136 4164 (by decide) (by decide) rfl rfl (by decide)
      (by decide)⟩,
    rfl, rfl, rfl, rfl, rfl, rfl, by decide, by decide, by decide, by decide⟩

/-! ## The system call, the initializer and a scenario -/

/-- C21, as stated, fails: on the fresh user heap at `0x40000000`,
`sys_brk(0x40000000)` takes the malloc branch and that call does not return
null. -/
theorem sys_brk_malloc_not_null :
    ¬ ∃ h', sys_brk (some uheap0) uarea 1073741824 = .ok (0, h') := by
  rintro ⟨h', e⟩
  have e2 : sys_brk (some uheap0) uarea 1073741824 = .error Fault.assertion := rfl
  rw [e2] at e
  cases e

/-- C21, amended: on an existing user heap, `sys_brk(addr)` calls
`__do_free(heap, addr)` and returns null when `vm_start < addr < vm_end`, and
otherwise, also for `addr == vm_start` and `addr == vm_end`, it is
`__do_malloc(heap, addr)` with the address as the requested size; with
`addr = 0x40000000` on the fresh heap at `0x40000000`, also when the heap is
yet to be created, the malloc branch is taken and stops at the assertion
`ret != NULL`. -/
theorem sys_brk_dispatch (h area : Heap) (addr : Nat) :
    (h.vm_start < addr ∧ addr < h.vm_end →
      sys_brk (some h) area addr = (__do_free h addr >>= fun h' => pure (0, h'))) ∧
    (¬ (h.vm_start < addr ∧ addr < h.vm_end) →
      sys_brk (some h) area addr = __do_malloc h addr) ∧
    sys_brk (some h) area h.vm_start = __do_malloc h h.vm_start ∧
    sys_brk (some h) area h.vm_end = __do_malloc h h.vm_end ∧
    sys_brk (some uheap0) uarea 1073741824 = __do_malloc uheap0 1073741824 ∧
    sys_brk none uarea 1073741824 = __do_malloc uheap0 1073741824 ∧
    __do_malloc uheap0 1073741824 = .error Fault.assertion := by
  have hin : ∀ a, (h.vm_start < a ∧ a < h.vm_end) →
      sys_brk (some h) area a = (__do_free h a >>= fun h' => pure (0, h')) := by
    intro a ha
    unfold sys_brk
    simp only []
    rw [if_pos ha]
  have hout : ∀ a, ¬ (h.vm_start < a ∧ a < h.vm_end) →
      sys_brk (some h) area a = __do_malloc h a := by
    intro a ha
    unfold sys_brk
    simp only []
    rw [if_neg ha]
  exact ⟨hin addr, hout addr, hout _ (by omega), hout _ (by omega), rfl, rfl, rfl⟩

/-- C22: after `kheap_init`, for a base address `base` and an order `order`
whose block of pages ends below `2^32`: `vm_start = base`,
`vm_end = base + 2^order * PAGE_SIZE`, `top = vm_start + 12`, the three
prologue words are null, there is no block, and the empty heap satisfies B2,
B3, B4, B5 and the space accounting equality. -/
theorem kheap_init_empty (mem : Nat → block_t) (base order : Nat)
    (hfit : base + 2 ^ order * PAGE_SIZE < U32) :
    (kheap_init mem base order).vm_start = base ∧
      (kheap_init mem base order).vm_end = base + 2 ^ order * PAGE_SIZE ∧
      (kheap_init mem base order).top = (kheap_init mem base order).vm_start + 12 ∧
      (kheap_init mem base order).head = 0 ∧ (kheap_init mem base order).tail = 0 ∧
      (kheap_init mem base order).freelist = 0 ∧
      blocks (kheap_init mem base order) = [] ∧ freeblocks (kheap_init mem base order) = [] ∧
      B2 (kheap_init mem base order) ∧ B3 (kheap_init mem base order) ∧
      B4 (kheap_init mem base order) ∧ B5 (kheap_init mem base order) ∧
      (chunk_sum (kheap_init mem base order) : Int) =
        ((kheap_init mem base order).top : Int) -
          (((kheap_init mem base order).vm_start : Int) + 12) := by
  have hU := U32_eq
  have hp : PAGE_SIZE = 4096 := rfl
  have h1 : 1 <<< order = 2 ^ order := by rw [Nat.shiftLeft_eq, one_mul]
  have h2 : 0 < 2 ^ order := pow_pos (by norm_num) _
  have h3 : 2 ^ order < U32 := by rw [hp] at hfit; omega
  have h4 : 2 ^ order * PAGE_SIZE < U32 := by omega
  have eb : blocks (kheap_init mem base order) = [] := rfl
  have ef : freeblocks (kheap_init mem base order) = [] := rfl
  have etop : (kheap_init mem base order).top = base + 12 := by
    show (base + 3 * 4) % U32 = _
    rw [hp] at hfit
    exact Nat.mod_eq_of_lt (by omega)
  have es : (kheap_init mem base order).vm_start = base := rfl
  refine ⟨rfl, ?_, ?_, rfl, rfl, rfl, eb, ef, ?_, ?_, ?_, ?_, ?_⟩
  · show (base + ((1 <<< order) % U32 * PAGE_SIZE) % U32) % U32 = _
    rw [h1, Nat.mod_eq_of_lt h3, Nat.mod_eq_of_lt h4, Nat.mod_eq_of_lt hfit]
  · rw [etop, es]
  · unfold B2
    rw [eb]
    exact ⟨List.Pairwise.nil, rfl, rfl⟩
  · unfold B3
    rw [eb]
    trivial
  · unfold B4
    rw [eb, ef]
    exact ⟨by simp, by simp, List.nodup_nil, rfl⟩
  · unfold B5
    rw [eb]
    exact ⟨by simp, fun hne => absurd rfl hne⟩
  · unfold chunk_sum
    rw [eb, etop, es]
    simp

/-- C22 for the one-page kernel heap at `0xC0000000`. -/
theorem kheap_init_empty_witness :
    3221225472 + 2 ^ 0 * PAGE_SIZE < U32 ∧
      ((kheap_init zero_mem 3221225472 0).vm_start = 3221225472 ∧
      (kheap_init zero_mem 3221225472 0).vm_end = 3221225472 + 2 ^ 0 * PAGE_SIZE ∧
      (kheap_init zero_mem 3221225472 0).top = (kheap_init zero_mem 3221225472 0).vm_start + 12 ∧
      (kheap_init zero_mem 3221225472 0).head = 0 ∧
      (kheap_init zero_mem 3221225472 0).tail = 0 ∧
      (kheap_init zero_mem 3221225472 0).freelist = 0 ∧
      blocks (kheap_init zero_mem 3221225472 0) = [] ∧
      freeblocks (kheap_init zero_mem 3221225472 0) = [] ∧
      B2 (kheap_init zero_mem 3221225472 0) ∧ B3 (kheap_init zero_mem 3221225472 0) ∧
      B4 (kheap_init zero_mem 3221225472 0) ∧ B5 (kheap_init zero_mem 3221225472 0) ∧
      (chunk_sum (kheap_init zero_mem 3221225472 0) : Int) =
        ((kheap_init zero_mem 3221225472 0).top : Int) -
          (((kheap_init zero_mem 3221225472 0).vm_start : Int) + 12)) :=
  ⟨by decide, kheap_init_empty zero_mem 3221225472 0 (by decide)⟩

/-- C23, as stated, fails: on a fresh heap, after `p = malloc(100)`,
`q = malloc(100)`, `free(p)` and `r = malloc(50)`, no free block has a payload
of 50 bytes. -/
theorem scenario5_no_payload_50 :
    __do_malloc low0 100 = .ok (4120, five1) ∧ __do_malloc five1 100 = .ok (4244, five2) ∧
      __do_free five2 4120 = .ok five3 ∧ __do_malloc five3 50 = .ok (4120, five4) ∧
      ¬ ∃ s ∈ freeblocks five4, payload five4 s = 50 :=
  ⟨rfl, rfl, rfl, rfl, by decide⟩

/-- C23, amended: on a fresh heap with `H = 12`, after `p = malloc(100)`,
`q = malloc(100)`, `free(p)` and `r = malloc(50)`, the pointer `r` equals `p`,
the block behind it keeps the rounded request of 64 bytes, and the split
creates a new free block, at `0x1058`, whose payload is `112 - 64 - 12 = 36`
bytes. -/
theorem scenario5_split :
    __do_malloc low0 100 = .ok (4120, five1) ∧ __do_malloc five1 100 = .ok (4244, five2) ∧
      __do_free five2 4120 = .ok five3 ∧ __do_malloc five3 50 = .ok (4120, five4) ∧
      blocks five3 = [4108, 4232] ∧ freeblocks five3 = [4108] ∧ payload five3 4108 = 112 ∧
      blocks five4 = [4108, 4184, 4232] ∧ freeblocks five4 = [4184] ∧
      payload five4 4108 = 64 ∧ blkmngr_is_free five4.mem 4108 = false ∧
      payload five4 4184 = 36 ∧ blkmngr_is_free five4.mem 4184 = true ∧ CEIL16 50 = 64 := by
  refine ⟨rfl, rfl, rfl, rfl, ?_, ?_, ?_, ?_, ?_, ?_, ?_, ?_, ?_, ?_⟩ <;> decide

/-! ## The two lookups and the best-fit search -/

theorem nodup_length_lt (l : List Nat) (hnd : l.Nodup) (hb : ∀ x ∈ l, x ≠ 0 ∧ x < U32) :
    l.length < U32 := by
  have hU := U32_eq
  have hsub : l.toFinset ⊆ (Finset.range U32).erase 0 := by
    intro x hx
    rw [List.mem_toFinset] at hx
    rw [Finset.mem_erase, Finset.mem_range]
    exact hb x hx
  have hcard := Finset.card_le_card hsub
  rw [List.toFinset_card_of_nodup hnd,
    Finset.card_erase_of_mem (Finset.mem_range.2 (by omega)), Finset.card_range] at hcard
  omega

theorem nodup_split_unique (b : Nat) (A B A' B' : List Nat) (hnd : (A ++ b :: B).Nodup)
    (e : A ++ b :: B = A' ++ b :: B') : A = A' := by
  induction A generalizing A' with
  | nil =>
    cases A' with
    | nil => rfl
    | cons a A'' =>
      exfalso
      simp only [List.nil_append, List.cons_append, List.cons.injEq] at e
      have hb : b ∈ B := by rw [e.2]; simp
      exact (List.nodup_cons.1 hnd).1 hb
  | cons a A1 ih =>
    cases A' with
    | nil =>
      exfalso
      simp only [List.nil_append, List.cons_append, List.cons.injEq] at e
      have hb : a ∈ A1 ++ b :: B := by rw [e.1]; simp
      exact (List.nodup_cons.1 hnd).1 hb
    | cons a' A'' =>
      simp only [List.cons_append, List.cons.injEq] at e
      rw [e.1, ih A'' (List.nodup_cons.1 hnd).2 e.2]

/-- C30: on a heap whose `next` chain from `head` is acyclic (it visits the
distinct non-null 32-bit addresses `bs` and ends with null) and whose `tail`
is the last block of the chain, for every block `b` of the chain:
`blkmngr_get_previous_block` returns (its loop ends within `2^32` steps), it
returns null iff `b` is the head, and otherwise the block `p` of the chain with
`p.next == b`, which is the only one; `blkmngr_get_next_block` returns null iff
`b` is the tail, and otherwise `b.next`. -/
theorem neighbour_lookup (h : Heap) (bs : List Nat) (b : Nat)
    (hchain : Lnk (fun a => (h.mem a).next) h.head bs 0) (hnd : bs.Nodup)
    (haddr : ∀ x ∈ bs, x ≠ 0 ∧ x < U32) (htail : h.tail = bs.getLastD 0)
    (hhp : h.head_ptr ≠ 0) (htp : h.tail_ptr ≠ 0) (hb : b ∈ bs) :
    ∃ p n, blkmngr_get_previous_block h b = .ok p ∧ (p = 0 ↔ b = h.head) ∧
      (b ≠ h.head → p ∈ bs ∧ (h.mem p).next = b ∧
        ∀ q ∈ bs, (h.mem q).next = b → q = p) ∧
      blkmngr_get_next_block h b = .ok n ∧ (n = 0 ↔ b = h.tail) ∧
      (b ≠ h.tail → n = (h.mem b).next) := by
  have hb0 : b ≠ 0 := (haddr b hb).1
  have hlen := nodup_length_lt bs hnd haddr
  obtain ⟨pre, post, e⟩ := List.append_of_mem hb
  subst e
  have hnd' := List.nodup_append.1 hnd
  have hhead : h.head = (pre ++ b :: post).headD 0 := lnk_headD _ _ _ _ hchain
  have htl : (pre ++ b :: post).getLastD 0 = b ↔ post = [] :=
    getLastD_eq_iff_nil pre post b hnd
  have hbnext : (h.mem b).next = post.headD 0 := lnk_next_of_mem _ pre post b _ 0 hchain
  have ht0 : h.tail ≠ 0 := by
    rw [htail]
    exact (haddr _ (getLastD_mem _ 0 (by simp))).1
  -- the successor
  have hnextres : ∃ n, blkmngr_get_next_block h b = .ok n ∧ (n = 0 ↔ b = h.tail) ∧
      (b ≠ h.tail → n = (h.mem b).next) := by
    unfold blkmngr_get_next_block c_assert
    by_cases hbt : b = h.tail
    · refine ⟨0, ?_, ?_, fun hne => absurd hbt hne⟩
      · simp [hb0, htp, ht0, hbt, bind, Except.bind, pure, Except.pure]
      · simp [hbt]
    · refine ⟨(h.mem b).next, ?_, ?_, fun _ => rfl⟩
      · simp [hb0, htp, ht0, hbt, bind, Except.bind, pure, Except.pure]
      · have hpost : post ≠ [] := fun hnil => hbt (by rw [htail]; exact (htl.2 hnil).symm)
        have hn0 : (h.mem b).next ≠ 0 := by
          rw [hbnext]
          cases post with
          | nil => exact absurd rfl hpost
          | cons y l => exact (haddr y (by simp)).1
        constructor
        · intro h0; exact absurd h0 hn0
        · intro h1; exact absurd h1 hbt
  obtain ⟨n, hn1, hn2, hn3⟩ := hnextres
  -- the predecessor
  unfold blkmngr_get_previous_block c_assert
  by_cases hp : pre = []
  · subst hp
    have hh : h.head = b := hchain.1
    refine ⟨0, n, ?_, ?_, fun hne => absurd hh.symm hne, hn1, hn2, hn3⟩
    · simp [hb0, hhp, hh, bind, Except.bind, pure, Except.pure]
    · simp [hh]
  · obtain ⟨pre', p, rfl⟩ : ∃ l' x, pre = l' ++ [x] :=
      ⟨pre.dropLast, pre.getLast hp, (List.dropLast_append_getLast hp).symm⟩
    have hpm : p ∈ pre' ++ [p] ++ b :: post := by simp
    have hp0 : p ≠ 0 := (haddr p hpm).1
    have hh0 : h.head ≠ 0 := by
      rw [hhead]
      cases pre' with
      | nil => exact hp0
      | cons y l => exact (haddr y (by simp)).1
    have hbh : b ≠ h.head := by
      rw [hhead]
      intro hbh
      have hm : b ∈ pre' ++ [p] := by
        cases pre' with
        | nil => simp at hbh; simp [hbh]
        | cons y l => simp at hbh; simp [hbh]
      exact hnd'.2.2 hm (List.mem_cons_self _ _)
    have hbp : b ≠ p := by
      intro hbp
      exact hnd'.2.2 (List.mem_append_right _ (List.mem_singleton.2 hbp))
        (List.mem_cons_self _ _)
    have hbpre : b ∉ pre' := fun hm =>
      hnd'.2.2 (List.mem_append_left _ hm) (List.mem_cons_self _ _)
    have hchain' : Lnk (fun a => (h.mem a).next) h.head (pre' ++ p :: b :: post) 0 := by
      simpa using hchain
    have hloop := prev_loop_spec h.mem b p pre' post h.head 0 U32 hchain' hbpre hbp
      (fun x hx => (haddr x (by simp [hx])).1) hp0 (by
        simp only [List.length_append, List.length_cons, List.length_nil] at hlen
        omega)
    have hpn : (h.mem p).next = b := by
      have := lnk_next_of_mem _ pre' (b :: post) p _ 0 hchain'
      simpa using this
    refine ⟨p, n, ?_, ?_, fun _ => ⟨hpm, hpn, ?_⟩, hn1, hn2, hn3⟩
    · simp [hb0, hhp, hh0, hbh, hloop, bind, Except.bind, pure, Except.pure]
    · constructor
      · intro h0; exact absurd h0 hp0
      · intro h1; exact absurd h1 hbh
    · intro q hq hqn
      obtain ⟨s, t, est⟩ := List.append_of_mem hq
      have hchq := hchain
      rw [est] at hchq
      have hqnext : (h.mem q).next = t.headD 0 := lnk_next_of_mem _ s t q _ 0 hchq
      rw [hqn] at hqnext
      obtain ⟨t', rfl⟩ := headD_split t b hqnext.symm hb0
      have e1 : (pre' ++ [p]) ++ b :: post = (s ++ [q]) ++ b :: t' := by
        rw [est]; simp
      have e2 := nodup_split_unique b _ _ _ _ hnd e1
      have e3 := List.append_inj_right' e2 rfl
      simpa using e3.symm

/-- C30 at the heap `tri3`, whose chain is `0x100c`, `0x1028`, `0x1044`, and
its middle block. -/
theorem neighbour_lookup_witness :
    Lnk (fun a => (tri3.mem a).next) tri3.head [4108, 4136, 4164] 0 ∧
      [4108, 4136, 4164].Nodup ∧ (∀ x ∈ [4108, 4136, 4164], x ≠ 0 ∧ x < U32) ∧
      tri3.tail = [4108, 4136, 4164].getLastD 0 ∧ tri3.head_ptr ≠ 0 ∧ tri3.tail_ptr ≠ 0 ∧
      4136 ∈ [4108, 4136, 4164] ∧
      ∃ p n, blkmngr_get_previous_block tri3 4136 = .ok p ∧ (p = 0 ↔ 4136 = tri3.head) ∧
        (4136 ≠ tri3.head → p ∈ [4108, 4136, 4164] ∧ (tri3.mem p).next = 4136 ∧
          ∀ q ∈ [4108, 4136, 4164], (tri3.mem q).next = 4136 → q = p) ∧
        blkmngr_get_next_block tri3 4136 = .ok n ∧ (n = 0 ↔ 4136 = tri3.tail) ∧
        (4136 ≠ tri3.tail → n = (tri3.mem 4136).next) :=
  ⟨by decide, by decide, by decide, by decide, by decide, by decide, by decide,
    neighbour_lookup tri3 [4108, 4136, 4164] 4136 (by decide) (by decide) (by decide)
      (by decide) (by decide) (by decide) (by decide)⟩

/-! ## Best fit -/

/-- What the loop of `blkmngr_find_best_fitting` returns when it is entered at
the cell `a` of the free list with the candidate `best`. -/
theorem find_loop_best (mem : Nat → block_t) (size : Nat) (l : List Nat) (a fuel best : Nat)
    (hl : Lnk (fun x => (mem x).nextfree) a l 0) (hnz : ∀ x ∈ l, x ≠ 0)
    (hfuel : l.length < fuel) :
    ∃ r, find_loop mem size fuel a best = .ok r ∧
      ((r = best ∧ ∀ x ∈ l, (mem x).size ≥ blkmngr_get_real_size size →
          blkmngr_is_free mem x = true → best ≠ 0 ∧ (mem best).size ≤ (mem x).size) ∨
        ∃ pre post, l = pre ++ r :: post ∧
          (mem r).size ≥ blkmngr_get_real_size size ∧ blkmngr_is_free mem r = true ∧
          (best ≠ 0 → (mem r).size < (mem best).size) ∧
          (∀ x ∈ pre, (mem x).size ≥ blkmngr_get_real_size size →
            blkmngr_is_free mem x = true → (mem r).size < (mem x).size) ∧
          (∀ x ∈ post, (mem x).size ≥ blkmngr_get_real_size size →
            blkmngr_is_free mem x = true → (mem r).size ≤ (mem x).size)) := by
  induction l generalizing a fuel best with
  | nil =>
    have ha : a = 0 := hl
    cases fuel with
    | zero => simp at hfuel
    | succ n =>
      refine ⟨best, by simp [find_loop, ha], Or.inl ⟨rfl, ?_⟩⟩
      intro x hx
      simp at hx
  | cons c l ih =>
    obtain ⟨rfl, hl'⟩ := hl
    have hc0 : a ≠ 0 := hnz a (List.mem_cons_self _ _)
    cases fuel with
    | zero => simp at hfuel
    | succ n =>
      have hfuel' : l.length < n := by simp at hfuel; omega
      have hnz' : ∀ x ∈ l, x ≠ 0 := fun x hx => hnz x (List.mem_cons_of_mem _ hx)
      have hfit := does_it_fit_eq mem a size hc0
      by_cases hf : (mem a).size ≥ blkmngr_get_real_size size ∧ blkmngr_is_free mem a = true
      · have hfb : (decide ((mem a).size ≥ blkmngr_get_real_size size) &&
            blkmngr_is_free mem a) = true := by simp [hf.1, hf.2]
        by_cases hbetter : best = 0 ∨ (mem a).size < (mem best).size
        · obtain ⟨r, hr, hcase⟩ := ih (mem a).nextfree n a hl' hnz' hfuel'
          refine ⟨r, ?_, Or.inr ?_⟩
          · unfold find_loop
            simp only [hc0, ↓reduceIte, hfit, ok_bind, hfb, hbetter, Bool.not_true,
              Bool.false_eq_true]
            exact hr
          · rcases hcase with ⟨hra, hall⟩ | ⟨pre, post, e, h1, h2, h3, h4, h5⟩
            · refine ⟨[], l, by rw [hra]; rfl, by rw [hra]; exact hf.1, by rw [hra]; exact hf.2,
                ?_, by simp, ?_⟩
              · intro hb
                rw [hra]
                rcases hbetter with hb0 | hlt
                · exact absurd hb0 hb
                · exact hlt
              · intro x hx hx1 hx2
                rw [hra]
                exact (hall x hx hx1 hx2).2
            · have h3' := h3 hc0
              refine ⟨a :: pre, post, by rw [e]; rfl, h1, h2, ?_, ?_, h5⟩
              · intro hb
                rcases hbetter with hb0 | hlt
                · exact absurd hb0 hb
                · omega
              · intro x hx hx1 hx2
                rcases List.mem_cons.1 hx with hxa | hxp
                · rw [hxa]; exact h3'
                · exact h4 x hxp hx1 hx2
        · have hb0 : best ≠ 0 := fun hb => hbetter (Or.inl hb)
          have hge : (mem best).size ≤ (mem a).size := by
            have : ¬ (mem a).size < (mem best).size := fun hlt => hbetter (Or.inr hlt)
            omega
          obtain ⟨r, hr, hcase⟩ := ih (mem a).nextfree n best hl' hnz' hfuel'
          refine ⟨r, ?_, ?_⟩
          · unfold find_loop
            simp only [hc0, ↓reduceIte, hfit, ok_bind, hfb, hbetter, Bool.not_true,
              Bool.false_eq_true]
            exact hr
          · rcases hcase with ⟨hrb, hall⟩ | ⟨pre, post, e, h1, h2, h3, h4, h5⟩
            · refine Or.inl ⟨hrb, ?_⟩
              intro x hx hx1 hx2
              rcases List.mem_cons.1 hx with hxa | hxl
              · rw [hxa]; exact ⟨hb0, hge⟩
              · exact hall x hxl hx1 hx2
            · have h3' := h3 hb0
              refine Or.inr ⟨a :: pre, post, by rw [e]; rfl, h1, h2, h3, ?_, h5⟩
              intro x hx hx1 hx2
              rcases List.mem_cons.1 hx with hxa | hxp
              · rw [hxa]; omega
              · exact h4 x hxp hx1 hx2
      · have hfb : (decide ((mem a).size ≥ blkmngr_get_real_size size) &&
            blkmngr_is_free mem a) = false := by
          rw [Bool.and_eq_false_iff]
          by_cases h1 : (mem a).size ≥ blkmngr_get_real_size size
          · right
            have : ¬ blkmngr_is_free mem a = true := fun h2 => hf ⟨h1, h2⟩
            simpa using this
          · left
            simpa using h1
        obtain ⟨r, hr, hcase⟩ := ih (mem a).nextfree n best hl' hnz' hfuel'
        refine ⟨r, ?_, ?_⟩
        · unfold find_loop
          simp only [hc0, ↓reduceIte, hfit, ok_bind, hfb, Bool.not_false]
          exact hr
        · rcases hcase with ⟨hrb, hall⟩ | ⟨pre, post, e, h1, h2, h3, h4, h5⟩
          · refine Or.inl ⟨hrb, ?_⟩
            intro x hx hx1 hx2
            rcases List.mem_cons.1 hx with hxa | hxl
            · rw [hxa] at hx1 hx2; exact absurd ⟨hx1, hx2⟩ hf
            · exact hall x hxl hx1 hx2
          · refine Or.inr ⟨a :: pre, post, by rw [e]; rfl, h1, h2, h3, ?_, h5⟩
            intro x hx hx1 hx2
            rcases List.mem_cons.1 hx with hxa | hxp
            · rw [hxa] at hx1 hx2; exact absurd ⟨hx1, hx2⟩ hf
            · exact h4 x hxp hx1 hx2

/-- C25: for an acyclic free list (from `freelist` through `nextfree` it
visits the distinct non-null 32-bit addresses `l` and ends with null, the size
fields being 32-bit words) and a rounded request `R`, a multiple of 16,
`blkmngr_find_best_fitting` returns; it returns null iff no block of the free
list is flagged free with payload at least `R`; otherwise it returns a block
of the free list that is flagged free with payload at least `R`, whose payload
is minimal among all such blocks, and every such block that precedes it on the
free list has a larger payload. -/
theorem best_fit_search (h : Heap) (R : Nat) (l : List Nat) (hptr : h.freelist_ptr ≠ 0)
    (hl : Lnk (fun x => (h.mem x).nextfree) h.freelist l 0) (hnd : l.Nodup)
    (haddr : ∀ x ∈ l, x ≠ 0 ∧ x < U32) (hsz : ∀ x ∈ l, (h.mem x).size < U32)
    (hR : R % 16 = 0) (hRlt : R < U32) :
    ∃ r, blkmngr_find_best_fitting h R = .ok r ∧
      (r = 0 ↔ ∀ x ∈ l, ¬ (blkmngr_is_free h.mem x = true ∧ R ≤ payload h x)) ∧
      (r ≠ 0 → ∃ pre post, l = pre ++ r :: post ∧
        blkmngr_is_free h.mem r = true ∧ R ≤ payload h r ∧
        (∀ x ∈ l, blkmngr_is_free h.mem x = true → R ≤ payload h x →
          payload h r ≤ payload h x) ∧
        (∀ x ∈ pre, blkmngr_is_free h.mem x = true → R ≤ payload h x →
          payload h r < payload h x)) := by
  have hU := U32_eq
  have hlen := nodup_length_lt l hnd haddr
  have hRR : blkmngr_get_real_size R = R := by rw [real_size_eq R hRlt]; omega
  -- a free block of the list: size word against payload
  have hword : ∀ x ∈ l, blkmngr_is_free h.mem x = true →
      (h.mem x).size = payload h x + 1 ∧ payload h x % 2 = 0 := by
    intro x hx hf
    have h1 := ((is_free_iff _ _).1 hf).2
    have h2 := hsz x hx
    unfold payload
    rw [real_size_eq _ h2]
    omega
  have hfits : ∀ x ∈ l, blkmngr_is_free h.mem x = true →
      ((h.mem x).size ≥ blkmngr_get_real_size R ↔ R ≤ payload h x) := by
    intro x hx hf
    obtain ⟨h1, h2⟩ := hword x hx hf
    rw [hRR, h1]
    omega
  unfold blkmngr_find_best_fitting c_assert
  by_cases hempty : h.freelist = 0
  · have hnil : l = [] := by
      cases l with
      | nil => rfl
      | cons y t =>
        exfalso
        have := hl.1
        exact (haddr y (List.mem_cons_self _ _)).1 (by rw [← this, hempty])
    subst hnil
    refine ⟨0, by simp [hptr, hempty, bind, Except.bind, pure, Except.pure], by simp,
      fun hne => absurd rfl hne⟩
  · obtain ⟨r, hr, hcase⟩ := find_loop_best h.mem R l h.freelist U32 0 hl
      (fun x hx => (haddr x hx).1) hlen
    refine ⟨r, by simp [hptr, hempty, hr, bind, Except.bind, pure, Except.pure], ?_, ?_⟩
    · rcases hcase with ⟨hr0, hall⟩ | ⟨pre, post, e, h1, h2, -, -, -⟩
      · constructor
        · intro _ x hx hfx
          have := hall x hx ((hfits x hx hfx.1).2 hfx.2) hfx.1
          exact this.1 rfl
        · intro _; exact hr0
      · have hrm : r ∈ l := by rw [e]; simp
        constructor
        · intro hr0
          exact absurd hr0 (haddr r hrm).1
        · intro hall
          exact absurd ⟨h2, (hfits r hrm h2).1 h1⟩ (hall r hrm)
    · intro hr0
      rcases hcase with ⟨hrb, -⟩ | ⟨pre, post, e, h1, h2, -, h4, h5⟩
      · exact absurd hrb hr0
      · have hrm : r ∈ l := by rw [e]; simp
        have hwr := hword r hrm h2
        refine ⟨pre, post, e, h2, (hfits r hrm h2).1 h1, ?_, ?_⟩
        · intro x hx hfx hRx
          have hwx := hword x hx hfx
          have hsx := (hfits x hx hfx).2 hRx
          rw [e] at hx
          rcases List.mem_append.1 hx with hxp | hxq
          · have := h4 x hxp hsx hfx
            omega
          · rcases List.mem_cons.1 hxq with hxr | hxq
            · rw [hxr]
            · have := h5 x hxq hsx hfx
              omega
        · intro x hx hfx hRx
          have hxl : x ∈ l := by rw [e]; simp [hx]
          have hwx := hword x hxl hfx
          have := h4 x hx ((hfits x hxl hfx).2 hRx) hfx
          omega

/-- C25 at the heap `tri5`, whose free list is `0x1044`, `0x100c`, two blocks
of payload 16: for `R = 16` the first of them is returned. -/
theorem best_fit_search_witness :
    (tri5.freelist_ptr ≠ 0 ∧
      Lnk (fun x => (tri5.mem x).nextfree) tri5.freelist [4164, 4108] 0 ∧
      [4164, 4108].Nodup ∧ (∀ x ∈ [4164, 4108], x ≠ 0 ∧ x < U32) ∧
      (∀ x ∈ [4164, 4108], (tri5.mem x).size < U32) ∧ 16 % 16 = 0 ∧ 16 < U32 ∧
      ∃ r, blkmngr_find_best_fitting tri5 16 = .ok r ∧
        (r = 0 ↔ ∀ x ∈ [4164, 4108],
          ¬ (blkmngr_is_free tri5.mem x = true ∧ 16 ≤ payload tri5 x)) ∧
        (r ≠ 0 → ∃ pre post, [4164, 4108] = pre ++ r :: post ∧
          blkmngr_is_free tri5.mem r = true ∧ 16 ≤ payload tri5 r ∧
          (∀ x ∈ [4164, 4108], blkmngr_is_free tri5.mem x = true → 16 ≤ payload tri5 x →
            payload tri5 r ≤ payload tri5 x) ∧
          (∀ x ∈ pre, blkmngr_is_free tri5.mem x = true → 16 ≤ payload tri5 x →
            payload tri5 r < payload tri5 x))) ∧
      blkmngr_find_best_fitting tri5 16 = .ok 4164 ∧ payload tri5 4164 = 16 ∧
      payload tri5 4108 = 16 ∧ blkmngr_find_best_fitting tri5 32 = .ok 0 :=
  ⟨⟨by decide, by decide, by decide, by decide, by decide, by decide, by decide,
    best_fit_search tri5 16 [4164, 4108] (by decide) (by decide) (by decide) (by decide)
      (by decide) (by decide) (by decide)⟩,
    rfl, by decide, by decide, rfl⟩

/-! ## The three paths of `__do_malloc`, as the specification states them -/

/-- Removal of a block that is not the first of the free list keeps the head
of the free list. -/
theorem remove_freelist_head (g g' : Heap) (b : Nat)
    (e : blkmngr_remove_from_freelist g b = .ok g') (hne : b ≠ g.freelist) :
    g'.freelist = g.freelist := by
  unfold blkmngr_remove_from_freelist c_assert at e
  by_cases hb : b ≠ 0
  · by_cases hp : g.freelist_ptr ≠ 0
    · by_cases hf : g.freelist ≠ 0
      · cases hloop : remove_loop g.mem b U32 g.freelist with
        | error err =>
          simp [hb, hp, hf, hne, hloop, bind, Except.bind, pure, Except.pure] at e
        | ok prev =>
          by_cases hprev : prev ≠ 0
          · simp [hb, hp, hf, hne, hloop, hprev, bind, Except.bind, pure, Except.pure] at e
            rw [← e]
            simp
          · simp [hb, hp, hf, hne, hloop, hprev, bind, Except.bind, pure, Except.pure] at e
            rw [← e]
            simp
      · simp [hb, hp, hf, bind, Except.bind, pure, Except.pure] at e
    · simp [hb, hp, bind, Except.bind, pure, Except.pure] at e
  · simp [hb, bind, Except.bind, pure, Except.pure] at e

/-- The miss path leaves null in `nextfree` of the new block. -/
theorem malloc_miss_nextfree {h : Heap} {bs fl : List Nat} (r : Rep h bs fl) (size : Nat)
    (hs : size ≠ 0) (hnofit : ∀ x ∈ fl, payload h x < CEIL16 size)
    (hpos : CEIL16 size + 12 < 2147483648)
    (hfits : (h.top + (CEIL16 size + 12)) % U32 ≤ h.vm_end) (p : Nat) (h' : Heap)
    (e : __do_malloc h size = .ok (p, h')) : (h'.mem h.top).nextfree = 0 := by
  by_cases hh : h.head = 0
  · rw [malloc_miss_empty r size hs hnofit hpos hfits hh] at e
    rw [← (ok_inj e).2]
    simp
  · rw [malloc_miss_tail r size hs hnofit hpos hfits hh] at e
    rw [← (ok_inj e).2]
    simp

/-- C26: on a well-formed heap whose region spans at most 2 GiB (as every
region made by `kheap_init` and by `sys_brk` does), for `size > 0` with
`R = CEIL(size,16)` such that no free block fits and `top + R + 12 <= vm_end`,
`__do_malloc` returns `N + 12` for a new block `N` placed at the old top with
payload `R`, flag allocated, `N.next = null` and `N.nextfree = null`; head
becomes `N` if the heap was empty, otherwise the `next` of the old tail becomes
`N`; tail becomes `N`; top grows by exactly `R + 12`; the free list and the
other blocks are unchanged. -/
theorem malloc_miss_path (h : Heap) (size : Nat) (wf : WF h) (hs : 0 < size)
    (hnofit : ∀ a ∈ freeblocks h, payload h a < CEIL16 size)
    (hroom : h.top + CEIL16 size + OVERHEAD ≤ h.vm_end)
    (hreg : h.vm_end ≤ h.vm_start + 2147483648) :
    ∃ h', __do_malloc h size = .ok (h.top + OVERHEAD, h') ∧
      payload h' h.top = CEIL16 size ∧ blkmngr_is_free h'.mem h.top = false ∧
      (h'.mem h.top).next = 0 ∧ (h'.mem h.top).nextfree = 0 ∧
      (blocks h = [] → h'.head = h.top) ∧
      (blocks h ≠ [] → h'.head = h.head ∧ (h'.mem h.tail).next = h.top) ∧
      h'.tail = h.top ∧ h'.top = h.top + CEIL16 size + OVERHEAD ∧
      h'.freelist = h.freelist ∧ freeblocks h' = freeblocks h ∧
      blocks h' = blocks h ++ [h.top] ∧
      ∀ x ∈ blocks h, (h'.mem x).size = (h.mem x).size := by
  have hU := U32_eq
  have hO := OVERHEAD_eq
  have r := wf.rep
  have h16 := ceil16_mod size
  have hend := r.end_lt
  have hstart := r.start_le
  have hint : CEIL16 size + OVERHEAD < 2147483648 := by omega
  have hfits : (h.top + (CEIL16 size + 12)) % U32 ≤ h.vm_end := by
    rw [Nat.mod_eq_of_lt (by omega)]; omega
  have hmod : (h.top + (CEIL16 size + 12)) % U32 = h.top + 12 + CEIL16 size :=
    by rw [Nat.mod_eq_of_lt (by omega)]; omega
  obtain ⟨h', ex, e1, e2, e3, e4, e5, e6, e7, e8, e9, e10, e11, e12⟩ :=
    malloc_miss r size (by omega) hnofit (by omega) hfits
  have hnf := malloc_miss_nextfree r size (by omega) hnofit (by omega) hfits _ _ ex
  rw [hmod] at e3
  have r' : Rep h' (blocks h ++ [h.top]) (freeblocks h) :=
    rep_append r e1 e2 rfl e3 (by omega) e4 e5 e7 e8 (by omega) e9 e10 e11 e12 e6
  have htm : h.top ∈ blocks h ++ [h.top] := by simp
  have htop0 : h.top ≠ 0 := r'.nonzero _ htm
  have hbs_t : ∀ x ∈ blocks h, x ≠ h.top := by
    intro x hx hxt
    have h1 := (r.mem_bounds x hx).2
    have h2 := block_end_ge h x
    omega
  have hhead0 : h.head = 0 ↔ blocks h = [] := by
    rw [r.head_eq]
    constructor
    · intro h0
      cases hb : blocks h with
      | nil => rfl
      | cons y l =>
        rw [hb] at h0
        exact absurd h0 (r.nonzero y (by rw [hb]; simp))
    · intro hb
      rw [hb]; rfl
  refine ⟨h', ?_, ?_, ?_, e10, hnf, ?_, ?_, e5, by rw [e3]; omega, e6, r'.freeblocks_eq,
    r'.blocks_eq, fun x hx => e7 x (hbs_t x hx)⟩
  · rw [ex, hO, Nat.mod_eq_of_lt (by omega)]
  · rw [r'.payload_eq _ htm, e8]; omega
  · rw [Bool.eq_false_iff]
    exact not_free_of_even _ _ (by rw [e8]; omega)
  · intro hb
    rw [e4, if_pos (hhead0.2 hb)]
  · intro hb
    have hh : h.head ≠ 0 := fun h0 => hb (hhead0.1 h0)
    exact ⟨by rw [e4, if_neg hh], e11 hh⟩

/-- C26 on the fresh heap `low0`: `malloc(10)` gives
`head = tail = vm_start + 12`, payload 16, `top = vm_start + 40` and the result
`vm_start + 24`. -/
theorem malloc_miss_path_witness :
    (WF low0 ∧ 0 < 10 ∧ (∀ a ∈ freeblocks low0, payload low0 a < CEIL16 10) ∧
      low0.top + CEIL16 10 + OVERHEAD ≤ low0.vm_end ∧
      low0.vm_end ≤ low0.vm_start + 2147483648 ∧
      ∃ h', __do_malloc low0 10 = .ok (low0.top + OVERHEAD, h') ∧
        payload h' low0.top = CEIL16 10 ∧ blkmngr_is_free h'.mem low0.top = false ∧
        (h'.mem low0.top).next = 0 ∧ (h'.mem low0.top).nextfree = 0 ∧
        (blocks low0 = [] → h'.head = low0.top) ∧
        (blocks low0 ≠ [] → h'.head = low0.head ∧ (h'.mem low0.tail).next = low0.top) ∧
        h'.tail = low0.top ∧ h'.top = low0.top + CEIL16 10 + OVERHEAD ∧
        h'.freelist = low0.freelist ∧ freeblocks h' = freeblocks low0 ∧
        blocks h' = blocks low0 ++ [low0.top] ∧
        ∀ x ∈ blocks low0, (h'.mem x).size = (low0.mem x).size) ∧
      __do_malloc low0 10 = .ok (low0.vm_start + 24, trip1) ∧
      trip1.head = low0.vm_start + 12 ∧ trip1.tail = low0.vm_start + 12 ∧
      payload trip1 (low0.vm_start + 12) = 16 ∧ trip1.top = low0.vm_start + 40 :=
  ⟨⟨by decide, by decide, by decide, by decide, by decide,
    malloc_miss_path low0 10 (by decide) (by decide) (by decide) (by decide) (by decide)⟩,
    rfl, by decide, by decide, by decide, by decide⟩

/-- Insertion in the free list makes the block its head. -/
theorem add_freelist_head (g g' : Heap) (b : Nat)
    (e : blkmngr_add_to_freelist g b = .ok g') : g'.freelist = b := by
  unfold blkmngr_add_to_freelist c_assert at e
  by_cases hb : b ≠ 0
  · by_cases hp : g.freelist_ptr ≠ 0
    · simp [hb, hp, bind, Except.bind, pure, Except.pure] at e
      rw [← e]
      simp
    · simp [hb, hp, bind, Except.bind, pure, Except.pure] at e
  · simp [hb, bind, Except.bind, pure, Except.pure] at e

/-- The best-fit block is a block of the chain. -/
theorem best_fit_mem {h : Heap} (wf : WF h) (size b : Nat)
    (hfind : blkmngr_find_best_fitting h (CEIL16 size) = .ok b) (hb0 : b ≠ 0) :
    b ∈ freeblocks h ∧ b ∈ blocks h ∧ CEIL16 size ≤ payload h b ∧
      blkmngr_is_free h.mem b = true := by
  obtain ⟨-, -, -, -, b', hb', hcase⟩ := malloc_entry wf.rep size
  rw [hfind] at hb'
  have hbb : b = b' := Except.ok.inj hb'
  subst hbb
  rcases hcase with ⟨h1, -⟩ | ⟨-, h1, h2⟩
  · exact absurd h1 hb0
  · exact ⟨h1, (wf.rep.fsound b h1).1, h2, (wf.rep.fsound b h1).2⟩

/-- C28: on a well-formed heap in which the best-fit block `b` has payload `P`
with `P - R < H + 8 = 20`, `__do_malloc` returns `b + 12`, creates no block,
keeps the payload of `b` equal to `P` and `b.next` unchanged, clears the free
flag of `b`, removes `b` from the free list and leaves head, tail, top and
all other blocks unchanged. -/
theorem malloc_hit_whole (h : Heap) (size b : Nat) (wf : WF h) (hs : 0 < size)
    (hfind : blkmngr_find_best_fitting h (CEIL16 size) = .ok b) (hb0 : b ≠ 0)
    (hsmall : payload h b - CEIL16 size < OVERHEAD + 8) :
    ∃ h', __do_malloc h size = .ok (b + OVERHEAD, h') ∧ blocks h' = blocks h ∧
      payload h' b = payload h b ∧ (h'.mem b).next = (h.mem b).next ∧
      blkmngr_is_free h'.mem b = false ∧ b ∉ freeblocks h' ∧
      (∀ x, x ∈ freeblocks h' ↔ (x ∈ freeblocks h ∧ x ≠ b)) ∧
      h'.head = h.head ∧ h'.tail = h.tail ∧ h'.top = h.top ∧
      ∀ x ∈ blocks h, x ≠ b →
        (h'.mem x).size = (h.mem x).size ∧ (h'.mem x).next = (h.mem x).next := by
  have hO := OVERHEAD_eq
  obtain ⟨hbfl, hbm, hle, hfree⟩ := best_fit_mem wf size b hfind hb0
  obtain ⟨pre, post, e⟩ := List.append_of_mem hbm
  have r := wf.rep
  have r0 := r
  rw [e] at r
  have hbm' : b ∈ pre ++ b :: post := by simp
  obtain ⟨h', fl', ex, r', e1, -, -, e4, e5, e6⟩ :=
    malloc_nosplit r size (by omega) hfind hb0 (by omega)
  have hev := r.payload_even b hbm'
  have hnextall : ∀ x ∈ pre ++ b :: post, (h'.mem x).next = (h.mem x).next := by
    intro x hx
    obtain ⟨s, t, est⟩ := List.append_of_mem hx
    have ra := r
    have rb := r'
    rw [est] at ra rb
    rw [ra.next_eq, rb.next_eq]
  have hfl' : freeblocks h' = fl' := r'.freeblocks_eq
  refine ⟨h', by rw [hO]; exact ex, by rw [r'.blocks_eq, e], ?_, hnextall b hbm', ?_, ?_, ?_,
    ?_, ?_, e1, ?_⟩
  · rw [r'.payload_eq b hbm', e5]; omega
  · rw [Bool.eq_false_iff]
    exact not_free_of_even _ _ (by rw [e5]; exact hev)
  · rw [hfl', e6]
    exact fun hx => hx.2 rfl
  · intro x
    rw [hfl', e6, ← r0.freeblocks_eq]
  · rw [r'.head_eq, r.head_eq]
  · rw [r'.tail_eq, r.tail_eq]
  · intro x hx hxb
    rw [e] at hx
    exact ⟨e4 x hxb, hnextall x hx⟩

/-- C28 at the heap `low2`, whose only block is free with payload 48, for
`malloc(40)`: `R = 48 = P`. -/
theorem malloc_hit_whole_witness :
    WF low2 ∧ 0 < 40 ∧ blkmngr_find_best_fitting low2 (CEIL16 40) = .ok 4108 ∧ 4108 ≠ 0 ∧
      payload low2 4108 - CEIL16 40 < OVERHEAD + 8 ∧
      ∃ h', __do_malloc low2 40 = .ok (4108 + OVERHEAD, h') ∧ blocks h' = blocks low2 ∧
        payload h' 4108 = payload low2 4108 ∧ (h'.mem 4108).next = (low2.mem 4108).next ∧
        blkmngr_is_free h'.mem 4108 = false ∧ 4108 ∉ freeblocks h' ∧
        (∀ x, x ∈ freeblocks h' ↔ (x ∈ freeblocks low2 ∧ x ≠ 4108)) ∧
        h'.head = low2.head ∧ h'.tail = low2.tail ∧ h'.top = low2.top ∧
        ∀ x ∈ blocks low2, x ≠ 4108 →
          (h'.mem x).size = (low2.mem x).size ∧ (h'.mem x).next = (low2.mem x).next :=
  ⟨by decide, by decide, rfl, by decide, by decide,
    malloc_hit_whole low2 40 4108 (by decide) (by decide) rfl (by decide) (by decide)⟩

/-- After the hit path with split the new block is the head of the free list. -/
theorem malloc_split_freelist {h : Heap} {pre post fl : List Nat} {b : Nat}
    (r : Rep h (pre ++ b :: post) fl) (size : Nat) (hs : size ≠ 0)
    (hfind : blkmngr_find_best_fitting h (CEIL16 size) = .ok b) (hb0 : b ≠ 0)
    (hbig : ¬ payload h b - CEIL16 size < 8 + 12)
    (hn : ¬ blkmngr_is_free h.mem (post.headD 0) = true) (p : Nat) (h' : Heap)
    (ex : __do_malloc h size = .ok (p, h')) : h'.freelist = b + (CEIL16 size + 12) := by
  have hexec := malloc_split_exec r size hs hfind hb0 hbig hn
  obtain ⟨g6, hg6⟩ : ∃ g6, g6 = (((blkmngr_set_free ((blkmngr_set_free (h.set_size b
      (CEIL16 size)) b 0).set_size (b + (CEIL16 size + 12)) (payload h b - CEIL16 size - 12))
      (b + (CEIL16 size + 12)) 1).set_next (b + (CEIL16 size + 12)) (post.headD 0)).set_tail
      (if b = h.tail then b + (CEIL16 size + 12) else h.tail)) := ⟨_, rfl⟩
  rw [← hg6] at hexec
  rw [hexec] at ex
  cases hadd : blkmngr_add_to_freelist g6 (b + (CEIL16 size + 12)) with
  | error err =>
    rw [hadd, error_bind] at ex
    cases ex
  | ok h7 =>
    rw [hadd, ok_bind] at ex
    have h7f := add_freelist_head _ _ _ hadd
    cases hrem : blkmngr_remove_from_freelist (h7.set_next b (b + (CEIL16 size + 12))) b with
    | error err =>
      rw [hrem, error_bind] at ex
      cases ex
    | ok h9 =>
      rw [hrem, ok_bind] at ex
      rw [← (ok_inj ex).2]
      have := remove_freelist_head _ _ _ hrem (by
        rw [set_next_freelist, h7f]
        omega)
      rw [this, set_next_freelist, h7f]

/-- C27: on a well-formed heap in which the best-fit block `b` has payload `P`
with `P - R >= H + 8 = 20` and the successor `n` of `b` is absent or allocated,
`__do_malloc` returns `b + 12`; it leaves `b` allocated with payload exactly
`R`, creates a free block `S` at `b + R + 12` with payload `P - R - 12` (8 when
`P - R = 20`), sets `b.next = S` and `S.next = n`, makes `S` the head of the
free list, removes `b` from the free list, sets the tail to `S` if `b` was the
tail, and leaves top, head and the other blocks unchanged. -/
theorem malloc_hit_split (h : Heap) (size b n : Nat) (wf : WF h) (hs : 0 < size)
    (hfind : blkmngr_find_best_fitting h (CEIL16 size) = .ok b) (hb0 : b ≠ 0)
    (hbig : CEIL16 size + (OVERHEAD + 8) ≤ payload h b)
    (hnext : blkmngr_get_next_block h b = .ok n)
    (hn : blkmngr_is_free h.mem n = false) :
    ∃ h', __do_malloc h size = .ok (b + OVERHEAD, h') ∧
      blkmngr_is_free h'.mem b = false ∧ payload h' b = CEIL16 size ∧
      blkmngr_is_free h'.mem (b + CEIL16 size + OVERHEAD) = true ∧
      payload h' (b + CEIL16 size + OVERHEAD) = payload h b - CEIL16 size - OVERHEAD ∧
      (payload h b - CEIL16 size = 20 → payload h' (b + CEIL16 size + OVERHEAD) = 8) ∧
      (h'.mem b).next = b + CEIL16 size + OVERHEAD ∧
      (h'.mem (b + CEIL16 size + OVERHEAD)).next = n ∧
      h'.freelist = b + CEIL16 size + OVERHEAD ∧ b ∉ freeblocks h' ∧
      (∀ x, x ∈ freeblocks h' ↔ x = b + CEIL16 size + OVERHEAD ∨ (x ∈ freeblocks h ∧ x ≠ b)) ∧
      (b = h.tail → h'.tail = b + CEIL16 size + OVERHEAD) ∧ (b ≠ h.tail → h'.tail = h.tail) ∧
      h'.top = h.top ∧ h'.head = h.head ∧
      (∃ pre post, blocks h = pre ++ b :: post ∧
        blocks h' = pre ++ b :: (b + CEIL16 size + OVERHEAD) :: post) ∧
      ∀ x ∈ blocks h, x ≠ b → (h'.mem x).size = (h.mem x).size := by
  have hO := OVERHEAD_eq
  have hU := U32_eq
  obtain ⟨hbfl, hbm, hle, hfree⟩ := best_fit_mem wf size b hfind hb0
  obtain ⟨pre, post, e⟩ := List.append_of_mem hbm
  have r := wf.rep
  have r0 := r
  rw [e] at r
  have hbm' : b ∈ pre ++ b :: post := by simp
  have hS : b + CEIL16 size + OVERHEAD = b + (CEIL16 size + 12) := by omega
  rw [hS]
  have hne := (hit_entry r size hfind hb0).2.2.2.1
  have en : post.headD 0 = n := Except.ok.inj (hne.symm.trans hnext)
  have hnf : ¬ blkmngr_is_free h.mem (post.headD 0) = true := by rw [en, hn]; simp
  have hbig' : ¬ payload h b - CEIL16 size < 8 + 12 := by omega
  obtain ⟨h', fl', ex, r', e1, -, -, e4, e5, e6, e7⟩ :=
    malloc_split r size (by omega) hfind hb0 hbig' hnf
  have hfh := malloc_split_freelist r size (by omega) hfind hb0 hbig' hnf _ _ ex
  have h16 := ceil16_mod size
  have hev := r.payload_even b hbm'
  have hlt := r.lt_u32 b hbm'
  have hbm2 : b ∈ pre ++ b :: (b + (CEIL16 size + 12)) :: post := by simp
  have hSm2 : b + (CEIL16 size + 12) ∈ pre ++ b :: (b + (CEIL16 size + 12)) :: post := by simp
  have hSbs : b + (CEIL16 size + 12) ∉ pre ++ b :: post :=
    r.inner_not_mem _ (by omega) (by unfold block_end; omega)
  have hfl' : freeblocks h' = fl' := r'.freeblocks_eq
  have hnd := r.nodup
  have htl : (pre ++ b :: post).getLastD 0 = b ↔ post = [] := getLastD_eq_iff_nil pre post b hnd
  have hpS : payload h' (b + (CEIL16 size + 12)) = payload h b - CEIL16 size - OVERHEAD := by
    rw [r'.payload_eq _ hSm2, e6]; omega
  refine ⟨h', by rw [hO]; exact ex, ?_, ?_, ?_, hpS, ?_, ?_, ?_, hfh, ?_, ?_, ?_, ?_, e1, ?_,
    ⟨pre, post, e, r'.blocks_eq⟩, ?_⟩
  · rw [Bool.eq_false_iff]
    exact not_free_of_even _ _ (by rw [e5]; omega)
  · rw [r'.payload_eq _ hbm2, e5]; omega
  · exact free_of_odd _ _ (by omega) (by rw [e6]; omega)
  · intro h20
    rw [hpS]; omega
  · have := r'.next_eq
    simpa using this
  · have r2 := r'
    have e2 : pre ++ b :: (b + (CEIL16 size + 12)) :: post =
        (pre ++ [b]) ++ (b + (CEIL16 size + 12)) :: post := by simp
    rw [e2] at r2
    rw [r2.next_eq, en]
  · rw [hfl', e7]
    rintro (h1 | ⟨-, h2⟩)
    · omega
    · exact h2 rfl
  · intro x
    rw [hfl', e7, ← r0.freeblocks_eq]
  · intro hbt
    have hpost : post = [] := htl.1 (by rw [← r.tail_eq, ← hbt])
    rw [r'.tail_eq, hpost, getLastD_append_cons]
    rfl
  · intro hbt
    have hpost : post ≠ [] := fun hnil => hbt (by rw [r.tail_eq]; exact (htl.2 hnil).symm)
    rw [r'.tail_eq, r.tail_eq, getLastD_append_cons, getLastD_append_cons,
      getLastD_cons_ne post b 0 hpost, getLastD_cons_ne _ b 0 (by simp),
      getLastD_cons_ne post _ 0 hpost]
  · rw [r'.head_eq, r.head_eq]
    cases pre <;> rfl
  · intro x hx hxb
    rw [e] at hx
    exact e4 x hxb (fun hxS => hSbs (hxS ▸ hx))

/-- C27 at the heap `min3`, whose free block `0x1028` has payload 36, for
`malloc(16)`: the remainder is exactly 20 and the new free block has payload 8. -/
theorem malloc_hit_split_witness :
    (WF min3 ∧ 0 < 16 ∧ blkmngr_find_best_fitting min3 (CEIL16 16) = .ok 4136 ∧ 4136 ≠ 0 ∧
      CEIL16 16 + (OVERHEAD + 8) ≤ payload min3 4136 ∧
      blkmngr_get_next_block min3 4136 = .ok 0 ∧ blkmngr_is_free min3.mem 0 = false ∧
      ∃ h', __do_malloc min3 16 = .ok (4136 + OVERHEAD, h') ∧
        blkmngr_is_free h'.mem 4136 = false ∧ payload h' 4136 = CEIL16 16 ∧
        blkmngr_is_free h'.mem (4136 + CEIL16 16 + OVERHEAD) = true ∧
        payload h' (4136 + CEIL16 16 + OVERHEAD) = payload min3 4136 - CEIL16 16 - OVERHEAD ∧
        (payload min3 4136 - CEIL16 16 = 20 → payload h' (4136 + CEIL16 16 + OVERHEAD) = 8) ∧
        (h'.mem 4136).next = 4136 + CEIL16 16 + OVERHEAD ∧
        (h'.mem (4136 + CEIL16 16 + OVERHEAD)).next = 0 ∧
        h'.freelist = 4136 + CEIL16 16 + OVERHEAD ∧ 4136 ∉ freeblocks h' ∧
        (∀ x, x ∈ freeblocks h' ↔
          x = 4136 + CEIL16 16 + OVERHEAD ∨ (x ∈ freeblocks min3 ∧ x ≠ 4136)) ∧
        (4136 = min3.tail → h'.tail = 4136 + CEIL16 16 + OVERHEAD) ∧
        (4136 ≠ min3.tail → h'.tail = min3.tail) ∧
        h'.top = min3.top ∧ h'.head = min3.head ∧
        (∃ pre post, blocks min3 = pre ++ 4136 :: post ∧
          blocks h' = pre ++ 4136 :: (4136 + CEIL16 16 + OVERHEAD) :: post) ∧
        ∀ x ∈ blocks min3, x ≠ 4136 → (h'.mem x).size = (min3.mem x).size) ∧
      payload min3 4136 = 36 ∧ __do_malloc min3 16 = .ok (4148, min4) ∧
      blocks min4 = [4108, 4136, 4164] ∧ payload min4 4164 = 8 ∧ min4.freelist = 4164 :=
  ⟨⟨by decide, by decide, rfl, by decide, by decide, rfl, by decide,
    malloc_hit_split min3 16 4136 0 (by decide) (by decide) rfl (by decide) (by decide) rfl
      (by decide)⟩,
    by decide, rfl, by decide, by decide, by decide⟩

/-! ## The hit path when the successor of the best-fit block is free -/

theorem getLastD_cons (b a : Nat) (t : List Nat) : (b :: t).getLastD a = t.getLastD b := by
  cases t <;> rfl

theorem getLastD_mem_cons (a : Nat) (l : List Nat) : l.getLastD a ∈ a :: l := by
  induction l generalizing a with
  | nil => simp
  | cons b t ih =>
    rw [getLastD_cons]
    exact List.mem_cons_of_mem _ (ih b)

theorem getLastD_append (a : Nat) (l l' : List Nat) :
    (l ++ l').getLastD a = l'.getLastD (l.getLastD a) := by
  induction l generalizing a with
  | nil => rfl
  | cons b t ih =>
    rw [List.cons_append, getLastD_cons, getLastD_cons, ih]

theorem dpath_append (m : Nat → list_head) (a : Nat) (l l' : List Nat) :
    dpath m a (l ++ l') ↔ dpath m a l ∧ dpath m (l.getLastD a) l' := by
  induction l generalizing a with
  | nil => simp [dpath]
  | cons b t ih =>
    rw [List.cons_append, getLastD_cons]
    simp only [dpath]
    rw [ih]
    tauto

/-- A path is kept by stores that touch neither `next` of its cells other than
the last nor `prev` of its cells other than the first. -/
theorem dpath_congr (m m' : Nat → list_head) (a : Nat) (l : List Nat)
    (nd : (a :: l).Nodup)
    (hn : ∀ x ∈ a :: l, x ≠ l.getLastD a → (m' x).next = (m x).next)
    (hp : ∀ x ∈ l, (m' x).prev = (m x).prev) (hd : dpath m a l) : dpath m' a l := by
  induction l generalizing a with
  | nil => trivial
  | cons b t ih =>
    obtain ⟨h1, h2, h3⟩ := hd
    have hab : a ∉ b :: t := (List.nodup_cons.1 nd).1
    refine ⟨?_, ?_, ?_⟩
    · rw [hn a (List.mem_cons_self _ _) ?_, h1]
      intro e
      apply hab
      rw [e, getLastD_cons]
      exact getLastD_mem_cons b t
    · rw [hp b (List.mem_cons_self _ _), h2]
    · apply ih b (List.nodup_cons.1 nd).2
      · intro x hx hxl
        exact hn x (List.mem_cons_of_mem _ hx) (by rw [getLastD_cons]; exact hxl)
      · intro x hx
        exact hp x (List.mem_cons_of_mem _ hx)
      · exact h3

theorem store_next_next (m : Nat → list_head) (l v x : Nat) :
    ((store_next m l v) x).next = if x = l then v else (m x).next := by
  unfold store_next; by_cases hx : x = l <;> simp [hx]

theorem store_next_prev (m : Nat → list_head) (l v x : Nat) :
    ((store_next m l v) x).prev = (m x).prev := by
  unfold store_next; by_cases hx : x = l <;> simp [hx]

theorem store_prev_prev (m : Nat → list_head) (l v x : Nat) :
    ((store_prev m l v) x).prev = if x = l then v else (m x).prev := by
  unfold store_prev; by_cases hx : x = l <;> simp [hx]

theorem store_prev_next (m : Nat → list_head) (l v x : Nat) :
    ((store_prev m l v) x).next = (m x).next := by
  unfold store_prev; by_cases hx : x = l <;> simp [hx]

/-- The stores of `list_head_merge`, with the cells they read named: `e1` the
last cell of the first list, `f2` and `e2` what the head of the second list
links to. -/
theorem merge_stores (m : Nat → list_head) (l1 l2 e1 f2 e2 : Nat)
    (hp1 : (m l1).prev = e1) (hn2 : (m l2).next = f2) (hp2 : (m l2).prev = e2)
    (h1 : l2 ≠ e1) (h2 : l2 ≠ f2) :
    list_head_merge m l1 l2 =
      list_head_init (store_prev (store_next (store_prev (store_next m e1 f2) f2 e1) e2 l1)
        l1 e2) l2 := by
  unfold list_head_merge
  simp only [store_next_next, store_next_prev, store_prev_prev, store_prev_next, hp1, hn2, hp2,
    h1, h2, ↓reduceIte]

/-- The links after `list_head_merge`. -/
theorem merge_fields (m : Nat → list_head) (l1 l2 e1 f2 e2 : Nat)
    (hp1 : (m l1).prev = e1) (hn2 : (m l2).next = f2) (hp2 : (m l2).prev = e2)
    (h1 : l2 ≠ e1) (h2 : l2 ≠ f2) :
    (∀ x, ((list_head_merge m l1 l2) x).next =
        if x = l2 then l2 else if x = e2 then l1 else if x = e1 then f2 else (m x).next) ∧
      ∀ x, ((list_head_merge m l1 l2) x).prev =
        if x = l2 then l2 else if x = l1 then e2 else if x = f2 then e1 else (m x).prev := by
  rw [merge_stores m l1 l2 e1 f2 e2 hp1 hn2 hp2 h1 h2]
  unfold list_head_init
  constructor
  · intro x
    simp only [store_next_next, store_next_prev, store_prev_prev, store_prev_next]
  · intro x
    simp only [store_next_next, store_next_prev, store_prev_prev, store_prev_next]

/-- The links after `list_head_merge` when the second list is empty: none has
changed. -/
theorem merge_fields_empty (m : Nat → list_head) (l1 l2 e1 : Nat)
    (hp1 : (m l1).prev = e1) (hn1 : (m e1).next = l1) (hn2 : (m l2).next = l2)
    (hp2 : (m l2).prev = l2) (h1 : l2 ≠ e1) :
    (∀ x, ((list_head_merge m l1 l2) x).next = (m x).next) ∧
      ∀ x, ((list_head_merge m l1 l2) x).prev = (m x).prev := by
  have e : list_head_merge m l1 l2 =
      list_head_init (store_prev (store_next (store_prev (store_next m e1 l2) l2 e1) e1 l1)
        l1 e1) l2 := by
    unfold list_head_merge
    simp only [store_next_next, store_next_prev, store_prev_prev, store_prev_next, hp1, hn2,
      hp2, h1, ↓reduceIte]
  rw [e]
  unfold list_head_init
  constructor
  · intro x
    simp only [store_next_next, store_next_prev, store_prev_prev, store_prev_next]
    by_cases hx2 : x = l2
    · rw [if_pos hx2, hx2, hn2]
    · rw [if_neg hx2]
      by_cases hx1 : x = e1
      · rw [if_pos hx1, hx1, hn1]
      · rw [if_neg hx1, if_neg hx1]
  · intro x
    simp only [store_next_next, store_next_prev, store_prev_prev, store_prev_next]
    by_cases hx2 : x = l2
    · rw [if_pos hx2, hx2, hp2]
    · rw [if_neg hx2]
      by_cases hx1 : x = l1
      · rw [if_pos hx1, hx1, hp1]
      · rw [if_neg hx1, if_neg hx2]

/-- C24: for two disjoint well-formed circular doubly-linked lists with heads
`l1` and `l2` and elements `xs1` and `xs2` (either or both possibly empty),
after `list_head_merge(l1, l2)` the list `l1` is well formed and holds its
former elements followed by the former elements of `l2` in their order, every
`prev` link being the inverse of the `next` link, the list `l2` is well formed
and empty, `list_head_empty(l2)` is 1, and no cell outside the two lists has
changed. -/
theorem list_head_merge_spec (m : Nat → list_head) (l1 l2 : Nat) (xs1 xs2 : List Nat)
    (w1 : dlist m l1 xs1) (w2 : dlist m l2 xs2)
    (hdisj : ∀ x ∈ l1 :: xs1, x ∉ l2 :: xs2) :
    dlist (list_head_merge m l1 l2) l1 (xs1 ++ xs2) ∧
      dlist (list_head_merge m l1 l2) l2 [] ∧
      list_head_empty (list_head_merge m l1 l2) l2 = 1 ∧
      ∀ x, x ∉ l1 :: xs1 → x ∉ l2 :: xs2 → (list_head_merge m l1 l2) x = m x := by
  obtain ⟨p1, c1, d1, nd1⟩ := w1
  obtain ⟨p2, c2, d2, nd2⟩ := w2
  have he1 : xs1.getLastD l1 ∈ l1 :: xs1 := getLastD_mem_cons l1 xs1
  have hl1 : l1 ∈ l1 :: xs1 := List.mem_cons_self _ _
  have hl2 : l2 ∈ l2 :: xs2 := List.mem_cons_self _ _
  have h21 : l2 ≠ xs1.getLastD l1 := fun e => hdisj _ he1 (e ▸ hl2)
  have h12 : l1 ≠ l2 := fun e => hdisj _ hl1 (e ▸ hl2)
  have hnd : (l1 :: (xs1 ++ xs2)).Nodup := by
    have hnd1 := List.nodup_cons.1 nd1
    have hnd2 := List.nodup_cons.1 nd2
    rw [List.nodup_cons, List.nodup_append]
    refine ⟨?_, hnd1.2, hnd2.2, ?_⟩
    · intro hm
      rcases List.mem_append.1 hm with hm | hm
      · exact hnd1.1 hm
      · exact hdisj _ hl1 (List.mem_cons_of_mem _ hm)
    · intro x hx1 hx2
      exact hdisj x (List.mem_cons_of_mem _ hx1) (List.mem_cons_of_mem _ hx2)
  cases xs2 with
  | nil =>
    have hn2 : (m l2).next = l2 := c2
    have hp2 : (m l2).prev = l2 := d2
    obtain ⟨fn, fp⟩ := merge_fields_empty m l1 l2 _ d1 c1 hn2 hp2 h21
    rw [List.append_nil]
    refine ⟨⟨?_, by rw [fn]; exact c1, by rw [fp]; exact d1, nd1⟩,
      ⟨trivial, by rw [fn]; exact hn2, by rw [fp]; exact hp2, nd2⟩, ?_, ?_⟩
    · exact dpath_congr m _ l1 xs1 nd1 (fun x _ _ => fn x) (fun x _ => fp x) p1
    · unfold list_head_empty
      rw [fn, hn2, if_pos rfl]
    · intro x _ _
      have h1 := fn x
      have h2 := fp x
      cases hM : list_head_merge m l1 l2 x with
      | mk a b =>
        rw [hM] at h1 h2
        cases hm : m x with
        | mk a' b' =>
          rw [hm] at h1 h2
          simp only at h1 h2
          rw [h1, h2]
  | cons f2 t =>
    obtain ⟨hn2, hpf, pt⟩ := p2
    have hf2 : f2 ∈ l2 :: f2 :: t := by simp
    have he2 : (f2 :: t).getLastD l2 ∈ f2 :: t := by
      rw [getLastD_cons]
      exact getLastD_mem_cons f2 t
    have he2' : (f2 :: t).getLastD l2 ∈ l2 :: f2 :: t := List.mem_cons_of_mem _ he2
    have hnd2 := List.nodup_cons.1 nd2
    have h2f : l2 ≠ f2 := fun e => hnd2.1 (by rw [e]; simp)
    have h2e : (f2 :: t).getLastD l2 ≠ l2 := fun e => hnd2.1 (e ▸ he2)
    obtain ⟨fn, fp⟩ := merge_fields m l1 l2 _ f2 _ d1 hn2 d2 h21 h2f
    have hlast : (xs1 ++ f2 :: t).getLastD l1 = (f2 :: t).getLastD l2 := by
      rw [getLastD_append, getLastD_cons, getLastD_cons]
    have hd : ∀ x y, x ∈ l1 :: xs1 → y ∈ l2 :: f2 :: t → x ≠ y := by
      intro x y hx hy e
      rw [e] at hx
      exact hdisj y hx hy
    have hin2 : ∀ x, x ∈ f2 :: t → x ≠ l2 := by
      intro x hx e
      rw [e] at hx
      exact hnd2.1 hx
    have hint : ∀ x, x ∈ t → x ≠ f2 := by
      intro x hx e
      rw [e] at hx
      exact (List.nodup_cons.1 hnd2.2).1 hx
    have hin1 : ∀ x, x ∈ xs1 → x ≠ l1 := by
      intro x hx e
      rw [e] at hx
      exact (List.nodup_cons.1 nd1).1 hx
    have ne_e1_l2 : xs1.getLastD l1 ≠ l2 := hd _ _ he1 hl2
    have ne_e1_e2 : xs1.getLastD l1 ≠ (f2 :: t).getLastD l2 := hd _ _ he1 he2'
    have ne_f2_l2 : f2 ≠ l2 := Ne.symm h2f
    have ne_f2_l1 : f2 ≠ l1 := Ne.symm (hd l1 f2 hl1 hf2)
    refine ⟨⟨?_, ?_, ?_, hnd⟩, ⟨trivial, ?_, ?_, by simp⟩, ?_, ?_⟩
    · rw [dpath_append]
      refine ⟨?_, ?_, ?_, ?_⟩
      · apply dpath_congr m _ l1 xs1 nd1 _ _ p1
        · intro x hx hxl
          have a1 : x ≠ l2 := hd x l2 hx hl2
          have a2 : x ≠ (f2 :: t).getLastD l2 := hd x _ hx he2'
          rw [fn, if_neg a1, if_neg a2, if_neg hxl]
        · intro x hx
          have hx' : x ∈ l1 :: xs1 := List.mem_cons_of_mem _ hx
          have a1 : x ≠ l2 := hd x l2 hx' hl2
          have a2 : x ≠ l1 := hin1 x hx
          have a3 : x ≠ f2 := hd x f2 hx' hf2
          rw [fp, if_neg a1, if_neg a2, if_neg a3]
      · rw [fn, if_neg ne_e1_l2, if_neg ne_e1_e2, if_pos rfl]
      · rw [fp, if_neg ne_f2_l2, if_neg ne_f2_l1, if_pos rfl]
      · apply dpath_congr m _ f2 t hnd2.2 _ _ pt
        · intro x hx hxl
          have hx' : x ∈ l2 :: f2 :: t := List.mem_cons_of_mem _ hx
          have a1 : x ≠ l2 := hin2 x hx
          have a2 : x ≠ (f2 :: t).getLastD l2 := by rw [getLastD_cons]; exact hxl
          have a3 : x ≠ xs1.getLastD l1 := Ne.symm (hd _ x he1 hx')
          rw [fn, if_neg a1, if_neg a2, if_neg a3]
        · intro x hx
          have hxf : x ∈ f2 :: t := List.mem_cons_of_mem _ hx
          have hx' : x ∈ l2 :: f2 :: t := List.mem_cons_of_mem _ hxf
          have a1 : x ≠ l2 := hin2 x hxf
          have a2 : x ≠ l1 := Ne.symm (hd l1 x hl1 hx')
          have a3 : x ≠ f2 := hint x hx
          rw [fp, if_neg a1, if_neg a2, if_neg a3]
    · rw [hlast, fn, if_neg h2e, if_pos rfl]
    · rw [hlast, fp, if_neg h12, if_pos rfl]
    · show ((list_head_merge m l1 l2) l2).next = l2
      rw [fn, if_pos rfl]
    · show ((list_head_merge m l1 l2) l2).prev = l2
      rw [fp, if_pos rfl]
    · unfold list_head_empty
      rw [fn, if_pos rfl, if_pos rfl]
    · intro x hx1 hx2
      have a1 : x ≠ l2 := fun e => hx2 (by rw [e]; exact hl2)
      have a2 : x ≠ (f2 :: t).getLastD l2 := fun e => hx2 (by rw [e]; exact he2')
      have a3 : x ≠ xs1.getLastD l1 := fun e => hx1 (by rw [e]; exact he1)
      have a4 : x ≠ l1 := fun e => hx1 (by rw [e]; exact hl1)
      have a5 : x ≠ f2 := fun e => hx2 (by rw [e]; exact hf2)
      have h1 := fn x
      have h2 := fp x
      rw [if_neg a1, if_neg a2, if_neg a3] at h1
      rw [if_neg a1, if_neg a4, if_neg a5] at h2
      cases hM : list_head_merge m l1 l2 x with
      | mk a b =>
        rw [hM] at h1 h2
        cases hm : m x with
        | mk a' b' =>
          rw [hm] at h1 h2
          simp only at h1 h2
          rw [h1, h2]

/-- C24 for the lists of `ring_mem`: head `1` with `2`, `3` and head `4` with
`5`, `6`; after the merge the list `1` holds `2`, `3`, `5`, `6`. -/
theorem list_head_merge_spec_witness :
    dlist ring_mem 1 [2, 3] ∧ dlist ring_mem 4 [5, 6] ∧
      (∀ x ∈ 1 :: [2, 3], x ∉ 4 :: [5, 6]) ∧
      (dlist (list_head_merge ring_mem 1 4) 1 ([2, 3] ++ [5, 6]) ∧
      dlist (list_head_merge ring_mem 1 4) 4 [] ∧
      list_head_empty (list_head_merge ring_mem 1 4) 4 = 1 ∧
      ∀ x, x ∉ 1 :: [2, 3] → x ∉ 4 :: [5, 6] → (list_head_merge ring_mem 1 4) x = ring_mem x) :=
  ⟨by decide, by decide, by decide,
    list_head_merge_spec ring_mem 1 4 [2, 3] [5, 6] (by decide) (by decide) (by decide)⟩

/-- After the release of a block whose successor only is free, the merged block
is the first entry of the free list. -/
theorem free_next_head {h : Heap} {pre post fl : List Nat} {c n : Nat}
    (r : Rep h (pre ++ c :: n :: post) fl)
    (hc : ¬ blkmngr_is_free h.mem c = true)
    (hp : ¬ blkmngr_is_free h.mem (pre.getLastD 0) = true)
    (hn : blkmngr_is_free h.mem n = true)
    (h' : Heap) (e : __do_free h (c + 12) = .ok h') : h'.freelist = c := by
  have hU := U32_eq
  have hcm : c ∈ pre ++ c :: n :: post := List.mem_append_right _ (List.mem_cons_self _ _)
  have hnm : n ∈ pre ++ c :: n :: post :=
    List.mem_append_right _ (List.mem_cons_of_mem _ (List.mem_cons_self _ _))
  have hc0 := r.nonzero c hcm
  obtain ⟨hptr, hcur, hprev, hnext⟩ := free_entry r
  simp only [List.headD_cons] at hnext
  have hcfl : c ∉ fl := fun hm => hc (r.fsound c hm).2
  have hnfl : n ∈ fl := r.fcomplete n hnm hn
  have hbc : block_end h c = n := by simpa using r.block_end_eq
  have hbn := r.lt_u32 n hnm
  unfold block_end OVERHEAD at hbc
  have hv0 : (blkmngr_get_real_size (h.mem c).size + OVERHEAD +
      blkmngr_get_real_size (h.mem n).size) % U32 = payload h c + 12 + payload h n := by
    show (payload h c + 12 + payload h n) % U32 = _
    exact Nat.mod_eq_of_lt (by omega)
  have hnn : blkmngr_get_next_block (blkmngr_set_free (h.set_size c
      (payload h c + 12 + payload h n)) c 1) n = .ok (h.mem n).next :=
    r.get_next_of n hnm rfl rfl (by simp)
  obtain ⟨g5, fl5, hg5, hfc5, hnd5, hm5, hs5, hn5, a1, a2, a3, a4, a5⟩ :=
    remove_spec (((blkmngr_set_free (h.set_size c
      (payload h c + 12 + payload h n)) c 1).set_next c (h.mem n).next).set_tail
      (if h.tail = n then c else h.tail)) n fl r.freelist_ptr (by simpa using r.fchain)
      r.fnodup r.fnonzero (by
        have := r.length_le
        have := r.flength_le
        omega) hnfl
  have hcfl5 : c ∉ fl5 := fun hm => hcfl ((hm5 c).1 hm).1
  obtain ⟨g6, hg6, hfc6, hs6, hn6, e1, e2, e3, e4, e5⟩ :=
    add_spec g5 c fl5 hc0 (r.freelist_ptr_of (by rw [a1]; rfl)) hfc5 hcfl5
  have hex : __do_free h (c + 12) = .ok g6 := by
    unfold __do_free c_assert
    simp only [hptr, r.head_ptr, r.tail_ptr, r.freelist_ptr, ne_eq, not_false_eq_true, and_self,
      ↓reduceIte, ok_bind, hcur, hprev, hnext, hp, hn, Bool.and_false, Bool.false_and,
      Bool.false_eq_true, hv0, hnn, ite_set_tail, set_next_tail, set_free_tail, set_size_tail,
      hg5, hg6]
  rw [hex] at e
  rw [← Except.ok.inj e]
  exact add_freelist_head _ _ _ hg6

/-- An allocation served by the free block `b`, followed by the release of the
returned address, rebuilds the heap over the same chain: block headers, upper
boundary and free blocks are those of the start, and `b` opens the free list. -/
theorem round_trip_full {h : Heap} {pre post fl : List Nat} {b : Nat}
    (r : Rep h (pre ++ b :: post) fl)
    (b3 : no_adjacent_free h.mem (pre ++ b :: post)) (n : Nat) (hn : n ≠ 0)
    (hfind : blkmngr_find_best_fitting h (CEIL16 n) = .ok b) (hb0 : b ≠ 0) :
    ∃ h1 h2 fl1 fl2, __do_malloc h n = .ok (b + 12, h1) ∧
      (payload h b - CEIL16 n < 8 + 12 → Rep h1 (pre ++ b :: post) fl1) ∧
      (¬ payload h b - CEIL16 n < 8 + 12 →
        Rep h1 (pre ++ b :: (b + (CEIL16 n + 12)) :: post) fl1) ∧
      __do_free h1 (b + 12) = .ok h2 ∧
      Rep h2 (pre ++ b :: post) fl2 ∧ h2.top = h.top ∧
      (∀ x ∈ pre ++ b :: post, (h2.mem x).size = (h.mem x).size) ∧
      (∀ x, x ∈ fl2 ↔ x ∈ fl) ∧ h2.freelist = b := by
  have hU := U32_eq
  have h16 := ceil16_mod n
  obtain ⟨hbfl, hle, hfree, -⟩ := hit_entry r n hfind hb0
  have hbm : b ∈ pre ++ b :: post := List.mem_append_right _ (List.mem_cons_self _ _)
  have hev := r.payload_even b hbm
  have hpf := r.payload_free b hbm hfree
  have hnd := r.nodup
  have hnd1 := List.nodup_append.1 hnd
  have hnd2 := List.nodup_cons.1 hnd1.2.1
  have hb_pre : ∀ y ∈ pre, y ≠ b := fun y hy hyb =>
    hnd1.2.2 hy (hyb ▸ List.mem_cons_self _ _)
  have hb_post : ∀ y ∈ post, y ≠ b := fun y hy hyb => hnd2.1 (hyb ▸ hy)
  obtain ⟨hmid1, hmid2⟩ := naf_mid h.mem pre post b b3
  have hp : ¬ blkmngr_is_free h.mem (pre.getLastD 0) = true := fun hh => hmid1 ⟨hh, hfree⟩
  have hnx : ¬ blkmngr_is_free h.mem (post.headD 0) = true := fun hh => hmid2 ⟨hfree, hh⟩
  by_cases hsmall : payload h b - CEIL16 n < 8 + 12
  · obtain ⟨h1, fl1, hex, r1, d1, d2, d3, d4, d5, d6⟩ := malloc_nosplit r n hn hfind hb0 hsmall
    have hc1 : ¬ blkmngr_is_free h1.mem b = true :=
      not_free_of_even _ _ (by rw [d5]; exact hev)
    have hp1 : ¬ blkmngr_is_free h1.mem (pre.getLastD 0) = true := by
      rw [flag_last pre (fun x hx => d4 x (hb_pre x hx))]; exact hp
    have hn1 : ¬ blkmngr_is_free h1.mem (post.headD 0) = true := by
      rw [flag_first post (fun x hx => d4 x (hb_post x hx))]; exact hnx
    obtain ⟨h2, hex2, r2, e1, -, -, e4, e5⟩ := free_neither r1 hc1 hp1 hn1
    have hpb : payload h1 b = payload h b := by
      rw [r1.payload_eq _ hbm, d5]; omega
    refine ⟨h1, h2, fl1, b :: fl1, hex, fun _ => r1, fun hh => absurd hsmall hh, hex2, r2,
      by rw [e1, d1], ?_, ?_, ?_⟩
    · intro x hx
      by_cases hxb : x = b
      · rw [hxb, e5, hpb, hpf]
      · rw [e4 x hxb, d4 x hxb]
    · intro x
      rw [List.mem_cons, d6]
      constructor
      · rintro (e | ⟨hx, -⟩)
        · rw [e]; exact hbfl
        · exact hx
      · intro hx
        by_cases hxb : x = b
        · exact Or.inl hxb
        · exact Or.inr ⟨hx, hxb⟩
    · exact r2.fchain.1
  · obtain ⟨h1, fl1, hex, r1, d1, d2, d3, d4, d5, d6, d7⟩ :=
      malloc_split r n hn hfind hb0 hsmall hnx
    have hlt := r.lt_u32 b hbm
    have hSbs : b + (CEIL16 n + 12) ∉ pre ++ b :: post :=
      r.inner_not_mem _ (by omega) (by unfold block_end OVERHEAD; omega)
    have hS_pre : ∀ y ∈ pre, y ≠ b + (CEIL16 n + 12) :=
      fun y hy e => hSbs (e ▸ List.mem_append_left _ hy)
    have hbm1 : b ∈ pre ++ b :: (b + (CEIL16 n + 12)) :: post := by simp
    have hSm1 : b + (CEIL16 n + 12) ∈ pre ++ b :: (b + (CEIL16 n + 12)) :: post := by simp
    have hc1 : ¬ blkmngr_is_free h1.mem b = true :=
      not_free_of_even _ _ (by rw [d5]; omega)
    have hfS : blkmngr_is_free h1.mem (b + (CEIL16 n + 12)) = true :=
      free_of_odd _ _ (by omega) (by rw [d6]; omega)
    have hp1 : ¬ blkmngr_is_free h1.mem (pre.getLastD 0) = true := by
      rw [flag_last pre (fun x hx => d4 x (hb_pre x hx) (hS_pre x hx))]; exact hp
    obtain ⟨h2, fl2, hex2, r2, e1, -, -, e4, e5, e6⟩ := free_next r1 hc1 hp1 hfS
    have hhead := free_next_head r1 hc1 hp1 hfS h2 hex2
    have hpb : payload h1 b = CEIL16 n := by
      rw [r1.payload_eq _ hbm1, d5]; omega
    have hpS : payload h1 (b + (CEIL16 n + 12)) = payload h b - CEIL16 n - 12 := by
      rw [r1.payload_eq _ hSm1, d6]; omega
    refine ⟨h1, h2, fl1, fl2, hex, fun hh => absurd hh hsmall, fun _ => r1, hex2, r2,
      by rw [e1, d1], ?_, ?_, hhead⟩
    · intro x hx
      by_cases hxb : x = b
      · rw [hxb, e5, hpb, hpS, ← hpf]; omega
      · have hxS : x ≠ b + (CEIL16 n + 12) := fun e => hSbs (e ▸ hx)
        rw [e4 x hxb, d4 x hxb hxS]
    · intro x
      rw [e6, d7]
      constructor
      · rintro (e | ⟨e | ⟨hx, -⟩, hxS⟩)
        · rw [e]; exact hbfl
        · exact absurd e hxS
        · exact hx
      · intro hx
        by_cases hxb : x = b
        · exact Or.inl hxb
        · refine Or.inr ⟨Or.inr ⟨hx, hxb⟩, ?_⟩
          intro e
          exact hSbs (e ▸ (r.fsound x hx).1)

/-- The block returned by the search loop is the candidate it was started with
or a block met on the free list whose flag is set. -/
theorem find_loop_mem (mem : Nat → block_t) (size : Nat) (fuel cur best b : Nat)
    (e : find_loop mem size fuel cur best = .ok b) :
    b = best ∨ (b ∈ walk (fun x => (mem x).nextfree) fuel cur ∧
      blkmngr_is_free mem b = true) := by
  induction fuel generalizing cur best with
  | zero => simp [find_loop] at e
  | succ k ih =>
    by_cases hc : cur = 0
    · simp [find_loop, hc] at e
      exact Or.inl e.symm
    · have hfit := does_it_fit_eq mem cur size hc
      unfold find_loop at e
      simp only [hc, ↓reduceIte, hfit, ok_bind] at e
      have hw : ∀ x, x ∈ walk (fun x => (mem x).nextfree) k (mem cur).nextfree →
          x ∈ walk (fun x => (mem x).nextfree) (k + 1) cur := by
        intro x hx
        simp only [walk, hc, ↓reduceIte]
        exact List.mem_cons_of_mem _ hx
      by_cases hf : (decide ((mem cur).size ≥ blkmngr_get_real_size size) &&
          blkmngr_is_free mem cur) = true
      · have hfree : blkmngr_is_free mem cur = true := by
          rw [Bool.and_eq_true] at hf
          exact hf.2
        simp only [hf, Bool.not_true, Bool.false_eq_true, ↓reduceIte] at e
        by_cases hbetter : best = 0 ∨ (mem cur).size < (mem best).size
        · simp only [hbetter, ↓reduceIte] at e
          rcases ih _ _ e with h1 | ⟨h1, h2⟩
          · refine Or.inr ⟨?_, by rw [h1]; exact hfree⟩
            rw [h1]
            simp [walk, hc]
          · exact Or.inr ⟨hw b h1, h2⟩
        · simp only [hbetter, ↓reduceIte] at e
          rcases ih _ _ e with h1 | ⟨h1, h2⟩
          · exact Or.inl h1
          · exact Or.inr ⟨hw b h1, h2⟩
      · have hf' : (decide ((mem cur).size ≥ blkmngr_get_real_size size) &&
            blkmngr_is_free mem cur) = false := by simpa using hf
        simp only [hf', Bool.not_false, ↓reduceIte] at e
        rcases ih _ _ e with h1 | ⟨h1, h2⟩
        · exact Or.inl h1
        · exact Or.inr ⟨hw b h1, h2⟩

/-- A block returned by `blkmngr_find_best_fitting` is on the free list and has
its flag set. -/
theorem find_best_mem (h : Heap) (size b : Nat)
    (e : blkmngr_find_best_fitting h size = .ok b) (hb0 : b ≠ 0) :
    b ∈ freeblocks h ∧ blkmngr_is_free h.mem b = true := by
  unfold blkmngr_find_best_fitting c_assert at e
  by_cases hp : h.freelist_ptr = 0
  · simp [hp, bind, Except.bind] at e
  · simp only [ne_eq, hp, not_false_eq_true, ↓reduceIte, ok_bind] at e
    by_cases hf : h.freelist = 0
    · simp only [hf, ↓reduceIte] at e
      have e' : (Except.ok 0 : Except Fault Nat) = .ok b := e
      exact absurd (Except.ok.inj e').symm hb0
    · simp only [hf, ↓reduceIte] at e
      rcases find_loop_mem _ _ _ _ _ _ e with h1 | h1
      · exact absurd h1 hb0
      · exact h1

/-- The value returned by `blkmngr_get_next_block` is null or the `next` field. -/
theorem get_next_cases (h : Heap) (b n : Nat) (e : blkmngr_get_next_block h b = .ok n) :
    n = 0 ∨ n = (h.mem b).next := by
  unfold blkmngr_get_next_block c_assert at e
  by_cases h1 : b = 0
  · simp [h1, bind, Except.bind] at e
  · by_cases h2 : h.tail_ptr = 0
    · simp [h1, h2, bind, Except.bind] at e
    · by_cases h3 : h.tail = 0
      · simp [h1, h2, h3, bind, Except.bind] at e
      · simp only [ne_eq, h1, h2, h3, not_false_eq_true, ↓reduceIte, ok_bind] at e
        by_cases h4 : b = h.tail
        · rw [if_pos h4] at e
          have e' : (Except.ok 0 : Except Fault Nat) = .ok n := e
          exact Or.inl (Except.ok.inj e').symm
        · rw [if_neg h4] at e
          have e' : (Except.ok (h.mem b).next : Except Fault Nat) = .ok n := e
          exact Or.inr (Except.ok.inj e').symm

/-- A well-formed heap satisfies B2. -/
theorem WF.b2 {h : Heap} (wf : WF h) : B2 h := by
  have r := wf.rep
  refine ⟨?_, r.chain, r.tail_eq⟩
  have hs := lnk_sorted _ (block_end_ge h) _ _ _ r.layout
  refine hs.imp ?_
  intro a b hab
  have := block_end_ge h a
  omega

/-- A well-formed heap satisfies B4. -/
theorem WF.b4 {h : Heap} (wf : WF h) : B4 h :=
  ⟨wf.rep.fsound, wf.rep.fcomplete, wf.rep.fnodup, wf.rep.fchain⟩

/-- In a heap satisfying B2, B3 and B4 the successor of a block returned by
`blkmngr_find_best_fitting` is null or a block of the chain whose flag is clear. -/
theorem best_fit_successor (h : Heap) (size b n : Nat) (b2 : B2 h) (b3 : B3 h) (b4 : B4 h)
    (hfind : blkmngr_find_best_fitting h size = .ok b) (hb0 : b ≠ 0)
    (hnext : blkmngr_get_next_block h b = .ok n) :
    blkmngr_is_free h.mem b = true ∧ blkmngr_is_free h.mem n = false ∧
      (n = 0 ∨ n ∈ allocated h) := by
  obtain ⟨hbfl, hfree⟩ := find_best_mem h size b hfind hb0
  have hbm := (b4.1 b hbfl).1
  obtain ⟨pre, post, e⟩ := List.append_of_mem hbm
  have hch := b2.2.1
  unfold B3 at b3
  rw [e] at hch b3
  have hnx : (h.mem b).next = post.headD 0 := lnk_next_of_mem _ pre post b _ 0 hch
  have hmid := (naf_mid h.mem pre post b b3).2
  have hnf : ¬ blkmngr_is_free h.mem (post.headD 0) = true := fun hh => hmid ⟨hfree, hh⟩
  rcases get_next_cases h b n hnext with h0 | h1
  · exact ⟨hfree, by rw [h0]; exact is_free_zero _, Or.inl h0⟩
  · rw [hnx] at h1
    refine ⟨hfree, by rw [h1]; simpa using hnf, ?_⟩
    cases post with
    | nil => exact Or.inl h1
    | cons y l =>
      refine Or.inr ?_
      rw [mem_allocated, h1, e]
      exact ⟨by simp, hnf⟩

theorem tri1_eq : __do_malloc low0 16 = .ok (4120, tri1) := rfl
theorem tri2_eq : __do_malloc tri1 16 = .ok (4148, tri2) := rfl

theorem reach_safe_tri2 : ReachSafe zero_mem 4096 0 tri2 :=
  ReachSafe.malloc (ReachSafe.malloc ReachSafe.init (by decide) (by decide) tri1_eq)
    (by decide) (by decide) tri2_eq

/-- Two distinct blocks of a chain laid out one after the other: one ends
before the other starts. -/
theorem Rep.apart {h : Heap} {bs fl : List Nat} (r : Rep h bs fl) (a c : Nat)
    (ha : a ∈ bs) (hc : c ∈ bs) (hac : a ≠ c) :
    block_end h a ≤ c ∨ block_end h c ≤ a := by
  have hs := lnk_sorted _ (block_end_ge h) _ _ _ r.layout
  have hs' : bs.Pairwise (fun x y => block_end h x ≤ y ∨ block_end h y ≤ x) :=
    hs.imp (fun hxy => Or.inl hxy)
  exact hs'.forall (fun x y hxy => hxy.symm) ha hc hac

/-- C31: physical contiguity. In every heap reached from `kheap_init` by calls of
`__do_malloc` and `__do_free` in which neither `size + 15` nor
`top + CEIL(size,16) + 12` passes `2^32`: when the chain has a block, `head` is
`vm_start + 12` and is on the chain; every block `b` of the chain other than
`tail` has `b.next = b + 12 + payload(b)`, and that address is again a block
of the chain; when the chain has a block, `tail` is on the chain and
`tail + 12 + payload(tail) = top`; and an empty chain has `top = vm_start + 12`. -/
theorem physical_contiguity (mem : Nat → block_t) (base order : Nat) (h : Heap)
    (hb : 0 < base) (hend : base + 2 ^ order * PAGE_SIZE < U32)
    (hr : ReachSafe mem base order h) :
    (blocks h ≠ [] → h.head = h.vm_start + OVERHEAD ∧ h.head ∈ blocks h) ∧
    (∀ b ∈ blocks h, b ≠ h.tail →
      (h.mem b).next = b + OVERHEAD + payload h b ∧ (h.mem b).next ∈ blocks h) ∧
    (blocks h ≠ [] → h.tail ∈ blocks h ∧ h.tail + OVERHEAD + payload h h.tail = h.top) ∧
    (blocks h = [] → h.top = h.vm_start + OVERHEAD) := by
  have hO := OVERHEAD_eq
  obtain ⟨wf, -⟩ := reach_safe_inv mem base order hb hend h hr
  have r := wf.rep
  refine ⟨?_, ?_, ?_, ?_⟩
  · intro hne
    have hl := r.layout
    have hhd := r.head_eq
    cases hbs : blocks h with
    | nil => exact absurd hbs hne
    | cons y l =>
      rw [hbs] at hl hhd
      have h1 : h.vm_start + 3 * 4 = y := hl.1
      have h2 : h.head = y := hhd
      rw [h2]
      exact ⟨by omega, List.mem_cons_self _ _⟩
  · intro b hbm hbt
    obtain ⟨pre, post, e⟩ := List.append_of_mem hbm
    have r' := r
    rw [e] at r'
    have hn := r'.next_eq
    have he := r'.block_end_eq
    have ht := r'.tail_eq
    cases post with
    | nil =>
      exfalso
      apply hbt
      rw [ht]
      simp
    | cons y l =>
      simp only [List.headD_cons] at hn he
      unfold block_end at he
      rw [hn, he, e]
      exact ⟨rfl, by simp⟩
  · intro hne
    have ht := r.tail_eq
    have hm : h.tail ∈ blocks h := by
      rw [ht]
      exact getLastD_mem _ 0 hne
    obtain ⟨pre, post, e⟩ := List.append_of_mem hm
    have r' := r
    rw [e] at r'
    have he := r'.block_end_eq
    have ht' := r'.tail_eq
    have hnd := r'.nodup
    cases post with
    | nil =>
      simp only [List.headD_nil] at he
      unfold block_end at he
      exact ⟨hm, he⟩
    | cons y l =>
      exfalso
      have h1 : (pre ++ h.tail :: y :: l).getLastD 0 = (y :: l).getLastD 0 := by
        rw [show pre ++ h.tail :: y :: l = (pre ++ [h.tail]) ++ (y :: l) by simp]
        exact getLastD_append_ne _ _ _ (by simp)
      rw [h1] at ht'
      have h2 : h.tail ∈ y :: l := by
        rw [ht']
        exact getLastD_mem _ 0 (by simp)
      have h3 := (List.nodup_cons.1 (List.nodup_append.1 hnd).2.1).1
      exact h3 h2
  · intro hnil
    have hl := r.layout
    rw [hnil] at hl
    have h1 : h.vm_start + 3 * 4 = h.top := hl
    omega

/-- C31 at the heap `low3`, reached by `malloc(48)`, `free`, `malloc(16)` on a
fresh page at `0x1000`: an allocated block at `0x100c` and a free one at `0x1028`. -/
theorem physical_contiguity_witness :
    0 < 4096 ∧ 4096 + 2 ^ 0 * PAGE_SIZE < U32 ∧ ReachSafe zero_mem 4096 0 low3 ∧
      (blocks low3 ≠ [] → low3.head = low3.vm_start + OVERHEAD ∧ low3.head ∈ blocks low3) ∧
      (∀ b ∈ blocks low3, b ≠ low3.tail →
        (low3.mem b).next = b + OVERHEAD + payload low3 b ∧
          (low3.mem b).next ∈ blocks low3) ∧
      (blocks low3 ≠ [] →
        low3.tail ∈ blocks low3 ∧ low3.tail + OVERHEAD + payload low3 low3.tail = low3.top) ∧
      (blocks low3 = [] → low3.top = low3.vm_start + OVERHEAD) :=
  ⟨by decide, by decide, reach_safe_low3,
    physical_contiguity zero_mem 4096 0 low3 (by decide) (by decide) reach_safe_low3⟩

/-- C32: live allocations never overlap. In every heap reached from `kheap_init`
by calls of `__do_malloc` and `__do_free` of allocated blocks in which neither
`size + 15` nor `top + CEIL(size,16) + 12` passes `2^32`: the payload ranges
`[a + 12, a + 12 + payload a)` of two distinct allocated blocks lie one after
the other; each starts at `vm_start + 24` or above, hence after the prologue
`[vm_start, vm_start + 12)`, and ends at `top` or below; each lies before or
after the header `[c, c + 12)` of every block `c` of the chain; and the
address returned by a further such call of `__do_malloc` differs from the
payload address of every allocated block. -/
theorem live_allocations_disjoint (mem : Nat → block_t) (base order : Nat) (h : Heap)
    (hb : 0 < base) (hend : base + 2 ^ order * PAGE_SIZE < U32)
    (hr : ReachSafe mem base order h) :
    (∀ a ∈ allocated h, ∀ c ∈ allocated h, a ≠ c →
      a + OVERHEAD + payload h a ≤ c + OVERHEAD ∨
        c + OVERHEAD + payload h c ≤ a + OVERHEAD) ∧
    (∀ a ∈ allocated h, h.vm_start + 24 ≤ a + OVERHEAD ∧
      h.vm_start + OVERHEAD ≤ a + OVERHEAD ∧ a + OVERHEAD + payload h a ≤ h.top) ∧
    (∀ a ∈ allocated h, ∀ c ∈ blocks h,
      c + OVERHEAD ≤ a + OVERHEAD ∨ a + OVERHEAD + payload h a ≤ c) ∧
    (∀ size p h', size + 15 < U32 → h.top + CEIL16 size + 12 < U32 →
      __do_malloc h size = .ok (p, h') → ∀ a ∈ allocated h, p ≠ a + OVERHEAD) := by
  have hO := OVERHEAD_eq
  obtain ⟨wf, b3, -⟩ := reach_safe_inv mem base order hb hend h hr
  have r := wf.rep
  refine ⟨?_, ?_, ?_, ?_⟩
  · intro a ha c hc hac
    rw [mem_allocated] at ha hc
    have h1 := r.apart a c ha.1 hc.1 hac
    unfold block_end at h1
    omega
  · intro a ha
    rw [mem_allocated] at ha
    have h1 := r.mem_bounds a ha.1
    unfold block_end at h1
    omega
  · intro a ha c hc
    rw [mem_allocated] at ha
    by_cases hac : a = c
    · exact Or.inl (by omega)
    · have h1 := r.apart a c ha.1 hc hac
      have h2 := block_end_ge h c
      unfold block_end at h1 h2
      omega
  · intro size p h' hs1 hs2 hex a ha hpa
    rw [mem_allocated] at ha
    by_cases hs0 : size = 0
    · rw [hs0] at hex
      have e : (Except.ok (0, h) : Except Fault (Nat × Heap)) = .ok (p, h') := hex
      have := (ok_inj e).1
      omega
    · obtain ⟨bs', fl', b, -, -, -, -, -, hp, -, -, -, hnot, -⟩ :=
        malloc_rep r (b3.naf r) size hs0 p h' hex (fun _ => hs2)
      apply hnot
      have hba : b = a := by omega
      rw [hba]
      exact ha

/-- C32 at the heap `tri2`, reached by two calls `malloc(16)` on a fresh page
at `0x1000`: allocated blocks at `0x100c` and `0x1028`. -/
theorem live_allocations_disjoint_witness :
    0 < 4096 ∧ 4096 + 2 ^ 0 * PAGE_SIZE < U32 ∧ ReachSafe zero_mem 4096 0 tri2 ∧
      allocated tri2 = [4108, 4136] ∧
      (∀ a ∈ allocated tri2, ∀ c ∈ allocated tri2, a ≠ c →
        a + OVERHEAD + payload tri2 a ≤ c + OVERHEAD ∨
          c + OVERHEAD + payload tri2 c ≤ a + OVERHEAD) ∧
      (∀ a ∈ allocated tri2, tri2.vm_start + 24 ≤ a + OVERHEAD ∧
        tri2.vm_start + OVERHEAD ≤ a + OVERHEAD ∧ a + OVERHEAD + payload tri2 a ≤ tri2.top) ∧
      (∀ a ∈ allocated tri2, ∀ c ∈ blocks tri2,
        c + OVERHEAD ≤ a + OVERHEAD ∨ a + OVERHEAD + payload tri2 a ≤ c) ∧
      (∀ size p h', size + 15 < U32 → tri2.top + CEIL16 size + 12 < U32 →
        __do_malloc tri2 size = .ok (p, h') → ∀ a ∈ allocated tri2, p ≠ a + OVERHEAD) :=
  ⟨by decide, by decide, reach_safe_tri2, by decide,
    live_allocations_disjoint zero_mem 4096 0 tri2 (by decide) (by decide) reach_safe_tri2⟩

/-- C34: round trip on the hit path. On a well-formed heap satisfying B3, when
`blkmngr_find_best_fitting` returns a block `b` for `n > 0` rounded up,
`__do_malloc` returns `b + 12` and `__do_free` of that address returns; the
malloc keeps the chain when `payload(b) - R < 20` and inserts the split block
`b + 12 + R` after `b` otherwise; and in both cases the final heap has `b`
free with its payload and `next` of the start, the same `head`, `tail`, `top`
and chain, the size, flag and `next` of every other block unchanged, the same
set of blocks on the free list, and `b` at the head of the free list. -/
theorem hit_path_round_trip (h : Heap) (n b : Nat) (wf : WF h) (b3 : B3 h) (hn : 0 < n)
    (hfind : blkmngr_find_best_fitting h (CEIL16 n) = .ok b) (hb0 : b ≠ 0) :
    ∃ h1 h2, __do_malloc h n = .ok (b + OVERHEAD, h1) ∧
      __do_free h1 (b + OVERHEAD) = .ok h2 ∧
      (∃ pre post, blocks h = pre ++ b :: post ∧
        (payload h b - CEIL16 n < OVERHEAD + 8 → blocks h1 = pre ++ b :: post) ∧
        (OVERHEAD + 8 ≤ payload h b - CEIL16 n →
          blocks h1 = pre ++ b :: (b + OVERHEAD + CEIL16 n) :: post)) ∧
      blkmngr_is_free h2.mem b = true ∧ payload h2 b = payload h b ∧
      (h2.mem b).next = (h.mem b).next ∧
      h2.head = h.head ∧ h2.tail = h.tail ∧ h2.top = h.top ∧ blocks h2 = blocks h ∧
      (∀ x ∈ blocks h, x ≠ b → (h2.mem x).size = (h.mem x).size ∧
        blkmngr_is_free h2.mem x = blkmngr_is_free h.mem x ∧
        (h2.mem x).next = (h.mem x).next) ∧
      (∀ x, x ∈ freeblocks h2 ↔ x ∈ freeblocks h) ∧ h2.freelist = b := by
  have hO := OVERHEAD_eq
  obtain ⟨hbfl, hbm, hle, hfree⟩ := best_fit_mem wf n b hfind hb0
  obtain ⟨pre, post, e⟩ := List.append_of_mem hbm
  have r := wf.rep
  have r0 := r
  unfold B3 at b3
  rw [e] at r b3
  have hbm' : b ∈ pre ++ b :: post := by simp
  obtain ⟨h1, h2, fl1, fl2, ex1, c1, c2, ex2, r2, e1, e2, e3, e4⟩ :=
    round_trip_full r b3 n (by omega) hfind hb0
  have hnextall : ∀ x ∈ pre ++ b :: post, (h2.mem x).next = (h.mem x).next := by
    intro x hx
    obtain ⟨s, t, est⟩ := List.append_of_mem hx
    have ra := r
    have rb := r2
    rw [est] at ra rb
    rw [ra.next_eq, rb.next_eq]
  refine ⟨h1, h2, by rw [hO]; exact ex1, by rw [hO]; exact ex2, ⟨pre, post, e, ?_, ?_⟩, ?_,
    payload_congr h h2 b (e2 b hbm'), hnextall b hbm', ?_, ?_, e1, ?_, ?_, ?_, e4⟩
  · intro hs
    exact (c1 (by omega)).blocks_eq
  · intro hs
    rw [(c2 (by omega)).blocks_eq]
    congr 3
    omega
  · rw [is_free_congr h h2 b (e2 b hbm')]
    exact hfree
  · rw [r2.head_eq, r.head_eq]
  · rw [r2.tail_eq, r.tail_eq]
  · rw [r2.blocks_eq, e]
  · intro x hx hxb
    rw [e] at hx
    exact ⟨e2 x hx, is_free_congr h h2 x (e2 x hx), hnextall x hx⟩
  · intro x
    rw [r2.freeblocks_eq, e3, ← r0.freeblocks_eq]

/-- C34 at the heap `low2`, whose only block is free with payload 48, for
`malloc(16)`, which splits the block. -/
theorem hit_path_round_trip_witness :
    WF low2 ∧ B3 low2 ∧ 0 < 16 ∧ blkmngr_find_best_fitting low2 (CEIL16 16) = .ok 4108 ∧
      4108 ≠ 0 ∧ OVERHEAD + 8 ≤ payload low2 4108 - CEIL16 16 ∧
      ∃ h1 h2, __do_malloc low2 16 = .ok (4108 + OVERHEAD, h1) ∧
        __do_free h1 (4108 + OVERHEAD) = .ok h2 ∧
        (∃ pre post, blocks low2 = pre ++ 4108 :: post ∧
          (payload low2 4108 - CEIL16 16 < OVERHEAD + 8 → blocks h1 = pre ++ 4108 :: post) ∧
          (OVERHEAD + 8 ≤ payload low2 4108 - CEIL16 16 →
            blocks h1 = pre ++ 4108 :: (4108 + OVERHEAD + CEIL16 16) :: post)) ∧
        blkmngr_is_free h2.mem 4108 = true ∧ payload h2 4108 = payload low2 4108 ∧
        (h2.mem 4108).next = (low2.mem 4108).next ∧
        h2.head = low2.head ∧ h2.tail = low2.tail ∧ h2.top = low2.top ∧
        blocks h2 = blocks low2 ∧
        (∀ x ∈ blocks low2, x ≠ 4108 → (h2.mem x).size = (low2.mem x).size ∧
          blkmngr_is_free h2.mem x = blkmngr_is_free low2.mem x ∧
          (h2.mem x).next = (low2.mem x).next) ∧
        (∀ x, x ∈ freeblocks h2 ↔ x ∈ freeblocks low2) ∧ h2.freelist = 4108 :=
  ⟨by decide, by decide, by decide, rfl, by decide, by decide,
    hit_path_round_trip low2 16 4108 (by decide) (by decide) (by decide) rfl (by decide)⟩

/-! ## A trace that takes the absorb branch -/

theorem absorb1_eq : __do_malloc high0 64 = .ok (3221225496, absorb1) := rfl
theorem absorb2_eq : __do_malloc absorb1 16 = .ok (3221225572, absorb2) := rfl
theorem absorb3_eq : __do_malloc absorb2 1431655744 = .ok (3221225600, absorb3) := rfl
theorem absorb4_eq : __do_malloc absorb3 1431655744 = .ok (357914060, absorb4) := rfl
theorem absorb5_eq : __do_malloc absorb4 1431655696 = .ok (1789569816, absorb5) := rfl
theorem absorb6_eq : __do_free absorb5 (1789569804 + OVERHEAD) = .ok absorb6 := rfl
theorem absorb7_eq : __do_malloc absorb6 1610612736 = .ok (3221225524, absorb7) := rfl
theorem absorb8_eq : __do_free absorb7 (3221225484 + OVERHEAD) = .ok absorb8 := rfl
theorem absorb9_eq : __do_malloc absorb8 16 = .ok (3221225496, absorb9) := rfl
theorem absorb10_eq : __do_malloc absorb9 48 = .ok (1789569816, absorb10) := rfl

theorem reach_absorb5 : Reach zero_mem 3221225472 0 absorb5 :=
  Reach.malloc
    (Reach.malloc
      (Reach.malloc
        (Reach.malloc (Reach.malloc Reach.init (by decide) absorb1_eq) (by decide) absorb2_eq)
        (by decide) absorb3_eq)
      (by decide) absorb4_eq)
    (by decide) absorb5_eq

theorem reach_absorb9 : Reach zero_mem 3221225472 0 absorb9 :=
  Reach.malloc
    (Reach.free
      (Reach.malloc (Reach.free reach_absorb5 (by decide) absorb6_eq) (by decide) absorb7_eq)
      (by decide) absorb8_eq)
    (by decide) absorb9_eq

/-- C33: the absorb branch of `__do_malloc` is reached. On the fresh one-page
kernel heap at `0xC0000000`, the calls `a = malloc(64)`, `malloc(16)`,
`malloc(0x55555540)` twice, `e = malloc(0x55555510)`, `free(e)`,
`malloc(0x60000000)`, `free(a)`, `malloc(16)` all return; three of them move
the top past `2^32`, so that the block of `malloc(0x60000000)` lies at
`0xC0000028`, where the last call writes the remainder of the split of `a`.
In the heap reached, `blkmngr_find_best_fitting` returns `e` for 48 bytes,
`blkmngr_get_next_block` returns `0xC0000028` for it, and `blkmngr_is_free`
is true there; `malloc(48)` then returns `e + 12` and leaves the split block
`e + 60` with payload `0x55555510 - 48 - 12` plus `12 + 36`, the header and
payload of the block it absorbed. -/
theorem absorb_branch_reached :
    (¬ ∀ h : Heap, Reach zero_mem 3221225472 0 h → ∀ size b n,
        blkmngr_find_best_fitting h size = .ok b → b ≠ 0 →
        blkmngr_get_next_block h b = .ok n → blkmngr_is_free h.mem n = false) ∧
      Reach zero_mem 3221225472 0 absorb9 ∧
      blkmngr_find_best_fitting absorb9 48 = .ok 1789569804 ∧
      payload absorb9 1789569804 = 1431655696 ∧
      blkmngr_get_next_block absorb9 1789569804 = .ok 3221225512 ∧
      blkmngr_is_free absorb9.mem 3221225512 = true ∧
      payload absorb9 3221225512 = 36 ∧
      __do_malloc absorb9 48 = .ok (1789569804 + OVERHEAD, absorb10) ∧
      payload absorb10 (1789569804 + OVERHEAD + 48) = 1431655696 - 48 - OVERHEAD + (OVERHEAD + 36) ∧
      blkmngr_is_free absorb10.mem (1789569804 + OVERHEAD + 48) = true := by
  refine ⟨?_, reach_absorb9, rfl, by decide, rfl, by decide, by decide, rfl, by decide,
    by decide⟩
  intro hall
  have e := hall absorb9 reach_absorb9 48 1789569804 3221225512 rfl (by decide) rfl
  revert e
  decide

/-! ## The flag bit and the sizes written by the allocator -/

/-- The region of a kernel heap made by `kheap_init` spans at most 2 GiB. -/
theorem kheap_init_region (mem : Nat → block_t) (base order : Nat) (hb : 0 < base)
    (hend : base + 2 ^ order * PAGE_SIZE < U32) :
    (kheap_init mem base order).vm_end ≤ (kheap_init mem base order).vm_start + 2147483648 := by
  have hU := U32_eq
  have hp : PAGE_SIZE = 4096 := rfl
  obtain ⟨e1, e2, -⟩ := kheap_init_fields mem base order hb hend
  rw [e1, e2, hp]
  have h1 : order < 20 := by
    by_contra hge
    have h2 : 2 ^ 20 ≤ 2 ^ order := Nat.pow_le_pow_right (by norm_num) (by omega)
    rw [hp] at hend
    omega
  have h3 : 2 ^ order ≤ 2 ^ 19 := Nat.pow_le_pow_right (by norm_num) (by omega)
  omega

/-- The region of every heap reached from `kheap_init` without 32-bit overflow
spans at most 2 GiB. -/
theorem reach_safe_region (mem : Nat → block_t) (base order : Nat) (h : Heap) (hb : 0 < base)
    (hend : base + 2 ^ order * PAGE_SIZE < U32) (hr : ReachSafe mem base order h) :
    h.vm_end ≤ h.vm_start + 2147483648 := by
  have hU := U32_eq
  have hp : PAGE_SIZE = 4096 := rfl
  obtain ⟨-, -, e1, e2, -⟩ := reach_safe_inv mem base order hb hend h hr
  rw [e1, e2, hp]
  have h1 : order < 20 := by
    by_contra hge
    have h2 : 2 ^ 20 ≤ 2 ^ order := Nat.pow_le_pow_right (by norm_num) (by omega)
    rw [hp] at hend
    omega
  have h3 : 2 ^ order ≤ 2 ^ 19 := Nat.pow_le_pow_right (by norm_num) (by omega)
  omega

end Kheap
